import Mathlib

/-!
# Atmospheric: single-scattering sky shader (`Skeleton.cpp`)

A shallow embedding of the fragment shader of `Skeleton.cpp` and of `Camera::update`, and
theorems about them. The shader computes in binary32, and the embedding has two layers.

* `Atmospheric.Binary32` is the shader as it runs. A `float` is an IEEE 754 binary32 value:
  NaN, an infinity, or a finite value with its sign, so that both zeros and the subnormals
  are there. Every `+`, `-`, `*`, `/` and `sqrt` is rounded to nearest, ties to even, one
  operation at a time and in the order of the source; every literal `x.yf` is the binary32
  value nearest to the decimal; a comparison with NaN is false. `exp`, `cos` and `acos`,
  whose precision GLSL leaves to the implementation, are parameters (`Builtins`):
  nothing is assumed about them, and a theorem that needs a property of `exp` or `cos`
  (never below zero, non-decreasing, a bound at one argument) states it as a hypothesis.
  All definitions of this layer are computable, and the statements at concrete inputs are
  decided by evaluation. The statements for all inputs rest on what `round` computes: each
  operation returns a rounding of the exact result (`Rounds`), and rounding is monotone.
  Everything that depends on a branch taken or on rounding is stated in this layer. Of
  `main`, the tone-map line `color = 1.f - exp(-0.02f * color)` is embedded (`toneMap`).
* `Atmospheric` itself reads the formulas of the source over the real numbers. It serves
  the statements that are about the formulas (the branch relation of `forwardRaySphere`, the
  phase functions as functions of the angle, the camera basis), and it gives the exact
  geometry (distances, midpoints, closest approach) that the binary32 results are compared
  with: `Binary32.exact` sends a vector of floats to the point it stands for.

`bool f(..., out x1, out x2)` becomes a function into `Option`; a `for` loop becomes a
recursion on the number of remaining iterations, into `Option` when it has an early `return`.
-/

namespace Atmospheric

noncomputable section

/-! ## Exact layer: vectors and formulas over the reals -/

/-- GLSL `vec3` with real components. -/
@[ext]
structure vec3 where
  x : ℝ
  y : ℝ
  z : ℝ

namespace vec3

instance : Zero vec3 := ⟨⟨0, 0, 0⟩⟩
instance : Add vec3 := ⟨fun a b => ⟨a.x + b.x, a.y + b.y, a.z + b.z⟩⟩
instance : Sub vec3 := ⟨fun a b => ⟨a.x - b.x, a.y - b.y, a.z - b.z⟩⟩
instance : Neg vec3 := ⟨fun a => ⟨-a.x, -a.y, -a.z⟩⟩
/-- GLSL `vec3 * vec3`: component-wise product. -/
instance : Mul vec3 := ⟨fun a b => ⟨a.x * b.x, a.y * b.y, a.z * b.z⟩⟩
/-- GLSL `float * vec3`. -/
instance : HMul ℝ vec3 vec3 := ⟨fun s a => ⟨s * a.x, s * a.y, s * a.z⟩⟩
/-- GLSL `vec3 * float`. -/
instance : HMul vec3 ℝ vec3 := ⟨fun a s => ⟨a.x * s, a.y * s, a.z * s⟩⟩

end vec3

/-- GLSL `dot`. -/
def dot (a b : vec3) : ℝ := a.x * b.x + a.y * b.y + a.z * b.z

/-- GLSL `length`. -/
def length (a : vec3) : ℝ := Real.sqrt (dot a a)

/-- GLSL `distance`. -/
def distance (a b : vec3) : ℝ := length (a - b)

/-- GLSL `normalize`. -/
def normalize (a : vec3) : vec3 := a * (1 / length a)

/-- GLSL `cross`. -/
def cross (a b : vec3) : vec3 :=
  ⟨a.y * b.z - b.y * a.z, a.z * b.x - b.z * a.x, a.x * b.y - b.x * a.y⟩

/-- The constant `PI = 3.14159265f`: the binary32 value nearest to the literal,
`13176795 / 2^22 = 3.1415927410125732421875`. -/
def PI : ℝ := 13176795 / 4194304

/-- `solveQuadratic`: `none` is `return false`, `some (outX1, outX2)` is `return true`. -/
def solveQuadratic (a b c : ℝ) : Option (ℝ × ℝ) :=
  let D := b * b - 4 * a * c
  if D < 0 then none
  else
    let D := Real.sqrt D
    let denom := 2 * a
    some ((-b + D) / (denom + 0.00001), (-b - D) / (denom + 0.00001))

/-- `forwardRaySphere`. -/
def forwardRaySphere (rayStart rayDir : vec3) (radius : ℝ) : ℝ :=
  let a := dot rayDir rayDir
  let b := 2 * dot rayStart rayDir
  let c := dot rayStart rayStart - radius * radius
  match solveQuadratic a b c with
  | none => -1
  | some (t1, t2) =>
    if 0 < t1 ∧ 0 < t2 then (if t1 < t2 then t1 else t2)
    else if 0 < t1 then t1
    else if 0 < t2 then t2
    else -1

/-- `phaseRayleigh`. -/
def phaseRayleigh (theta : ℝ) : ℝ :=
  let normalizationFactor := 3 / (16 * PI)
  let ct := Real.cos theta
  normalizationFactor * (1 + ct * ct)

/-- `phaseHenyeyGreenstein`. -/
def phaseHenyeyGreenstein (theta g : ℝ) : ℝ :=
  let normalizationFactor := 3 / (8 * PI)
  let cosTheta := Real.cos theta
  let secondDenom := 1 + g * g - 2 * g * cosTheta
  normalizationFactor *
  3 * (1 - g * g) * (1 + cosTheta * cosTheta)
  / (2 * (2 + g * g) * Real.sqrt (secondDenom * secondDenom * secondDenom))

/-! ## Exact geometry, as the specification words it -/

/-- Distances from the sphere centre (the world origin) to the points `origin + t * direction`
of a ray, `t ≥ 0`. The closest approach of the ray is the least element of this set. -/
def rayDistances (origin direction : vec3) : Set ℝ :=
  {y | ∃ t : ℝ, 0 ≤ t ∧ y = length (origin + t * direction)}

/-- Midpoint of sub-step `i` when the segment from `A` to `B` is cut in 20 equal
sub-steps: `A + (i + 1/2) * (B - A) / 20`. -/
def midpointSample (A B : vec3) (i : ℕ) : vec3 :=
  A + ((i : ℝ) + 1 / 2) * ((B - A) * (1 / 20 : ℝ))

/-! ## Camera -/

/-- The C++ `struct Camera`. -/
structure Camera where
  forward : vec3
  right : vec3
  up : vec3
  pitch : ℝ
  yaw : ℝ
  fovY : ℝ

namespace framework

/-- Modelled from the spec: `cross` is declared in `framework.h`, which is not among the
sources. The spec has `Camera::update` derive "an orthonormal forward/right/up basis" with
it, so it is the cross product of two vectors. -/
def cross (a b : vec3) : vec3 :=
  ⟨a.y * b.z - a.z * b.y, a.z * b.x - a.x * b.z, a.x * b.y - a.y * b.x⟩

/-- Modelled from the spec: `normalize` is declared in `framework.h`, which is not among the
sources. The spec has `Camera::update` derive "an orthonormal forward/right/up basis" with
it, so it scales a vector to unit length. -/
def normalize (a : vec3) : vec3 := a * (1 / length a)

end framework

/-- `Camera::update`, with `cosf`, `sinf` read as the real cosine and sine. -/
def Camera.update (cam : Camera) : Camera :=
  let forward : vec3 :=
    ⟨Real.cos cam.pitch * -Real.sin cam.yaw, Real.sin cam.pitch,
      -Real.cos cam.pitch * Real.cos cam.yaw⟩
  let right := framework.normalize (framework.cross forward ⟨0, 1, 0⟩)
  let up := framework.cross right forward
  { cam with forward := forward, right := right, up := up }

end

/-! ## Binary32 layer: arithmetic -/

namespace Binary32

/-- A binary32 value: NaN, an infinity, or the finite value `(-1)^neg * m * 2^e`. The
operations below return finite values in the form of the format: `m < 2^24`,
`-149 ≤ e ≤ 104`, and `2^23 ≤ m` unless `e = -149`. -/
inductive float where
  | nan
  | inf (neg : Bool)
  | fin (neg : Bool) (m : Nat) (e : Int)
deriving DecidableEq

def bitLengthAux : Nat → Nat → Nat
  | 0, _ => 0
  | fuel + 1, n => if n = 0 then 0 else bitLengthAux fuel (n / 2) + 1

/-- Number of binary digits of `n`. -/
def bitLength (n : Nat) : Nat := bitLengthAux n n

/-- The float of sign `neg`, significand `q ≤ 2^24` and exponent `E`, with overflow to an
infinity. -/
def pack (neg : Bool) (q : Nat) (E : Int) : float :=
  if 16777216 ≤ q then
    (if 104 < E + 1 then float.inf neg else float.fin neg 8388608 (E + 1))
  else if 104 < E then float.inf neg
  else float.fin neg q E

/-- Round `(-1)^neg * (m + f) * 2^e` to the nearest binary32 value, ties to even, where
`f = 0` when `sticky` is false and `0 < f < 1` otherwise (then `m` has at least 26 digits). -/
def round (neg : Bool) (m : Nat) (e : Int) (sticky : Bool) : float :=
  let E : Int := max (e + ((bitLength m : Int) - 24)) (-149)
  if E ≤ e then pack neg (m * 2 ^ (e - E).toNat) E
  else
    let s := (E - e).toNat
    let q := m / 2 ^ s
    let rem := m % 2 ^ s
    let half := 2 ^ (s - 1)
    let up : Bool :=
      decide (half < rem) || (decide (rem = half) && (sticky || decide (q % 2 = 1)))
    pack neg (if up then q + 1 else q) E

/-- Zero of the given sign. -/
def zero (neg : Bool) : float := float.fin neg 0 (-149)

/-- Unary minus. -/
def neg : float → float
  | .nan => .nan
  | .inf s => .inf (!s)
  | .fin s m e => .fin (!s) m e

/-- The integer `(-1)^s * m * 2^(e1 - e)`, for `e ≤ e1`. -/
def scaled (s : Bool) (m : Nat) (e1 e : Int) : Int :=
  (if s then -1 else 1) * ((m * 2 ^ (e1 - e).toNat : Nat) : Int)

def addFin (s1 : Bool) (m1 : Nat) (e1 : Int) (s2 : Bool) (m2 : Nat) (e2 : Int) : float :=
  let e := min e1 e2
  let c := scaled s1 m1 e1 e + scaled s2 m2 e2 e
  if c = 0 then zero (s1 && s2)
  else round (decide (c < 0)) c.natAbs e false

/-- Binary32 `+`. -/
def add : float → float → float
  | .nan, _ => .nan
  | _, .nan => .nan
  | .inf s1, .inf s2 => if s1 = s2 then .inf s1 else .nan
  | .inf s1, .fin _ _ _ => .inf s1
  | .fin _ _ _, .inf s2 => .inf s2
  | .fin s1 m1 e1, .fin s2 m2 e2 => addFin s1 m1 e1 s2 m2 e2

/-- Binary32 `-`. -/
def sub (a b : float) : float := add a (neg b)

/-- Binary32 `*`. -/
def mul : float → float → float
  | .nan, _ => .nan
  | _, .nan => .nan
  | .inf s1, .inf s2 => .inf (s1 != s2)
  | .inf s1, .fin s2 m2 _ => if m2 = 0 then .nan else .inf (s1 != s2)
  | .fin s1 m1 _, .inf s2 => if m1 = 0 then .nan else .inf (s1 != s2)
  | .fin s1 m1 e1, .fin s2 m2 e2 =>
    if m1 * m2 = 0 then zero (s1 != s2) else round (s1 != s2) (m1 * m2) (e1 + e2) false

/-- Rounded quotient of `m1 * 2^e1` by `m2 * 2^e2`, both positive, with sign `s`. -/
def divFin (s : Bool) (m1 : Nat) (e1 : Int) (m2 : Nat) (e2 : Int) : float :=
  let k := bitLength m2 + 26
  let q := (m1 * 2 ^ k) / m2
  let r := (m1 * 2 ^ k) % m2
  round s q (e1 - e2 - k) (decide (r ≠ 0))

/-- Binary32 `/`. -/
def div : float → float → float
  | .nan, _ => .nan
  | _, .nan => .nan
  | .inf _, .inf _ => .nan
  | .inf s1, .fin s2 _ _ => .inf (s1 != s2)
  | .fin s1 _ _, .inf s2 => zero (s1 != s2)
  | .fin s1 m1 e1, .fin s2 m2 e2 =>
    if m2 = 0 then (if m1 = 0 then .nan else .inf (s1 != s2))
    else if m1 = 0 then zero (s1 != s2)
    else divFin (s1 != s2) m1 e1 m2 e2

def isqrtAux (n : Nat) : Nat → Nat → Nat
  | 0, acc => acc
  | b + 1, acc =>
    isqrtAux n b (if (acc + 2 ^ b) * (acc + 2 ^ b) ≤ n then acc + 2 ^ b else acc)

/-- Integer square root. -/
def isqrt (n : Nat) : Nat := isqrtAux n (bitLength n / 2 + 1) 0

/-- Binary32 `sqrt`, correctly rounded. -/
def sqrt : float → float
  | .nan => .nan
  | .inf s => if s then .nan else .inf false
  | .fin s m e =>
    if m = 0 then zero s
    else if s then .nan
    else
      let m2 := if e % 2 = 0 then m else 2 * m
      let e2 := if e % 2 = 0 then e else e - 1
      let r := isqrt (m2 * 2 ^ 52)
      round false r ((e2 - 52) / 2) (decide (r * r ≠ m2 * 2 ^ 52))

/-- Binary32 `a < b`: false when an operand is NaN. -/
def lt : float → float → Bool
  | .nan, _ => false
  | _, .nan => false
  | .inf s1, .inf s2 => s1 && !s2
  | .inf s1, .fin _ _ _ => s1
  | .fin _ _ _, .inf s2 => !s2
  | .fin s1 m1 e1, .fin s2 m2 e2 =>
    decide (scaled s1 m1 e1 (min e1 e2) < scaled s2 m2 e2 (min e1 e2))

/-- Binary32 `a <= b`: false when an operand is NaN. -/
def le : float → float → Bool
  | .nan, _ => false
  | _, .nan => false
  | a, b => !(lt b a)

/-- The float of a natural number (`20` for the `int` constant, `4.f`, `6371.f`, ...). -/
def ofNat (n : Nat) : float := if n = 0 then zero false else round false n 0 false

/-- The float literal with decimal digits `n` and `k` digits after the point:
`ofDecimal 2 2` is `0.02f`, `ofDecimal 6371010 3` is `6371.010f`. -/
def ofDecimal (n k : Nat) : float :=
  if n = 0 then zero false else divFin false n 0 (10 ^ k) 0

instance : Add float := ⟨add⟩
instance : Sub float := ⟨sub⟩
instance : Mul float := ⟨mul⟩
instance : Div float := ⟨div⟩
instance : Neg float := ⟨neg⟩
instance (n : Nat) : OfNat float n := ⟨ofNat n⟩

/-- The GLSL built-ins whose precision the GLSL specification leaves to the implementation.
They are parameters of the shader functions: nothing is assumed about their values. -/
structure Builtins where
  exp : float → float
  cos : float → float
  acos : float → float

/-! ## The shader in binary32 -/

/-- GLSL `vec3`. -/
structure vec3 where
  x : float
  y : float
  z : float
deriving DecidableEq

instance : Add vec3 := ⟨fun a b => ⟨a.x + b.x, a.y + b.y, a.z + b.z⟩⟩
instance : Sub vec3 := ⟨fun a b => ⟨a.x - b.x, a.y - b.y, a.z - b.z⟩⟩
instance : Neg vec3 := ⟨fun a => ⟨-a.x, -a.y, -a.z⟩⟩
instance : Mul vec3 := ⟨fun a b => ⟨a.x * b.x, a.y * b.y, a.z * b.z⟩⟩
instance : HMul float vec3 vec3 := ⟨fun s a => ⟨s * a.x, s * a.y, s * a.z⟩⟩
instance : HMul vec3 float vec3 := ⟨fun a s => ⟨a.x * s, a.y * s, a.z * s⟩⟩

/-- GLSL `dot`, evaluated left to right. -/
def dot (a b : vec3) : float := a.x * b.x + a.y * b.y + a.z * b.z

/-- GLSL `length`. -/
def length (a : vec3) : float := sqrt (dot a a)

/-- GLSL `distance`. -/
def distance (a b : vec3) : float := length (a - b)

/-- GLSL `exp` on a `vec3`. -/
def vexp (gl : Builtins) (a : vec3) : vec3 := ⟨gl.exp a.x, gl.exp a.y, gl.exp a.z⟩

def EARTH_RADIUS : float := 6371
def CAM_POS : vec3 := ⟨0, ofDecimal 6371010 3, 0⟩

def betaRayleigh : vec3 := ⟨ofDecimal 580 8, ofDecimal 165 7, ofDecimal 331 7⟩
def betaMie : vec3 := ⟨ofDecimal 21 6, ofDecimal 21 6, ofDecimal 21 6⟩
def betaExtinctionMie : vec3 := ((1 : float) / ofDecimal 9 1) * betaMie
def betaExtinctionOzone : vec3 := ⟨ofDecimal 1 12, ofDecimal 1 10, ofDecimal 1 9⟩
def SUN_STRENGTH : vec3 := (24 : float) * (⟨1, 1, 1⟩ : vec3)

def PI : float := ofDecimal 314159265 8
def INTEGRATION_STEPS : Nat := 20
def ATMOSPHERE_DENSITY_SCALING : float := ofDecimal 12 1

/-- `phaseRayleigh`. -/
def phaseRayleigh (gl : Builtins) (theta : float) : float :=
  let normalizationFactor := (3 : float) / (16 * PI)
  let ct := gl.cos theta
  normalizationFactor * (1 + ct * ct)

/-- Lines 55 to 59 of `phaseHenyeyGreenstein`, as a function of `cosTheta`. -/
def phaseHenyeyGreensteinOfCos (cosTheta g : float) : float :=
  let normalizationFactor := (3 : float) / (8 * PI)
  let secondDenom := 1 + g * g - 2 * g * cosTheta
  normalizationFactor *
  3 * (1 - g * g) * (1 + cosTheta * cosTheta)
  / (2 * (2 + g * g) * sqrt (secondDenom * secondDenom * secondDenom))

/-- `phaseHenyeyGreenstein`. -/
def phaseHenyeyGreenstein (gl : Builtins) (theta g : float) : float :=
  phaseHenyeyGreensteinOfCos (gl.cos theta) g

def densityRayleigh (gl : Builtins) (height : float) : float :=
  ATMOSPHERE_DENSITY_SCALING * gl.exp (height / -8)
def densityMie (gl : Builtins) (height : float) : float :=
  ATMOSPHERE_DENSITY_SCALING * gl.exp (height / -(ofDecimal 12 1))
def densityOzone (gl : Builtins) (height : float) : float :=
  ofDecimal 6 7 * densityRayleigh gl height
def height (point : vec3) : float := length point - EARTH_RADIUS

/-- `solveQuadratic`: `none` is `return false`, `some (outX1, outX2)` is `return true`. -/
def solveQuadratic (a b c : float) : Option (float × float) :=
  let D := b * b - 4 * a * c
  if lt D 0 then none
  else
    let D := sqrt D
    let denom := 2 * a
    some ((-b + D) / (denom + ofDecimal 1 5), (-b - D) / (denom + ofDecimal 1 5))

/-- `forwardRaySphere`. -/
def forwardRaySphere (rayStart rayDir : vec3) (radius : float) : float :=
  let a := dot rayDir rayDir
  let b := 2 * dot rayStart rayDir
  let c := dot rayStart rayStart - radius * radius
  match solveQuadratic a b c with
  | none => -1
  | some (t1, t2) =>
    if lt 0 t1 ∧ lt 0 t2 then (if lt t1 t2 then t1 else t2)
    else if lt 0 t1 then t1
    else if lt 0 t2 then t2
    else -1

/-- The `for` loop of `transmittanceBetween` with `n` iterations left, in the state
`p`, `totalDensityRay`, `totalDensityMie`, `totalDensityOzone`. `none` is the early
`return vec3(10000.f, 10000.f, 10000.f)`; `some` holds the three totals at loop exit. -/
def transmittanceLoop (gl : Builtins) (step : vec3) :
    Nat → vec3 → float → float → float → Option (float × float × float)
  | 0, _, totalDensityRay, totalDensityMie, totalDensityOzone =>
    some (totalDensityRay, totalDensityMie, totalDensityOzone)
  | n + 1, p, totalDensityRay, totalDensityMie, totalDensityOzone =>
    let h := height p
    if lt h 0 then none
    else
      transmittanceLoop gl step n (p + step) (totalDensityRay + densityRayleigh gl h)
        (totalDensityMie + densityMie gl h) (totalDensityOzone + densityOzone gl h)

/-- `transmittanceBetween`. -/
def transmittanceBetween (gl : Builtins) (pa pb : vec3) : vec3 :=
  let L := distance pa pb
  if lt L (ofDecimal 2 2) then ⟨0, 0, 0⟩
  else
    let ds := L / ofNat INTEGRATION_STEPS * 1000
    let step := (pb - pa) * ((1 : float) / ofNat INTEGRATION_STEPS)
    let p := pa + ofDecimal 5 1 * step
    match transmittanceLoop gl step INTEGRATION_STEPS p 0 0 0 with
    | none => ⟨10000, 10000, 10000⟩
    | some (totalDensityRay, totalDensityMie, totalDensityOzone) =>
      (totalDensityRay * ds) * betaRayleigh + (totalDensityMie * ds) * betaExtinctionMie
        + (totalDensityOzone * ds) * betaExtinctionOzone

/-- The `for` loop of `intensitySingleScattering` with `n` iterations left, in the state
`p`, `totalRayleigh`, `totalMie`; the result is the two totals at loop exit. -/
def scatteringLoop (gl : Builtins) (p0 l step : vec3) : Nat → vec3 → vec3 → vec3 → vec3 × vec3
  | 0, _, totalRayleigh, totalMie => (totalRayleigh, totalMie)
  | n + 1, p, totalRayleigh, totalMie =>
    let h := height p
    let scalePc := forwardRaySphere p (-l) (EARTH_RADIUS + 100)
    let pc := p + -l * scalePc
    let curTransPcP := transmittanceBetween gl pc p
    let curTransPPa := transmittanceBetween gl p p0
    let expTransmittance := vexp gl (-curTransPcP - curTransPPa)
    scatteringLoop gl p0 l step n (p + step)
      (totalRayleigh + densityRayleigh gl h * expTransmittance)
      (totalMie + densityMie gl h * expTransmittance)

/-- The atmosphere-exit point `pb` of `intensitySingleScattering` (lines 136 and 137). -/
def atmosphereExit (p0 v : vec3) : vec3 :=
  let hitScale := forwardRaySphere p0 (-v) (EARTH_RADIUS + 100)
  p0 + hitScale * (-v)

/-- The Rayleigh-plus-Mie scattering sum of `intensitySingleScattering`: the value of `ret`
after lines 172 to 174, before the direct-sun test. -/
def rayleighMieSum (gl : Builtins) (p0 v l : vec3) : vec3 :=
  let theta := gl.acos (dot v (-l) * ofDecimal 99 2)
  let pb := atmosphereExit p0 v
  let pa := p0
  let L := length (pb - pa)
  let ds := L / ofNat INTEGRATION_STEPS * 1000
  let step := (pb - pa) * ((1 : float) / ofNat INTEGRATION_STEPS)
  let p := pa + step * ofDecimal 5 1
  let totals := scatteringLoop gl p0 l step INTEGRATION_STEPS p ⟨0, 0, 0⟩ ⟨0, 0, 0⟩
  let totalRayleigh := totals.1 * (ds * SUN_STRENGTH)
  let totalMie := totals.2 * (ds * SUN_STRENGTH)
  SUN_STRENGTH * (
    totalRayleigh * phaseRayleigh gl theta * betaRayleigh +
    totalMie * phaseHenyeyGreenstein gl theta (-(ofDecimal 8 1)) * betaMie)

/-- The direct-sun term of `intensitySingleScattering` (lines 177 and 178), the value added
to `ret` inside the `if`. -/
def directSunTerm (gl : Builtins) (p0 v : vec3) : vec3 :=
  let directTransmittance := transmittanceBetween gl (atmosphereExit p0 v) p0
  SUN_STRENGTH * SUN_STRENGTH * PI * vexp gl (-directTransmittance)

/-- `intensitySingleScattering`; `incidentLight` is unused, as in the source. -/
def intensitySingleScattering (gl : Builtins) (p0 v l _incidentLight : vec3) : vec3 :=
  let hitScale := forwardRaySphere p0 (-v) EARTH_RADIUS
  if lt (-(ofDecimal 5 1)) hitScale then ⟨ofDecimal 7 2, ofDecimal 7 2, ofDecimal 7 2⟩
  else
    let theta := gl.acos (dot v (-l) * ofDecimal 99 2)
    let hitScale := forwardRaySphere p0 (-v) (EARTH_RADIUS + 100)
    let pb := p0 + hitScale * (-v)
    let pa := p0
    let L := length (pb - pa)
    let ds := L / ofNat INTEGRATION_STEPS * 1000
    let step := (pb - pa) * ((1 : float) / ofNat INTEGRATION_STEPS)
    let totalRayleigh : vec3 := ⟨0, 0, 0⟩
    let totalMie : vec3 := ⟨0, 0, 0⟩
    let p := pa + step * ofDecimal 5 1
    let totals := scatteringLoop gl p0 l step INTEGRATION_STEPS p totalRayleigh totalMie
    let totalRayleigh := totals.1 * (ds * SUN_STRENGTH)
    let totalMie := totals.2 * (ds * SUN_STRENGTH)
    let ret := SUN_STRENGTH * (
      totalRayleigh * phaseRayleigh gl theta * betaRayleigh +
      totalMie * phaseHenyeyGreenstein gl theta (-(ofDecimal 8 1)) * betaMie)
    if lt (ofDecimal 9993 4) (dot v l) then
      let directTransmittance := transmittanceBetween gl pb p0
      ret + SUN_STRENGTH * SUN_STRENGTH * PI * vexp gl (-directTransmittance)
    else ret

/-- The tone map of `main` on one channel (line 195): `1.f - exp(-0.02f * x)`. -/
def toneMap (gl : Builtins) (x : float) : float := 1 - gl.exp (-(ofDecimal 2 2) * x)

/-- Line 195 of `main`, `color = 1.f - exp(-0.02f * color)`, on the three channels. -/
def toneMapColour (gl : Builtins) (color : vec3) : vec3 :=
  ⟨toneMap gl color.x, toneMap gl color.y, toneMap gl color.z⟩

/-! ## Binary32 layer: control flow of the sampling loop, and the exact value of a float -/

/-- The `step` of `transmittanceBetween` (line 103). -/
def sampleStep (pa pb : vec3) : vec3 := (pb - pa) * ((1 : float) / ofNat INTEGRATION_STEPS)

/-- The first sample of `transmittanceBetween`: `p` after line 106. -/
def firstSample (pa pb : vec3) : vec3 := pa + ofDecimal 5 1 * sampleStep pa pb

/-- The sample `p` of the loop of `transmittanceBetween` at iteration `i`, when the loop
starts at `p0`: `p0` after `i` executions of `p += step`. -/
def sampleAt (step p0 : vec3) : Nat → vec3
  | 0 => p0
  | i + 1 => sampleAt step p0 i + step

/-- Whether the loop of `transmittanceBetween`, with `n` iterations left at the sample `p`,
takes the early return of line 111. The test is on `height p` alone, so this does not
depend on the accumulated densities nor on the built-ins. -/
def reachesGround (step : vec3) : Nat → vec3 → Bool
  | 0, _ => false
  | n + 1, p => lt (height p) 0 || reachesGround step n (p + step)

/-- The sign bit is clear, or the value is NaN: the float is not below zero and is not the
negative zero. -/
def float.signClear : float → Bool
  | .nan => true
  | .inf s => !s
  | .fin s _ _ => !s

/-- No channel compares below zero: each one is non-negative or NaN. -/
def vec3.neverNegative (a : vec3) : Bool := !(lt a.x 0) && !(lt a.y 0) && !(lt a.z 0)

/-- Neither NaN nor an infinity. -/
def float.isFinite : float → Bool
  | .fin _ _ _ => true
  | _ => false

/-- All three components are finite. -/
def vec3.isFinite (a : vec3) : Bool := a.x.isFinite && a.y.isFinite && a.z.isFinite

/-- The real number a finite float stands for; `0` for NaN and the infinities, which stand
for no real number. -/
noncomputable def toReal : float → ℝ
  | .nan => 0
  | .inf _ => 0
  | .fin s m e => (if s then -1 else 1) * (m : ℝ) * (2 : ℝ) ^ e

/-- The float `r` is a rounding of the real number `v` as the arithmetic operations produce
it: a zero of either sign when `v = 0`, and otherwise `round s m e st` for a sign `s` and a
magnitude `w * 2^e = |v|`, where `w` is the positive integer `m`, or lies strictly between `m`
and `m + 1` when `st` is set (and then `m` has at least 26 binary digits). -/
def Rounds (v : ℝ) (r : float) : Prop :=
  (v = 0 ∧ ∃ (s : Bool) (e : Int), r = float.fin s 0 e) ∨
  (∃ (s : Bool) (m : Nat) (e : Int) (st : Bool) (w : ℝ), 0 < m ∧
    ((st = false ∧ w = m) ∨ (st = true ∧ (m : ℝ) < w ∧ w < m + 1 ∧ 2 ^ 25 ≤ m)) ∧
    v = (if s then -1 else 1) * (w * 2 ^ e) ∧ r = round s m e st)

/-- A `vec3` of finite floats as a point of the exact layer. -/
noncomputable def exact (a : vec3) : Atmospheric.vec3 := ⟨toReal a.x, toReal a.y, toReal a.z⟩

end Binary32

/-! ## Exact layer: vector algebra -/

namespace vec3

@[simp] theorem zero_x : (0 : vec3).x = 0 := rfl
@[simp] theorem zero_y : (0 : vec3).y = 0 := rfl
@[simp] theorem zero_z : (0 : vec3).z = 0 := rfl
@[simp] theorem add_x (a b : vec3) : (a + b).x = a.x + b.x := rfl
@[simp] theorem add_y (a b : vec3) : (a + b).y = a.y + b.y := rfl
@[simp] theorem add_z (a b : vec3) : (a + b).z = a.z + b.z := rfl
@[simp] theorem sub_x (a b : vec3) : (a - b).x = a.x - b.x := rfl
@[simp] theorem sub_y (a b : vec3) : (a - b).y = a.y - b.y := rfl
@[simp] theorem sub_z (a b : vec3) : (a - b).z = a.z - b.z := rfl
@[simp] theorem neg_x (a : vec3) : (-a).x = -a.x := rfl
@[simp] theorem neg_y (a : vec3) : (-a).y = -a.y := rfl
@[simp] theorem neg_z (a : vec3) : (-a).z = -a.z := rfl
@[simp] theorem mul_x (a b : vec3) : (a * b).x = a.x * b.x := rfl
@[simp] theorem mul_y (a b : vec3) : (a * b).y = a.y * b.y := rfl
@[simp] theorem mul_z (a b : vec3) : (a * b).z = a.z * b.z := rfl
@[simp] theorem smul_x (s : ℝ) (a : vec3) : (s * a).x = s * a.x := rfl
@[simp] theorem smul_y (s : ℝ) (a : vec3) : (s * a).y = s * a.y := rfl
@[simp] theorem smul_z (s : ℝ) (a : vec3) : (s * a).z = s * a.z := rfl
@[simp] theorem mul_real_x (a : vec3) (s : ℝ) : (a * s).x = a.x * s := rfl
@[simp] theorem mul_real_y (a : vec3) (s : ℝ) : (a * s).y = a.y * s := rfl
@[simp] theorem mul_real_z (a : vec3) (s : ℝ) : (a * s).z = a.z * s := rfl

end vec3

theorem dot_self_nonneg (a : vec3) : 0 ≤ dot a a := by
  unfold dot
  nlinarith [mul_self_nonneg a.x, mul_self_nonneg a.y, mul_self_nonneg a.z]

theorem dot_self_pos (a : vec3) (h : a ≠ ⟨0, 0, 0⟩) : 0 < dot a a := by
  rcases lt_or_eq_of_le (dot_self_nonneg a) with hlt | heq
  · exact hlt
  · exfalso
    apply h
    unfold dot at heq
    have hx : a.x = 0 := by
      nlinarith [mul_self_nonneg a.x, mul_self_nonneg a.y, mul_self_nonneg a.z]
    have hy : a.y = 0 := by
      nlinarith [mul_self_nonneg a.x, mul_self_nonneg a.y, mul_self_nonneg a.z]
    have hz : a.z = 0 := by
      nlinarith [mul_self_nonneg a.x, mul_self_nonneg a.y, mul_self_nonneg a.z]
    exact vec3.ext hx hy hz

theorem length_nonneg (a : vec3) : 0 ≤ length a := Real.sqrt_nonneg _

theorem length_mul_self (a : vec3) : length a * length a = dot a a :=
  Real.mul_self_sqrt (dot_self_nonneg a)

/-- Along a ray the squared distance to the centre is a quadratic in the parameter, with the
coefficients `forwardRaySphere` forms. -/
theorem dot_ray (o d : vec3) (s : ℝ) :
    dot (o + s * d) (o + s * d) = dot d d * s ^ 2 + 2 * dot o d * s + dot o o := by
  simp only [dot, vec3.add_x, vec3.add_y, vec3.add_z, vec3.smul_x, vec3.smul_y, vec3.smul_z]
  ring

/-- Cauchy-Schwarz for `dot`. -/
theorem dot_sq_le (u w : vec3) : dot u w ^ 2 ≤ dot u u * dot w w := by
  unfold dot
  nlinarith [sq_nonneg (u.x * w.y - u.y * w.x), sq_nonneg (u.x * w.z - u.z * w.x),
    sq_nonneg (u.y * w.z - u.z * w.y)]

/-! ## Exact layer: `solveQuadratic` and `forwardRaySphere` -/

theorem solveQuadratic_of_neg (a b c : ℝ) (h : b * b - 4 * a * c < 0) :
    solveQuadratic a b c = none := by
  simp [solveQuadratic, h]

theorem solveQuadratic_of_nonneg (a b c : ℝ) (h : ¬ b * b - 4 * a * c < 0) :
    solveQuadratic a b c =
      some ((-b + Real.sqrt (b * b - 4 * a * c)) / (2 * a + 0.00001),
        (-b - Real.sqrt (b * b - 4 * a * c)) / (2 * a + 0.00001)) := by
  simp [solveQuadratic, h]

theorem forwardRaySphere_of_none (o d : vec3) (r : ℝ)
    (h : solveQuadratic (dot d d) (2 * dot o d) (dot o o - r * r) = none) :
    forwardRaySphere o d r = -1 := by
  simp [forwardRaySphere, h]

theorem forwardRaySphere_of_some (o d : vec3) (r t1 t2 : ℝ)
    (h : solveQuadratic (dot d d) (2 * dot o d) (dot o o - r * r) = some (t1, t2)) :
    forwardRaySphere o d r =
      if 0 < t1 ∧ 0 < t2 then (if t1 < t2 then t1 else t2)
      else if 0 < t1 then t1
      else if 0 < t2 then t2
      else -1 := by
  simp [forwardRaySphere, h]

/-- The result of `forwardRaySphere` is the sentinel or strictly positive. -/
theorem forwardRaySphere_neg_one_or_pos (o d : vec3) (r : ℝ) :
    forwardRaySphere o d r = -1 ∨ 0 < forwardRaySphere o d r := by
  cases hq : solveQuadratic (dot d d) (2 * dot o d) (dot o o - r * r) with
  | none => exact Or.inl (forwardRaySphere_of_none o d r hq)
  | some q =>
    obtain ⟨t1, t2⟩ := q
    rw [forwardRaySphere_of_some o d r t1 t2 hq]
    by_cases h1 : 0 < t1 <;> by_cases h2 : 0 < t2 <;> by_cases h3 : t1 < t2 <;>
      simp [h1, h2, h3]

/-- With a non-zero direction, `forwardRaySphere` misses exactly when the discriminant is
negative or the larger numerator `-b + sqrt D` is not positive. -/
theorem forwardRaySphere_eq_neg_one_iff (o d : vec3) (r : ℝ) (hd : d ≠ ⟨0, 0, 0⟩) :
    forwardRaySphere o d r = -1 ↔
      ¬ (0 ≤ (2 * dot o d) * (2 * dot o d) - 4 * dot d d * (dot o o - r * r) ∧
        0 < -(2 * dot o d) +
          Real.sqrt ((2 * dot o d) * (2 * dot o d) - 4 * dot d d * (dot o o - r * r))) := by
  have ha : 0 < dot d d := dot_self_pos d hd
  have hden : (0 : ℝ) < 2 * dot d d + 0.00001 := by norm_num; linarith
  by_cases hD : (2 * dot o d) * (2 * dot o d) - 4 * dot d d * (dot o o - r * r) < 0
  · rw [forwardRaySphere_of_none o d r (solveQuadratic_of_neg _ _ _ hD)]
    constructor
    · intro _ hcon
      linarith [hcon.1]
    · intro _
      rfl
  · rw [forwardRaySphere_of_some o d r _ _ (solveQuadratic_of_nonneg _ _ _ hD)]
    have hsq := Real.sqrt_nonneg
      ((2 * dot o d) * (2 * dot o d) - 4 * dot d d * (dot o o - r * r))
    set S := Real.sqrt ((2 * dot o d) * (2 * dot o d) - 4 * dot d d * (dot o o - r * r))
    have h1 : 0 < (-(2 * dot o d) + S) / (2 * dot d d + 0.00001) ↔ 0 < -(2 * dot o d) + S :=
      div_pos_iff_of_pos_right hden
    have h2 : 0 < (-(2 * dot o d) - S) / (2 * dot d d + 0.00001) ↔ 0 < -(2 * dot o d) - S :=
      div_pos_iff_of_pos_right hden
    push_neg at hD
    by_cases hp1 : 0 < -(2 * dot o d) + S
    · have e1 := h1.2 hp1
      have hne : ∀ x : ℝ, 0 < x → x ≠ -1 := fun x hx => by linarith
      constructor
      · intro hres
        exfalso
        by_cases hp2 : 0 < -(2 * dot o d) - S
        · have e2 := h2.2 hp2
          simp only [e1, e2, and_self, if_true] at hres
          split_ifs at hres
          · exact hne _ e1 hres
          · exact hne _ e2 hres
        · have e2 : ¬ 0 < (-(2 * dot o d) - S) / (2 * dot d d + 0.00001) :=
            fun hh => hp2 (h2.1 hh)
          simp only [e1, e2, and_false, if_false, if_true] at hres
          exact hne _ e1 hres
      · intro hcon
        exact absurd ⟨hD, hp1⟩ hcon
    · have hp2 : ¬ 0 < -(2 * dot o d) - S := fun hh => hp1 (by linarith)
      have e1 : ¬ 0 < (-(2 * dot o d) + S) / (2 * dot d d + 0.00001) :=
        fun hh => hp1 (h1.1 hh)
      have e2 : ¬ 0 < (-(2 * dot o d) - S) / (2 * dot d d + 0.00001) :=
        fun hh => hp2 (h2.1 hh)
      simp only [e1, e2, and_false, if_false]
      constructor
      · intro _ hcon
        exact hp1 hcon.2
      · intro _
        trivial

theorem length_eq_iff (p : vec3) (r : ℝ) (hr : 0 ≤ r) : length p = r ↔ dot p p = r * r :=
  Real.sqrt_eq_iff_mul_self_eq (dot_self_nonneg p) hr

theorem lt_length_iff (p : vec3) (r : ℝ) (hr : 0 ≤ r) : r < length p ↔ r * r < dot p p := by
  unfold length
  rw [Real.lt_sqrt hr, sq]

theorem length_lt_iff (p : vec3) (r : ℝ) (hr : 0 < r) : length p < r ↔ dot p p < r * r := by
  unfold length
  rw [Real.sqrt_lt' hr, sq]

theorem ne_zero_of_y_ne_zero (a : vec3) (h : a.y ≠ 0) : a ≠ ⟨0, 0, 0⟩ :=
  fun e => h (congrArg vec3.y e)

theorem ne_zero_of_x_ne_zero (a : vec3) (h : a.x ≠ 0) : a ≠ ⟨0, 0, 0⟩ :=
  fun e => h (congrArg vec3.x e)

/-- Length of a vector on the vertical axis. -/
theorem length_vertical (y : ℝ) : length ⟨0, y, 0⟩ = |y| := by
  unfold length dot
  simp only [mul_zero, zero_add, add_zero]
  rw [← sq, Real.sqrt_sq_eq_abs]

/-! ## Claims on the branches of `forwardRaySphere` -/

/-- C3. `forwardRaySphere` returns the smallest strictly positive one of the two values of
`solveQuadratic` for `a = d.d`, `b = 2 o.d`, `c = o.o - r^2`: their minimum if both are
positive, the positive one if exactly one is, and `-1` if neither is or `solveQuadratic`
fails; so the result is always `-1` or strictly positive. -/
theorem forwardRaySphere_smallest_positive_root (rayStart rayDir : vec3) (radius : ℝ) :
    (solveQuadratic (dot rayDir rayDir) (2 * dot rayStart rayDir)
        (dot rayStart rayStart - radius ^ 2) = none →
      forwardRaySphere rayStart rayDir radius = -1) ∧
    (∀ t1 t2 : ℝ,
      solveQuadratic (dot rayDir rayDir) (2 * dot rayStart rayDir)
        (dot rayStart rayStart - radius ^ 2) = some (t1, t2) →
      (0 < t1 ∧ 0 < t2 → forwardRaySphere rayStart rayDir radius = min t1 t2) ∧
      (0 < t1 ∧ ¬ 0 < t2 → forwardRaySphere rayStart rayDir radius = t1) ∧
      (¬ 0 < t1 ∧ 0 < t2 → forwardRaySphere rayStart rayDir radius = t2) ∧
      (¬ 0 < t1 ∧ ¬ 0 < t2 → forwardRaySphere rayStart rayDir radius = -1)) ∧
    (forwardRaySphere rayStart rayDir radius = -1 ∨
      0 < forwardRaySphere rayStart rayDir radius) := by
  rw [sq]
  refine ⟨forwardRaySphere_of_none rayStart rayDir radius, ?_,
    forwardRaySphere_neg_one_or_pos rayStart rayDir radius⟩
  intro t1 t2 hq
  rw [forwardRaySphere_of_some rayStart rayDir radius t1 t2 hq]
  refine ⟨?_, ?_, ?_, ?_⟩
  · rintro ⟨h1, h2⟩
    rw [if_pos ⟨h1, h2⟩]
    by_cases h3 : t1 < t2
    · rw [if_pos h3, min_eq_left (le_of_lt h3)]
    · rw [if_neg h3, min_eq_right (not_lt.1 h3)]
  · rintro ⟨h1, h2⟩
    rw [if_neg (fun h => h2 h.2), if_pos h1]
  · rintro ⟨h1, h2⟩
    rw [if_neg (fun h => h1 h.1), if_neg h1, if_pos h2]
  · rintro ⟨h1, h2⟩
    rw [if_neg (fun h => h1 h.1), if_neg h1, if_neg h2]

/-! ## Claims on the phase functions -/

theorem PI_pos : 0 < PI := by
  unfold PI
  norm_num

/-- An antiderivative of `phaseRayleigh θ * sin θ`. -/
theorem hasDerivAt_phaseRayleigh_primitive (x : ℝ) :
    HasDerivAt (fun θ : ℝ => 3 / (16 * PI) * (-Real.cos θ - Real.cos θ ^ 3 / 3))
      (phaseRayleigh x * Real.sin x) x := by
  have h := (((Real.hasDerivAt_cos x).neg).sub
    (((Real.hasDerivAt_cos x).pow 3).div_const 3)).const_mul (3 / (16 * PI))
  convert h using 1
  unfold phaseRayleigh
  simp
  ring

/-- Over the full sphere of solid angle `phaseRayleigh` integrates to `π / PI`: the
mathematical `π` over the constant `PI` of the program. -/
theorem phaseRayleigh_sphere_integral :
    2 * Real.pi * (∫ θ in (0 : ℝ)..Real.pi, phaseRayleigh θ * Real.sin θ) = Real.pi / PI := by
  have hcont : Continuous (fun θ : ℝ => phaseRayleigh θ * Real.sin θ) := by
    unfold phaseRayleigh
    fun_prop
  rw [intervalIntegral.integral_eq_sub_of_hasDerivAt
    (fun x _ => hasDerivAt_phaseRayleigh_primitive x) (hcont.intervalIntegrable _ _)]
  have hPI : PI ≠ 0 := ne_of_gt PI_pos
  simp only [Real.cos_pi, Real.cos_zero]
  field_simp
  ring

theorem phaseHenyeyGreenstein_zero (theta : ℝ) :
    phaseHenyeyGreenstein theta 0 = 9 / (32 * PI) * (1 + Real.cos theta * Real.cos theta) := by
  have hPI : PI ≠ 0 := ne_of_gt PI_pos
  unfold phaseHenyeyGreenstein
  simp only [mul_zero, zero_mul, add_zero, sub_zero, mul_one, Real.sqrt_one]
  field_simp
  ring

/-- For `|g| < 1` the base `1 + g² - 2 g cos θ` of `phaseHenyeyGreenstein` is at least
`(1 - |g|)²`. -/
theorem henyeyGreenstein_base_ge (theta g : ℝ) :
    (1 - |g|) ^ 2 ≤ 1 + g * g - 2 * g * Real.cos theta := by
  have h1 : g * Real.cos theta ≤ |g| := by
    calc g * Real.cos theta ≤ |g * Real.cos theta| := le_abs_self _
      _ = |g| * |Real.cos theta| := abs_mul _ _
      _ ≤ |g| * 1 := mul_le_mul_of_nonneg_left (Real.abs_cos_le_one theta) (abs_nonneg g)
      _ = |g| := mul_one _
  have h2 : |g| ^ 2 = g * g := by rw [sq_abs, sq]
  nlinarith

/-- Over the reals, for every `theta` and every `g` with `|g| < 1`, the base `1 + g² - 2 g cos θ` in
`phaseHenyeyGreenstein` is at least `(1 - |g|)² > 0`, so the square root is taken of a positive
number, the denominator is non-zero, `sqrt(base³)` is `base^(3/2)`, and the value of
`phaseHenyeyGreenstein theta g` is strictly positive. -/
theorem phaseHenyeyGreenstein_pos_of_abs_lt_one (theta g : ℝ) (hg : |g| < 1) :
    ((1 - |g|) ^ 2 ≤ 1 + g * g - 2 * g * Real.cos theta ∧ 0 < (1 - |g|) ^ 2) ∧
    0 < (1 + g * g - 2 * g * Real.cos theta) * (1 + g * g - 2 * g * Real.cos theta)
      * (1 + g * g - 2 * g * Real.cos theta) ∧
    2 * (2 + g * g) * Real.sqrt ((1 + g * g - 2 * g * Real.cos theta)
      * (1 + g * g - 2 * g * Real.cos theta) * (1 + g * g - 2 * g * Real.cos theta)) ≠ 0 ∧
    Real.sqrt ((1 + g * g - 2 * g * Real.cos theta) * (1 + g * g - 2 * g * Real.cos theta)
      * (1 + g * g - 2 * g * Real.cos theta))
      = (1 + g * g - 2 * g * Real.cos theta) ^ ((3 : ℝ) / 2) ∧
    0 < phaseHenyeyGreenstein theta g := by
  have hge := henyeyGreenstein_base_ge theta g
  have hlow : 0 < (1 - |g|) ^ 2 := pow_pos (by linarith) 2
  have hbase : 0 < 1 + g * g - 2 * g * Real.cos theta := lt_of_lt_of_le hlow hge
  have hcube : 0 < (1 + g * g - 2 * g * Real.cos theta) * (1 + g * g - 2 * g * Real.cos theta)
      * (1 + g * g - 2 * g * Real.cos theta) := by positivity
  have hsqrt := Real.sqrt_pos.2 hcube
  have hgg : 0 ≤ g * g := mul_self_nonneg g
  have hden : 0 < 2 * (2 + g * g) * Real.sqrt ((1 + g * g - 2 * g * Real.cos theta)
      * (1 + g * g - 2 * g * Real.cos theta) * (1 + g * g - 2 * g * Real.cos theta)) := by
    positivity
  refine ⟨⟨hge, hlow⟩, hcube, ne_of_gt hden, ?_, ?_⟩
  · have e : (1 + g * g - 2 * g * Real.cos theta) * (1 + g * g - 2 * g * Real.cos theta)
        * (1 + g * g - 2 * g * Real.cos theta)
        = (1 + g * g - 2 * g * Real.cos theta) ^ (3 : ℝ) := by
      rw [show (3 : ℝ) = ((3 : ℕ) : ℝ) by norm_num, Real.rpow_natCast]
      ring
    rw [e, Real.sqrt_eq_rpow, ← Real.rpow_mul (le_of_lt hbase)]
    norm_num
  · unfold phaseHenyeyGreenstein
    apply div_pos _ hden
    have hPI := PI_pos
    have h1 : 0 < 1 - g * g := by
      have := abs_lt.1 hg
      nlinarith
    have h2 : 0 ≤ Real.cos theta * Real.cos theta := mul_self_nonneg _
    positivity

/-! ## Claims on the camera -/

theorem dot_comm (a b : vec3) : dot a b = dot b a := by
  unfold dot
  ring

theorem dot_cross_left (a b : vec3) : dot a (cross a b) = 0 := by
  unfold dot cross
  ring

theorem dot_cross_right (a b : vec3) : dot b (cross a b) = 0 := by
  unfold dot cross
  ring

/-- Lagrange's identity. -/
theorem dot_cross_cross (a b : vec3) :
    dot (cross a b) (cross a b) = dot a a * dot b b - dot a b ^ 2 := by
  unfold dot cross
  ring

theorem dot_mul_real_right (a b : vec3) (k : ℝ) : dot a (b * k) = k * dot a b := by
  simp only [dot, vec3.mul_real_x, vec3.mul_real_y, vec3.mul_real_z]
  ring

theorem dot_mul_real_self (a : vec3) (k : ℝ) : dot (a * k) (a * k) = k ^ 2 * dot a a := by
  simp only [dot, vec3.mul_real_x, vec3.mul_real_y, vec3.mul_real_z]
  ring

theorem length_eq_one_iff (a : vec3) : length a = 1 ↔ dot a a = 1 := by
  rw [length_eq_iff a 1 (by norm_num), mul_one]

/-- Normalising a vector of non-zero length gives a unit vector. -/
theorem dot_normalize_self (a : vec3) (h : dot a a ≠ 0) : dot (normalize a) (normalize a) = 1 := by
  unfold normalize
  rw [dot_mul_real_self]
  have hpos : 0 < dot a a := lt_of_le_of_ne (dot_self_nonneg a) (Ne.symm h)
  have hl : length a * length a = dot a a := length_mul_self a
  have hlpos : 0 < length a := Real.sqrt_pos.2 hpos
  rw [← hl]
  field_simp
  ring

theorem framework_cross_eq (a b : vec3) : framework.cross a b = cross a b := by
  unfold framework.cross cross
  ext <;> simp <;> ring

theorem framework_normalize_eq (a : vec3) : framework.normalize a = normalize a := rfl

theorem dot_neg_right (a b : vec3) : dot a (-b) = -dot a b := by
  simp only [dot, vec3.neg_x, vec3.neg_y, vec3.neg_z]
  ring

/-- For unit vectors the dot product lies in `[-1, 1]`. -/
theorem abs_dot_le_one (v l : vec3) (hv : length v = 1) (hl : length l = 1) : |dot v l| ≤ 1 := by
  have h := dot_sq_le v l
  rw [(length_eq_one_iff v).1 hv, (length_eq_one_iff l).1 hl, mul_one] at h
  exact abs_le_one_iff_mul_self_le_one.2 (by nlinarith)

namespace Binary32

/-! ## Binary32 layer: branches of `solveQuadratic` and `forwardRaySphere` -/

theorem lt_zero_neg_one : lt 0 (-1 : float) = false := by decide

theorem ne_neg_one_of_pos (t : float) (h : lt 0 t = true) : t ≠ -1 := by
  rintro rfl
  rw [lt_zero_neg_one] at h
  exact Bool.false_ne_true h

theorem solveQuadratic_eq_none_iff (a b c : float) :
    solveQuadratic a b c = none ↔ lt (b * b - 4 * a * c) 0 = true := by
  unfold solveQuadratic
  dsimp only
  split <;> simp [*]

theorem solveQuadratic_of_not_lt (a b c : float) (h : lt (b * b - 4 * a * c) 0 = false) :
    solveQuadratic a b c =
      some ((-b + sqrt (b * b - 4 * a * c)) / (2 * a + ofDecimal 1 5),
            (-b - sqrt (b * b - 4 * a * c)) / (2 * a + ofDecimal 1 5)) := by
  unfold solveQuadratic
  dsimp only
  rw [if_neg (by rw [h]; exact Bool.false_ne_true)]

theorem forwardRaySphere_none (o d : vec3) (r : float)
    (h : solveQuadratic (dot d d) (2 * dot o d) (dot o o - r * r) = none) :
    forwardRaySphere o d r = -1 := by
  unfold forwardRaySphere
  dsimp only
  rw [h]

theorem forwardRaySphere_some (o d : vec3) (r t1 t2 : float)
    (h : solveQuadratic (dot d d) (2 * dot o d) (dot o o - r * r) = some (t1, t2)) :
    forwardRaySphere o d r =
      if lt 0 t1 = true ∧ lt 0 t2 = true then (if lt t1 t2 = true then t1 else t2)
      else if lt 0 t1 = true then t1
      else if lt 0 t2 = true then t2
      else -1 := by
  unfold forwardRaySphere
  dsimp only
  rw [h]

theorem forwardRaySphere_some_cases (o d : vec3) (r t1 t2 : float)
    (h : solveQuadratic (dot d d) (2 * dot o d) (dot o o - r * r) = some (t1, t2)) :
    (forwardRaySphere o d r = -1 ∧ lt 0 t1 = false ∧ lt 0 t2 = false) ∨
    (lt 0 (forwardRaySphere o d r) = true ∧
      (forwardRaySphere o d r = t1 ∨ forwardRaySphere o d r = t2)) := by
  rw [forwardRaySphere_some o d r t1 t2 h]
  cases h1 : lt 0 t1 <;> cases h2 : lt 0 t2
  · left
    simp
  · right
    simp [h2]
  · right
    simp [h1]
  · right
    by_cases h3 : lt t1 t2 = true
    · simp [h3, h1]
    · simp [h3, h2]

/-- The result of `forwardRaySphere` is the sentinel exactly when no computed root is
positive. -/
theorem forwardRaySphere_eq_neg_one_iff_aux (o d : vec3) (r : float) :
    forwardRaySphere o d r = -1 ↔
      (solveQuadratic (dot d d) (2 * dot o d) (dot o o - r * r) = none ∨
       ∃ t1 t2, solveQuadratic (dot d d) (2 * dot o d) (dot o o - r * r) = some (t1, t2) ∧
         lt 0 t1 = false ∧ lt 0 t2 = false) := by
  cases hs : solveQuadratic (dot d d) (2 * dot o d) (dot o o - r * r) with
  | none => simp [forwardRaySphere_none o d r hs]
  | some p =>
    obtain ⟨t1, t2⟩ := p
    constructor
    · intro h
      right
      rcases forwardRaySphere_some_cases o d r t1 t2 hs with ⟨-, h1, h2⟩ | ⟨hpos, -⟩
      · exact ⟨t1, t2, rfl, h1, h2⟩
      · exact absurd h (ne_neg_one_of_pos _ hpos)
    · rintro (h | ⟨a, b, hab, h1, h2⟩)
      · exact absurd h (by simp)
      · simp only [Option.some.injEq, Prod.mk.injEq] at hab
        obtain ⟨rfl, rfl⟩ := hab
        rcases forwardRaySphere_some_cases o d r t1 t2 hs with ⟨h, -, -⟩ | ⟨hpos, ht | ht⟩
        · exact h
        · rw [ht, h1] at hpos
          exact absurd hpos Bool.false_ne_true
        · rw [ht, h2] at hpos
          exact absurd hpos Bool.false_ne_true

theorem forwardRaySphere_hit_aux (o d : vec3) (r : float)
    (h : forwardRaySphere o d r ≠ -1) :
    lt 0 (forwardRaySphere o d r) = true ∧
    ∃ t1 t2, solveQuadratic (dot d d) (2 * dot o d) (dot o o - r * r) = some (t1, t2) ∧
      (forwardRaySphere o d r = t1 ∨ forwardRaySphere o d r = t2) := by
  cases hs : solveQuadratic (dot d d) (2 * dot o d) (dot o o - r * r) with
  | none => exact absurd (forwardRaySphere_none o d r hs) h
  | some p =>
    obtain ⟨t1, t2⟩ := p
    rcases forwardRaySphere_some_cases o d r t1 t2 hs with ⟨h0, -, -⟩ | ⟨hpos, ht⟩
    · exact absurd h0 h
    · exact ⟨hpos, t1, t2, rfl, ht⟩

theorem toReal_fin (s : Bool) (m : Nat) (e : Int) :
    toReal (float.fin s m e) = (if s then -1 else 1) * (m : ℝ) * (2 : ℝ) ^ e := rfl

theorem exact_CAM_POS : exact CAM_POS = ⟨0, 6371.009765625, 0⟩ := by
  have h : CAM_POS = ⟨float.fin false 0 (-149), float.fin false 13047828 (-11),
      float.fin false 0 (-149)⟩ := by decide!
  rw [h]
  simp only [exact, toReal_fin]
  ext <;> norm_num

theorem exact_up : exact ⟨0, 1, 0⟩ = ⟨0, 1, 0⟩ := by
  have h : (⟨0, 1, 0⟩ : vec3) = ⟨float.fin false 0 (-149), float.fin false 8388608 (-23),
      float.fin false 0 (-149)⟩ := by decide!
  rw [h]
  simp only [exact, toReal_fin]
  ext <;> norm_num

/-- The loop takes the early return exactly when `reachesGround` says so, whatever the
built-ins and the accumulated densities are. -/
theorem transmittanceLoop_eq_none_iff (gl : Builtins) (step : vec3) :
    ∀ (n : Nat) (p : vec3) (r m o : float),
      transmittanceLoop gl step n p r m o = none ↔ reachesGround step n p = true := by
  intro n
  induction n with
  | zero => intro p r m o; simp [transmittanceLoop, reachesGround]
  | succ n ih =>
    intro p r m o
    unfold transmittanceLoop reachesGround
    dsimp only
    cases h : lt (height p) 0
    · simp [ih]
    · simp

theorem sampleAt_add_step (step p : vec3) :
    ∀ i : Nat, sampleAt step (p + step) i = sampleAt step p (i + 1) := by
  intro i
  induction i with
  | zero => rfl
  | succ i ih => rw [sampleAt, ih]; rfl

/-- The early return is taken exactly when the computed height of one of the stepped samples
compares below zero. -/
theorem reachesGround_iff (step : vec3) :
    ∀ (n : Nat) (p : vec3),
      reachesGround step n p = true ↔ ∃ i, i < n ∧ lt (height (sampleAt step p i)) 0 = true := by
  intro n
  induction n with
  | zero => intro p; simp [reachesGround]
  | succ n ih =>
    intro p
    unfold reachesGround
    rw [Bool.or_eq_true, ih]
    constructor
    · rintro (h | ⟨i, hi, h⟩)
      · exact ⟨0, Nat.succ_pos n, h⟩
      · exact ⟨i + 1, Nat.succ_lt_succ hi, by rw [← sampleAt_add_step]; exact h⟩
    · rintro ⟨i, hi, h⟩
      cases i with
      | zero => exact Or.inl h
      | succ i =>
        right
        exact ⟨i, Nat.lt_of_succ_lt_succ hi, by rw [sampleAt_add_step]; exact h⟩

theorem transmittanceBetween_of_short (gl : Builtins) (pa pb : vec3)
    (h : lt (distance pa pb) (ofDecimal 2 2) = true) :
    transmittanceBetween gl pa pb = ⟨0, 0, 0⟩ := by
  unfold transmittanceBetween
  dsimp only
  rw [if_pos h]

theorem transmittanceBetween_of_not_short (gl : Builtins) (pa pb : vec3)
    (h : lt (distance pa pb) (ofDecimal 2 2) = false) :
    transmittanceBetween gl pa pb =
      match transmittanceLoop gl (sampleStep pa pb) INTEGRATION_STEPS (firstSample pa pb) 0 0 0
      with
      | none => ⟨10000, 10000, 10000⟩
      | some (totalDensityRay, totalDensityMie, totalDensityOzone) =>
        (totalDensityRay * (distance pa pb / ofNat INTEGRATION_STEPS * 1000)) * betaRayleigh
          + (totalDensityMie * (distance pa pb / ofNat INTEGRATION_STEPS * 1000))
            * betaExtinctionMie
          + (totalDensityOzone * (distance pa pb / ofNat INTEGRATION_STEPS * 1000))
            * betaExtinctionOzone := by
  unfold transmittanceBetween
  dsimp only
  rw [if_neg (by rw [h]; exact Bool.false_ne_true)]
  rfl

theorem transmittanceBetween_of_reachesGround (gl : Builtins) (pa pb : vec3)
    (h : lt (distance pa pb) (ofDecimal 2 2) = false)
    (hg : reachesGround (sampleStep pa pb) INTEGRATION_STEPS (firstSample pa pb) = true) :
    transmittanceBetween gl pa pb = ⟨10000, 10000, 10000⟩ := by
  rw [transmittanceBetween_of_not_short gl pa pb h,
    (transmittanceLoop_eq_none_iff gl _ _ _ 0 0 0).2 hg]

theorem transmittanceLoop_of_not_reachesGround (gl : Builtins) (step : vec3) (n : Nat)
    (p : vec3) (r m o : float) (hg : reachesGround step n p = false) :
    ∃ r1 m1 o1, transmittanceLoop gl step n p r m o = some (r1, m1, o1) := by
  cases h : transmittanceLoop gl step n p r m o with
  | none =>
    rw [(transmittanceLoop_eq_none_iff gl step n p r m o).1 h] at hg
    exact absurd hg (by simp)
  | some q => exact ⟨q.1, q.2.1, q.2.2, rfl⟩

/-! ## Binary32 layer: a segment of length zero -/

theorem sub_self_of_isFinite (x : float) (h : x.isFinite = true) : x - x = 0 := by
  cases x with
  | nan => simp [float.isFinite] at h
  | inf s => simp [float.isFinite] at h
  | fin s m e =>
    show add (float.fin s m e) (neg (float.fin s m e)) = ofNat 0
    simp only [neg, add, addFin]
    have hc : scaled s m e (min e e) + scaled (!s) m e (min e e) = 0 := by
      cases s <;> simp [scaled]
    rw [if_pos hc]
    cases s <;> rfl

theorem vec3_sub_self_of_isFinite (A : vec3) (h : A.isFinite = true) : A - A = ⟨0, 0, 0⟩ := by
  simp only [vec3.isFinite, Bool.and_eq_true] at h
  obtain ⟨⟨hx, hy⟩, hz⟩ := h
  show (⟨A.x - A.x, A.y - A.y, A.z - A.z⟩ : vec3) = ⟨0, 0, 0⟩
  rw [sub_self_of_isFinite _ hx, sub_self_of_isFinite _ hy, sub_self_of_isFinite _ hz]

theorem distance_self_of_isFinite (A : vec3) (h : A.isFinite = true) : distance A A = 0 := by
  unfold distance
  rw [vec3_sub_self_of_isFinite A h]
  decide

/-! ## Claims on `transmittanceBetween` -/

theorem exact_grazing_start :
    exact ⟨-(ofDecimal 111562481 7), 6371, 0⟩ = ⟨-11.1562480926513671875, 6371, 0⟩ := by
  have h : (⟨-(ofDecimal 111562481 7), 6371, 0⟩ : vec3) =
      ⟨.fin true 11698174 (-20), .fin false 13047808 (-11), .fin false 0 (-149)⟩ := by decide!
  rw [h]
  simp only [exact, toReal_fin]
  ext <;> norm_num

theorem exact_grazing_end :
    exact ⟨ofDecimal 162843399 7, ofDecimal 637099805 5, 0⟩
      = ⟨16.28433990478515625, 6370.998046875, 0⟩ := by
  have h : (⟨ofDecimal 162843399 7, ofDecimal 637099805 5, 0⟩ : vec3) =
      ⟨.fin false 8537684 (-19), .fin false 13047804 (-11), .fin false 0 (-149)⟩ := by decide!
  rw [h]
  simp only [exact, toReal_fin]
  ext <;> norm_num

/-- From `(-11.1562481f, 6371, 0)` to `(16.2843399f, 6370.99805f, 0)` the loop of
`transmittanceBetween` runs to its end: no stepped sample has a computed height below zero. -/
theorem grazing_segment_completes (gl : Builtins) :
    ∃ r m o,
      transmittanceLoop gl
        (sampleStep ⟨-(ofDecimal 111562481 7), 6371, 0⟩
          ⟨ofDecimal 162843399 7, ofDecimal 637099805 5, 0⟩)
        INTEGRATION_STEPS
        (firstSample ⟨-(ofDecimal 111562481 7), 6371, 0⟩
          ⟨ofDecimal 162843399 7, ofDecimal 637099805 5, 0⟩) 0 0 0 = some (r, m, o) :=
  transmittanceLoop_of_not_reachesGround gl _ _ _ 0 0 0 (by decide!)

theorem le_length_iff (p : Atmospheric.vec3) (r : ℝ) (hr : 0 ≤ r) :
    r ≤ Atmospheric.length p ↔ r * r ≤ Atmospheric.dot p p := by
  unfold Atmospheric.length
  constructor
  · intro h
    have := mul_self_le_mul_self hr h
    rwa [Real.mul_self_sqrt (dot_self_nonneg p)] at this
  · intro h
    rw [← Real.sqrt_mul_self hr]
    exact Real.sqrt_le_sqrt h

theorem exact_low_start :
    exact ⟨-(ofDecimal 42910666 7), ofDecimal 6371016 3, 0⟩
      = ⟨-4.291066646575927734375, 6371.01611328125, 0⟩ := by
  have h : (⟨-(ofDecimal 42910666 7), ofDecimal 6371016 3, 0⟩ : vec3) =
      ⟨.fin true 8999019 (-21), .fin false 13047841 (-11), .fin false 0 (-149)⟩ := by decide!
  rw [h]
  simp only [exact, toReal_fin]
  ext <;> norm_num

theorem exact_low_end :
    exact ⟨ofDecimal 36109579 7, 6371, 0⟩ = ⟨3.6109578609466552734375, 6371, 0⟩ := by
  have h : (⟨ofDecimal 36109579 7, 6371, 0⟩ : vec3) =
      ⟨.fin false 15145455 (-22), .fin false 13047808 (-11), .fin false 0 (-149)⟩ := by decide!
  rw [h]
  simp only [exact, toReal_fin]
  ext <;> norm_num

/-- C6 at the failing input `A = (-4.2910666f, 6371.016f, 0)`, `B = (3.6109579f, 6371, 0)`: the two
points are at least `0.02` apart and each of the 20 midpoints `A + (i + 1/2) (B - A) / 20` is at
least `6371.001` from the centre, a metre above ground; yet the computed height of the stepped
sample 17 compares below zero, and `transmittanceBetween(A, B)` is the sentinel `(10000, 10000,
10000)` and not the midpoint-rule sum. -/
theorem transmittanceBetween_sentinel_above_ground :
    0.02 ≤ Atmospheric.distance (exact ⟨-(ofDecimal 42910666 7), ofDecimal 6371016 3, 0⟩)
      (exact ⟨ofDecimal 36109579 7, 6371, 0⟩) ∧
    (∀ i : ℕ, i < 20 →
      6371.001 ≤ Atmospheric.length
        (midpointSample (exact ⟨-(ofDecimal 42910666 7), ofDecimal 6371016 3, 0⟩)
          (exact ⟨ofDecimal 36109579 7, 6371, 0⟩) i)) ∧
    lt (height (sampleAt
        (sampleStep ⟨-(ofDecimal 42910666 7), ofDecimal 6371016 3, 0⟩
          ⟨ofDecimal 36109579 7, 6371, 0⟩)
        (firstSample ⟨-(ofDecimal 42910666 7), ofDecimal 6371016 3, 0⟩
          ⟨ofDecimal 36109579 7, 6371, 0⟩) 17)) 0 = true ∧
    (∀ gl : Builtins,
      transmittanceBetween gl ⟨-(ofDecimal 42910666 7), ofDecimal 6371016 3, 0⟩
        ⟨ofDecimal 36109579 7, 6371, 0⟩ = ⟨10000, 10000, 10000⟩) := by
  refine ⟨?_, ?_, by decide!, fun gl => ?_⟩
  · rw [exact_low_start, exact_low_end]
    unfold Atmospheric.distance
    rw [le_length_iff _ _ (by norm_num)]
    simp only [Atmospheric.dot, vec3.sub_x, vec3.sub_y, vec3.sub_z]
    norm_num
  · intro i hi
    rw [exact_low_start, exact_low_end, le_length_iff _ _ (by norm_num)]
    simp only [midpointSample, Atmospheric.dot, vec3.sub_x, vec3.sub_y, vec3.sub_z, vec3.add_x,
      vec3.add_y, vec3.add_z, vec3.smul_x, vec3.smul_y, vec3.smul_z, vec3.mul_real_x,
      vec3.mul_real_y, vec3.mul_real_z]
    interval_cases i <;> norm_num
  · exact transmittanceBetween_of_reachesGround gl _ _ (by decide!) (by decide!)

/-- Counterexample to C7 as stated: `A = (0, 0, 0)`, `B = (0.02f, 0, 0)`. The two points are
`0.019999999553` apart, less than `0.02`; the code compares the computed length `0.02f` with the
literal `0.02f`, enters the loop, and returns the sentinel `(10000, 10000, 10000)`. -/
theorem transmittanceBetween_short_not_zero :
    Atmospheric.distance (exact ⟨0, 0, 0⟩) (exact ⟨ofDecimal 2 2, 0, 0⟩) < 0.02 ∧
    (∀ gl : Builtins,
      transmittanceBetween gl ⟨0, 0, 0⟩ ⟨ofDecimal 2 2, 0, 0⟩ = ⟨10000, 10000, 10000⟩) := by
  refine ⟨?_, fun gl => transmittanceBetween_of_reachesGround gl _ _ (by decide!) (by decide!)⟩
  have h0 : (⟨0, 0, 0⟩ : vec3) = ⟨.fin false 0 (-149), .fin false 0 (-149),
      .fin false 0 (-149)⟩ := by decide!
  have h1 : (⟨ofDecimal 2 2, 0, 0⟩ : vec3) = ⟨.fin false 10737418 (-29), .fin false 0 (-149),
      .fin false 0 (-149)⟩ := by decide!
  rw [h0, h1]
  unfold Atmospheric.distance
  rw [length_lt_iff _ _ (by norm_num)]
  simp only [exact, toReal_fin, Atmospheric.dot, vec3.sub_x, vec3.sub_y, vec3.sub_z]
  norm_num

/-- C7, amended. For every point `A` with finite coordinates `transmittanceBetween(A, A)` is `(0, 0,
0)`; and for all `A`, `B` whose computed binary32 `distance(A, B)` compares below the literal
`0.02f` the result is `(0, 0, 0)`, whatever the heights of `A` and `B`. -/
theorem transmittanceBetween_zero_of_computed_short (gl : Builtins) :
    (∀ A : vec3, A.isFinite = true → transmittanceBetween gl A A = ⟨0, 0, 0⟩) ∧
    (∀ A B : vec3, lt (distance A B) (ofDecimal 2 2) = true →
      transmittanceBetween gl A B = ⟨0, 0, 0⟩) := by
  refine ⟨fun A hA => ?_, fun A B h => transmittanceBetween_of_short gl A B h⟩
  apply transmittanceBetween_of_short
  rw [distance_self_of_isFinite A hA]
  decide

/-- Witness of C7: `A = (0, 0, 0)` and `B = (0.01f, 0, 0)`, both far below the surface. -/
theorem transmittanceBetween_zero_of_computed_short_witness :
    lt (height ⟨0, 0, 0⟩) 0 = true ∧ lt (height ⟨ofDecimal 1 2, 0, 0⟩) 0 = true ∧
    lt (distance ⟨0, 0, 0⟩ ⟨ofDecimal 1 2, 0, 0⟩) (ofDecimal 2 2) = true ∧
    ∀ gl : Builtins, transmittanceBetween gl ⟨0, 0, 0⟩ ⟨ofDecimal 1 2, 0, 0⟩ = ⟨0, 0, 0⟩ :=
  ⟨by decide!, by decide!, by decide!,
    fun gl => (transmittanceBetween_zero_of_computed_short gl).2 _ _ (by decide!)⟩

/-! ## Binary32 layer: branches of `intensitySingleScattering` -/

theorem intensitySingleScattering_of_ground (gl : Builtins) (p0 v l il : vec3)
    (h : lt (-(ofDecimal 5 1)) (forwardRaySphere p0 (-v) EARTH_RADIUS) = true) :
    intensitySingleScattering gl p0 v l il = ⟨ofDecimal 7 2, ofDecimal 7 2, ofDecimal 7 2⟩ := by
  unfold intensitySingleScattering
  dsimp only
  rw [if_pos h]

theorem intensitySingleScattering_of_not_ground (gl : Builtins) (p0 v l il : vec3)
    (h : lt (-(ofDecimal 5 1)) (forwardRaySphere p0 (-v) EARTH_RADIUS) = false) :
    intensitySingleScattering gl p0 v l il =
      if lt (ofDecimal 9993 4) (dot v l) = true then
        rayleighMieSum gl p0 v l + directSunTerm gl p0 v
      else rayleighMieSum gl p0 v l := by
  unfold intensitySingleScattering rayleighMieSum directSunTerm atmosphereExit
  dsimp only
  rw [if_neg (by rw [h]; exact Bool.false_ne_true)]

/-- C9 at the failing input: eye `p0 = CAM_POS`, view vector `v = (-1, 0.00175f, 0)`. The eye is
above the surface, `v` is not zero, and every point `p0 + t * (-v)`, `t > 0`, of the view ray is
more than `6371` from the centre; yet the computed `forwardRaySphere(p0, -v, 6371)` is
`10.5962085723877`, and `intensitySingleScattering` returns the ground colour. -/
theorem intensitySingleScattering_ground_colour_on_miss :
    6371 < Atmospheric.length (exact CAM_POS) ∧
    exact ⟨-1, ofDecimal 175 5, 0⟩ ≠ ⟨0, 0, 0⟩ ∧
    (∀ t : ℝ, 0 < t →
      6371 < Atmospheric.length (exact CAM_POS + t * exact (-(⟨-1, ofDecimal 175 5, 0⟩ : vec3)))) ∧
    forwardRaySphere CAM_POS (-(⟨-1, ofDecimal 175 5, 0⟩ : vec3)) EARTH_RADIUS
      = float.fin false 11110930 (-20) ∧
    (∀ (gl : Builtins) (l il : vec3),
      intensitySingleScattering gl CAM_POS ⟨-1, ofDecimal 175 5, 0⟩ l il
        = ⟨ofDecimal 7 2, ofDecimal 7 2, ofDecimal 7 2⟩) := by
  have hv : (⟨-1, ofDecimal 175 5, 0⟩ : vec3) = ⟨.fin true 8388608 (-23),
      .fin false 15032386 (-33), .fin false 0 (-149)⟩ := by decide!
  have hnv : (-(⟨-1, ofDecimal 175 5, 0⟩ : vec3)) = ⟨.fin false 8388608 (-23),
      .fin true 15032386 (-33), .fin true 0 (-149)⟩ := by decide!
  refine ⟨?_, ?_, ?_, by decide!, fun gl l il => ?_⟩
  · rw [exact_CAM_POS, length_vertical]
    norm_num [abs_of_nonneg]
  · rw [hv]
    apply ne_zero_of_x_ne_zero
    simp only [exact, toReal_fin]
    norm_num
  · intro t ht
    rw [exact_CAM_POS, hnv, lt_length_iff _ _ (by norm_num)]
    simp only [exact, toReal_fin, Atmospheric.dot, vec3.add_x, vec3.add_y, vec3.add_z,
      vec3.smul_x, vec3.smul_y, vec3.smul_z]
    norm_num
    nlinarith [sq_nonneg ((1 + (15032386 / 8589934592 : ℝ) ^ 2) * t
      - (15032386 / 8589934592 : ℝ) * 6371.009765625)]
  · exact intensitySingleScattering_of_ground gl _ _ l il (by decide!)

theorem neg_sentinel : (-(⟨10000, 10000, 10000⟩ : vec3)) = ⟨-10000, -10000, -10000⟩ := rfl

/-- Counterexample to C17 as stated. At `p0 = CAM_POS`, `v = (0, -1, 0)`, `l = (0, -0.9993f, 0)` the
ground branch is not taken and `dot(v, l) = 0.99930000305` is above `0.9993`, but it does not
compare above the literal `0.9993f`, and the result is the Rayleigh-plus-Mie sum alone. And at
`p0 = (0, 7000, 0)`, `v = (0, -14000, 0)`, `l = (0, -1, 0)` the ground branch is not taken, the
term is added, and it is `(0, 0, 0)`, not strictly positive, for every `exp` that underflows to
zero at `-10000`. -/
theorem intensitySingleScattering_no_sun_term_above_threshold :
    (0.9993 < Atmospheric.dot (exact ⟨0, -1, 0⟩) (exact ⟨0, -(ofDecimal 9993 4), 0⟩) ∧
     lt (-(ofDecimal 5 1)) (forwardRaySphere CAM_POS (-(⟨0, -1, 0⟩ : vec3)) EARTH_RADIUS)
       = false ∧
     lt (ofDecimal 9993 4) (dot ⟨0, -1, 0⟩ ⟨0, -(ofDecimal 9993 4), 0⟩) = false ∧
     (∀ (gl : Builtins) (il : vec3),
       intensitySingleScattering gl CAM_POS ⟨0, -1, 0⟩ ⟨0, -(ofDecimal 9993 4), 0⟩ il
         = rayleighMieSum gl CAM_POS ⟨0, -1, 0⟩ ⟨0, -(ofDecimal 9993 4), 0⟩)) ∧
    (lt (-(ofDecimal 5 1)) (forwardRaySphere ⟨0, 7000, 0⟩ (-(⟨0, -14000, 0⟩ : vec3)) EARTH_RADIUS)
       = false ∧
     lt (ofDecimal 9993 4) (dot ⟨0, -14000, 0⟩ ⟨0, -1, 0⟩) = true ∧
     (∀ gl : Builtins, gl.exp (-10000) = 0 →
       directSunTerm gl ⟨0, 7000, 0⟩ ⟨0, -14000, 0⟩ = ⟨0, 0, 0⟩)) := by
  have hv : (⟨0, -1, 0⟩ : vec3) = ⟨.fin false 0 (-149), .fin true 8388608 (-23),
      .fin false 0 (-149)⟩ := by decide!
  have hl : (⟨0, -(ofDecimal 9993 4), 0⟩ : vec3) = ⟨.fin false 0 (-149),
      .fin true 16765472 (-24), .fin false 0 (-149)⟩ := by decide!
  refine ⟨⟨?_, by decide!, by decide!, fun gl il => ?_⟩, by decide!, by decide!,
    fun gl h => ?_⟩
  · rw [hv, hl]
    simp only [exact, toReal_fin, Atmospheric.dot]
    norm_num
  · rw [intensitySingleScattering_of_not_ground gl _ _ _ il (by decide!),
      if_neg (by decide!)]
  · unfold directSunTerm
    dsimp only
    rw [transmittanceBetween_of_reachesGround gl _ _ (by decide!) (by decide!), neg_sentinel]
    simp only [vexp, h]
    decide!

theorem exact_shell_point :
    exact ⟨ofDecimal 722494812 7, ofDecimal 550914941 5, -(ofDecimal 339380127 5)⟩
      = ⟨72.249481201171875, 5509.1494140625, -3393.80126953125⟩ := by
  have h : (⟨ofDecimal 722494812 7, ofDecimal 550914941 5, -(ofDecimal 339380127 5)⟩ : vec3)
      = ⟨.fin false 9469884 (-17), .fin false 11282738 (-11), .fin true 13901010 (-12)⟩ := by
    decide!
  rw [h]
  simp only [exact, toReal_fin]
  ext <;> norm_num

/-- Counterexample to C20 as stated: `g = 0.9999f`, which has `|g| < 1`, at `cos(theta) = 1`. The
computed base `1.f + g * g - 2.f * g * cosTheta` is exactly zero, the square root is zero, the
division is by zero, and `phaseHenyeyGreenstein` returns plus infinity. -/
theorem phaseHenyeyGreenstein_division_by_zero :
    |toReal (ofDecimal 9999 4)| < 1 ∧
    (1 + ofDecimal 9999 4 * ofDecimal 9999 4 - 2 * ofDecimal 9999 4 * 1 : float) = 0 ∧
    phaseHenyeyGreensteinOfCos 1 (ofDecimal 9999 4) = float.inf false ∧
    (∀ (gl : Builtins) (theta : float), gl.cos theta = 1 →
      phaseHenyeyGreenstein gl theta (ofDecimal 9999 4) = float.inf false) := by
  have hg : ofDecimal 9999 4 = float.fin false 16775538 (-24) := by decide!
  refine ⟨?_, by decide!, by decide!, fun gl theta h => ?_⟩
  · rw [hg, toReal_fin]
    norm_num [abs_of_nonneg]
  · unfold phaseHenyeyGreenstein
    rw [h]
    decide!

/-- Counterexample to C4 as stated. For `a = 0.25f`, `b = 1.0002443f`, `c = 1.0004886f` the
discriminant `b² - 4ac` of these three numbers is negative (`-5.95e-8`), yet `solveQuadratic`
succeeds, with the double root `-2.00044846534729`: the computed `b * b - 4.f * a * c` rounds to
zero. And for `a = -0.000005f`, `b = 1`, `c = 0` the computed `2.f * a + 0.00001f` is exactly
zero where `2a + 1e-5` is not, and the two values returned are NaN and minus infinity. -/
theorem solveQuadratic_succeeds_on_negative_discriminant :
    (toReal (ofDecimal 10002443 7) * toReal (ofDecimal 10002443 7)
      - 4 * toReal (ofDecimal 25 2) * toReal (ofDecimal 10004886 7) < 0 ∧
     solveQuadratic (ofDecimal 25 2) (ofDecimal 10002443 7) (ofDecimal 10004886 7)
      = some (float.fin true 8390489 (-22), float.fin true 8390489 (-22))) ∧
    ((2 * -(ofDecimal 5 6) + ofDecimal 1 5 : float) = 0 ∧
     2 * toReal (-(ofDecimal 5 6)) + 0.00001 ≠ 0 ∧
     solveQuadratic (-(ofDecimal 5 6)) 1 0 = some (float.nan, float.inf true)) := by
  have ha : ofDecimal 25 2 = float.fin false 8388608 (-25) := by decide!
  have hb : ofDecimal 10002443 7 = float.fin false 8390657 (-23) := by decide!
  have hc : ofDecimal 10004886 7 = float.fin false 8392707 (-23) := by decide!
  have he : -(ofDecimal 5 6) = float.fin true 10995116 (-41) := by decide!
  refine ⟨⟨?_, by decide!⟩, by decide!, ?_, by decide!⟩
  · rw [ha, hb, hc]
    simp only [toReal_fin]
    norm_num
  · rw [he]
    simp only [toReal_fin]
    norm_num

/-- C4, amended. `solveQuadratic a b c` fails exactly when the binary32 value `D = b * b - 4.f * a *
c` compares below zero. Otherwise, also when `D` is NaN, it succeeds with the binary32 values
`(-b + sqrt D) / (2.f * a + 0.00001f)` and `(-b - sqrt D) / (2.f * a + 0.00001f)`, which are NaN
or infinite when the denominator rounds to zero. `forwardRaySphere` returns the sentinel `-1` on
a failure. -/
theorem solveQuadratic_fails_iff_computed_discriminant_neg (a b c : float) :
    (solveQuadratic a b c = none ↔ lt (b * b - 4 * a * c) 0 = true) ∧
    (lt (b * b - 4 * a * c) 0 = false →
      solveQuadratic a b c =
        some ((-b + sqrt (b * b - 4 * a * c)) / (2 * a + ofDecimal 1 5),
              (-b - sqrt (b * b - 4 * a * c)) / (2 * a + ofDecimal 1 5))) ∧
    (∀ (o d : vec3) (r : float),
      solveQuadratic (dot d d) (2 * dot o d) (dot o o - r * r) = none →
        forwardRaySphere o d r = -1) :=
  ⟨solveQuadratic_eq_none_iff a b c, solveQuadratic_of_not_lt a b c,
    fun o d r h => forwardRaySphere_none o d r h⟩

/-! ## Binary32 layer: what `round` computes -/

theorem bitLengthAux_eq : ∀ fuel n : Nat, n ≤ fuel →
    bitLengthAux fuel n = if n = 0 then 0 else Nat.log 2 n + 1 := by
  intro fuel
  induction fuel with
  | zero =>
    intro n hn
    have : n = 0 := Nat.le_zero.1 hn
    subst this
    rfl
  | succ fuel ih =>
    intro n hn
    unfold bitLengthAux
    by_cases h0 : n = 0
    · simp [h0]
    · rw [if_neg h0, if_neg h0, ih (n / 2) (by omega)]
      by_cases h1 : n / 2 = 0
      · have : n = 1 := by omega
        subst this
        simp
      · rw [if_neg h1, Nat.log_of_one_lt_of_le (by norm_num) (by omega : 2 ≤ n)]

theorem bitLength_eq (n : Nat) : bitLength n = if n = 0 then 0 else Nat.log 2 n + 1 :=
  bitLengthAux_eq n n (le_refl n)

theorem bitLength_zero : bitLength 0 = 0 := by
  rw [bitLength_eq]
  rfl

theorem lt_two_pow_bitLength (m : Nat) : m < 2 ^ bitLength m := by
  rw [bitLength_eq]
  by_cases h : m = 0
  · simp [h]
  · rw [if_neg h]
    exact Nat.lt_pow_succ_log_self (by norm_num) m

theorem two_pow_bitLength_le (m : Nat) (h : 0 < m) : 2 ^ (bitLength m - 1) ≤ m := by
  rw [bitLength_eq, if_neg (by omega)]
  simp only [Nat.add_sub_cancel]
  exact Nat.pow_log_le_self 2 (by omega)

theorem bitLength_pos (m : Nat) (h : 0 < m) : 0 < bitLength m := by
  rw [bitLength_eq, if_neg (by omega)]
  omega

theorem round_of_le (s : Bool) (m : Nat) (e : Int) (st : Bool)
    (h : max (e + ((bitLength m : Int) - 24)) (-149) ≤ e) :
    round s m e st
      = pack s (m * 2 ^ (e - max (e + ((bitLength m : Int) - 24)) (-149)).toNat)
          (max (e + ((bitLength m : Int) - 24)) (-149)) := by
  unfold round
  dsimp only
  rw [if_pos h]

/-- The integer `round` keeps when it drops the last `k` binary digits of `m`: the nearest one,
the even one on a tie; `st` says that something non-zero was dropped before. -/
theorem round_of_lt (s : Bool) (m : Nat) (e : Int) (st : Bool)
    (h : e < max (e + ((bitLength m : Int) - 24)) (-149)) :
    round s m e st
      = pack s
          (if (decide (2 ^ ((max (e + ((bitLength m : Int) - 24)) (-149) - e).toNat - 1)
                  < m % 2 ^ (max (e + ((bitLength m : Int) - 24)) (-149) - e).toNat)
              || (decide (m % 2 ^ (max (e + ((bitLength m : Int) - 24)) (-149) - e).toNat
                    = 2 ^ ((max (e + ((bitLength m : Int) - 24)) (-149) - e).toNat - 1))
                  && (st || decide (m / 2 ^ (max (e + ((bitLength m : Int) - 24)) (-149)
                    - e).toNat % 2 = 1)))) = true
            then m / 2 ^ (max (e + ((bitLength m : Int) - 24)) (-149) - e).toNat + 1
            else m / 2 ^ (max (e + ((bitLength m : Int) - 24)) (-149) - e).toNat)
          (max (e + ((bitLength m : Int) - 24)) (-149)) := by
  unfold round
  dsimp only
  rw [if_neg (not_le.2 h)]

/-- Dropping the last `k ≥ 1` binary digits of `m` the way `round` does gives the integer
nearest to `w / 2^k`, the even one on a tie, where `w` is `m` itself, or a number strictly
between `m` and `m + 1` when `st` is set. -/
theorem nearest_even_spec (m k : Nat) (st : Bool) (hk : 1 ≤ k) (w : ℝ)
    (hw : (st = false ∧ w = m) ∨ (st = true ∧ (m : ℝ) < w ∧ w < m + 1)) (q : Nat)
    (hq : q = if (decide (2 ^ (k - 1) < m % 2 ^ k)
              || (decide (m % 2 ^ k = 2 ^ (k - 1)) && (st || decide (m / 2 ^ k % 2 = 1))))
              = true
            then m / 2 ^ k + 1 else m / 2 ^ k) :
    |(q : ℝ) * 2 ^ k - w| ≤ 2 ^ k / 2 ∧ (|(q : ℝ) * 2 ^ k - w| = 2 ^ k / 2 → Even q) ∧
    m / 2 ^ k ≤ q ∧ q ≤ m / 2 ^ k + 1 := by
  have hdm : m / 2 ^ k * 2 ^ k + m % 2 ^ k = m := Nat.div_add_mod' m (2 ^ k)
  have hrem : m % 2 ^ k < 2 ^ k := Nat.mod_lt _ (by positivity)
  have hpow : 2 ^ k = 2 * 2 ^ (k - 1) := by
    rw [← pow_succ']
    congr 1
    omega
  -- the same facts over the reals
  have hdmR : ((m / 2 ^ k : Nat) : ℝ) * 2 ^ k + ((m % 2 ^ k : Nat) : ℝ) = (m : ℝ) := by
    exact_mod_cast hdm
  have hremR : ((m % 2 ^ k : Nat) : ℝ) < 2 ^ k := by exact_mod_cast hrem
  have hpowR : (2 : ℝ) ^ k = 2 * 2 ^ (k - 1) := by exact_mod_cast hpow
  have hf : 0 ≤ w - m ∧ w - m < 1 ∧ (st = false → w - m = 0) := by
    rcases hw with ⟨h1, h2⟩ | ⟨h1, h2, h3⟩
    · rw [h2]; simp
    · refine ⟨by linarith, by linarith, fun h => ?_⟩
      rw [h1] at h
      exact absurd h (by simp)
  obtain ⟨hf0, hf1, hfst⟩ := hf
  by_cases hup : (decide (2 ^ (k - 1) < m % 2 ^ k)
      || (decide (m % 2 ^ k = 2 ^ (k - 1)) && (st || decide (m / 2 ^ k % 2 = 1)))) = true
  · rw [if_pos hup] at hq
    have hge : 2 ^ (k - 1) ≤ m % 2 ^ k := by
      simp only [Bool.or_eq_true, Bool.and_eq_true, decide_eq_true_eq] at hup
      rcases hup with h | ⟨h, -⟩
      · exact le_of_lt h
      · exact le_of_eq h.symm
    have hgeR : (2 : ℝ) ^ (k - 1) ≤ ((m % 2 ^ k : Nat) : ℝ) := by exact_mod_cast hge
    have hle1 : ((m % 2 ^ k : Nat) : ℝ) + 1 ≤ 2 ^ k := by exact_mod_cast hrem
    have hqR : (q : ℝ) = ((m / 2 ^ k : Nat) : ℝ) + 1 := by rw [hq]; push_cast; ring
    have hval : (q : ℝ) * 2 ^ k - w = 2 ^ k - ((m % 2 ^ k : Nat) : ℝ) - (w - m) := by
      rw [hqR]
      linarith
    refine ⟨?_, ?_, by omega, by omega⟩
    · rw [hval, abs_le]
      constructor <;> linarith
    · intro htie
      rw [hval, abs_of_nonneg (by linarith)] at htie
      have hfz : w - m = 0 := by linarith
      have hreq : ((m % 2 ^ k : Nat) : ℝ) = 2 ^ (k - 1) := by linarith
      have hreqN : m % 2 ^ k = 2 ^ (k - 1) := by exact_mod_cast hreq
      have hstf : st = false := by
        rcases hw with ⟨h1, -⟩ | ⟨-, h2, -⟩
        · exact h1
        · linarith
      simp only [Bool.or_eq_true, Bool.and_eq_true, decide_eq_true_eq, hstf, hreqN,
        lt_self_iff_false, false_or, true_and, Bool.false_eq_true] at hup
      rw [hq]
      exact Nat.even_add_one.2 (Nat.odd_iff.2 hup |> Nat.not_even_iff_odd.2)
  · rw [if_neg hup] at hq
    simp only [Bool.or_eq_true, Bool.and_eq_true, decide_eq_true_eq, not_or, not_and,
      not_lt] at hup
    obtain ⟨hle, htie'⟩ := hup
    have hleR : ((m % 2 ^ k : Nat) : ℝ) ≤ 2 ^ (k - 1) := by exact_mod_cast hle
    have hval : (q : ℝ) * 2 ^ k - w = -(((m % 2 ^ k : Nat) : ℝ) + (w - m)) := by
      rw [hq]
      linarith
    have hnn : (0 : ℝ) ≤ ((m % 2 ^ k : Nat) : ℝ) := Nat.cast_nonneg _
    rcases Nat.lt_or_ge (m % 2 ^ k) (2 ^ (k - 1)) with hlt | hge
    · have hltR : ((m % 2 ^ k : Nat) : ℝ) + 1 ≤ 2 ^ (k - 1) := by exact_mod_cast hlt
      refine ⟨?_, ?_, by omega, by omega⟩
      · rw [hval, abs_le]
        constructor <;> linarith
      · intro h
        rw [hval, abs_neg, abs_of_nonneg (by linarith)] at h
        linarith
    · have heq : m % 2 ^ k = 2 ^ (k - 1) := le_antisymm hle hge
      have h2 := htie' heq
      simp only [not_or, Bool.not_eq_true, decide_eq_false_iff_not] at h2
      have hfz := hfst h2.1
      have heqR : ((m % 2 ^ k : Nat) : ℝ) = 2 ^ (k - 1) := by exact_mod_cast heq
      refine ⟨?_, ?_, by omega, by omega⟩
      · rw [hval, abs_le]
        constructor <;> linarith
      · intro _
        rw [hq, Nat.even_iff]
        omega

theorem two_zpow_pos (e : Int) : (0 : ℝ) < 2 ^ e := zpow_pos (by norm_num) e

theorem two_zpow_le (a b : Int) (h : a ≤ b) : (2 : ℝ) ^ a ≤ 2 ^ b :=
  zpow_le_zpow_right₀ (by norm_num) h

theorem two_zpow_add (a b : Int) : (2 : ℝ) ^ (a + b) = 2 ^ a * 2 ^ b :=
  zpow_add₀ (by norm_num) a b

theorem two_zpow_natCast (k : Nat) : (2 : ℝ) ^ (k : Int) = 2 ^ k := zpow_natCast 2 k

/-- What `round` computes, for a positive `m`. The number rounded is `w * 2^e`, where `w` is
`m` itself, or lies strictly between `m` and `m + 1` when `st` is set (then `m` has at least 26
digits). The result is `pack s q E` with `E` the exponent of the binade of `w * 2^e` (or `-149`
below the normal range), and `q` the integer nearest to `w * 2^e / 2^E`, the even one on a
tie. -/
theorem round_spec (s : Bool) (m : Nat) (e : Int) (st : Bool) (w : ℝ) (hm : 0 < m)
    (hw : (st = false ∧ w = m) ∨ (st = true ∧ (m : ℝ) < w ∧ w < m + 1 ∧ 2 ^ 25 ≤ m)) :
    ∃ (q : Nat) (E : Int), round s m e st = pack s q E ∧ -149 ≤ E ∧ q ≤ 2 ^ 24 ∧
      (-149 < E → 2 ^ 23 ≤ q) ∧
      |(q : ℝ) * 2 ^ E - w * 2 ^ e| ≤ 2 ^ E / 2 ∧
      (|(q : ℝ) * 2 ^ E - w * 2 ^ e| = 2 ^ E / 2 → Even q) ∧
      w * 2 ^ e < 2 ^ (E + 24) ∧ (-149 < E → (2 : ℝ) ^ (E + 23) ≤ w * 2 ^ e) := by
  have hL1 := two_pow_bitLength_le m hm
  have hL2 := lt_two_pow_bitLength m
  have hLpos := bitLength_pos m hm
  generalize hL : bitLength m = L at hL1 hL2 hLpos
  have hEge : e + ((L : Int) - 24) ≤ max (e + ((L : Int) - 24)) (-149) := le_max_left _ _
  have hE149 : (-149 : Int) ≤ max (e + ((L : Int) - 24)) (-149) := le_max_right _ _
  have hEnorm : -149 < max (e + ((L : Int) - 24)) (-149) →
      max (e + ((L : Int) - 24)) (-149) = e + ((L : Int) - 24) := by
    intro h
    rcases max_choice (e + ((L : Int) - 24)) (-149) with h1 | h1
    · exact h1
    · rw [h1] at h
      exact absurd h (lt_irrefl _)
  have hwm : (m : ℝ) ≤ w ∧ w < m + 1 := by
    rcases hw with ⟨-, h⟩ | ⟨-, h1, h2, -⟩
    · rw [h]; constructor <;> linarith
    · exact ⟨le_of_lt h1, h2⟩
  have hL1R : (2 : ℝ) ^ (L - 1) ≤ m := by exact_mod_cast hL1
  have hL2R : (m : ℝ) + 1 ≤ 2 ^ L := by exact_mod_cast hL2
  have he := two_zpow_pos e
  -- the binade of `w * 2^e`
  have hbin1 : w * 2 ^ e < 2 ^ (max (e + ((L : Int) - 24)) (-149) + 24) := by
    calc w * 2 ^ e < (2 : ℝ) ^ L * 2 ^ e := by
          apply mul_lt_mul_of_pos_right _ he
          linarith [hwm.2]
      _ = 2 ^ ((L : Int) + e) := by rw [two_zpow_add, two_zpow_natCast]
      _ ≤ 2 ^ (max (e + ((L : Int) - 24)) (-149) + 24) := two_zpow_le _ _ (by omega)
  have hbin2 : -149 < max (e + ((L : Int) - 24)) (-149) →
      (2 : ℝ) ^ (max (e + ((L : Int) - 24)) (-149) + 23) ≤ w * 2 ^ e := by
    intro h
    rw [hEnorm h]
    calc (2 : ℝ) ^ (e + ((L : Int) - 24) + 23) = 2 ^ (((L - 1 : Nat) : Int) + e) := by
          congr 1
          omega
      _ = (2 : ℝ) ^ (L - 1) * 2 ^ e := by rw [two_zpow_add, two_zpow_natCast]
      _ ≤ w * 2 ^ e := by
          apply mul_le_mul_of_nonneg_right _ (le_of_lt he)
          linarith [hwm.1]
  by_cases hEe : max (e + ((L : Int) - 24)) (-149) ≤ e
  · -- nothing is dropped
    have hst : st = false := by
      rcases hw with ⟨h, -⟩ | ⟨-, -, -, h⟩
      · exact h
      · exfalso
        have h1 : 2 ^ 25 < 2 ^ L := lt_of_le_of_lt h hL2
        have h2 : 25 < L := (Nat.pow_lt_pow_iff_right (by norm_num)).1 h1
        omega
    have hwm' : w = m := by
      rcases hw with ⟨-, h⟩ | ⟨h, -⟩
      · exact h
      · rw [hst] at h
        exact absurd h (by simp)
    obtain ⟨k, hk⟩ : ∃ k : Nat, (k : Int) = e - max (e + ((L : Int) - 24)) (-149) :=
      ⟨(e - max (e + ((L : Int) - 24)) (-149)).toNat, Int.toNat_of_nonneg (by omega)⟩
    have hkt : (e - max (e + ((L : Int) - 24)) (-149)).toNat = k := by omega
    refine ⟨m * 2 ^ k, max (e + ((L : Int) - 24)) (-149), ?_, hE149, ?_, ?_, ?_, ?_, hbin1,
      hbin2⟩
    · have := round_of_le s m e st (by rw [hL]; exact hEe)
      rw [hL, hkt] at this
      exact this
    · have h1 : m * 2 ^ k < 2 ^ L * 2 ^ k := Nat.mul_lt_mul_of_pos_right hL2 (by positivity)
      have h2 : 2 ^ L * 2 ^ k ≤ 2 ^ 24 := by
        rw [← pow_add]
        exact Nat.pow_le_pow_right (by norm_num) (by omega)
      omega
    · intro h
      have hk' : k = 24 - L := by have := hEnorm h; omega
      have hL24 : L ≤ 24 := by have := hEnorm h; omega
      calc 2 ^ 23 = 2 ^ (L - 1) * 2 ^ k := by
            rw [← pow_add]
            congr 1
            omega
        _ ≤ m * 2 ^ k := Nat.mul_le_mul_right _ hL1
    · have hval : ((m * 2 ^ k : Nat) : ℝ) * 2 ^ max (e + ((L : Int) - 24)) (-149)
          = w * 2 ^ e := by
        rw [hwm']
        push_cast
        rw [mul_assoc, ← two_zpow_natCast, ← two_zpow_add]
        congr 2
        omega
      rw [hval, sub_self, abs_zero]
      exact le_of_lt (half_pos (two_zpow_pos _))
    · intro h
      exfalso
      have hval : ((m * 2 ^ k : Nat) : ℝ) * 2 ^ max (e + ((L : Int) - 24)) (-149)
          = w * 2 ^ e := by
        rw [hwm']
        push_cast
        rw [mul_assoc, ← two_zpow_natCast, ← two_zpow_add]
        congr 2
        omega
      rw [hval, sub_self, abs_zero] at h
      have := half_pos (two_zpow_pos (max (e + ((L : Int) - 24)) (-149)))
      linarith
  · -- the last `k` digits are dropped
    have hEe' : e < max (e + ((L : Int) - 24)) (-149) := not_le.1 hEe
    obtain ⟨k, hk⟩ : ∃ k : Nat, (k : Int) = max (e + ((L : Int) - 24)) (-149) - e :=
      ⟨(max (e + ((L : Int) - 24)) (-149) - e).toNat, Int.toNat_of_nonneg (by omega)⟩
    have hkt : (max (e + ((L : Int) - 24)) (-149) - e).toNat = k := by omega
    have hk1 : 1 ≤ k := by omega
    have hr := round_of_lt s m e st (by rw [hL]; exact hEe')
    rw [hL, hkt] at hr
    have hw' : (st = false ∧ w = m) ∨ (st = true ∧ (m : ℝ) < w ∧ w < m + 1) := by
      rcases hw with h | ⟨h1, h2, h3, -⟩
      · exact Or.inl h
      · exact Or.inr ⟨h1, h2, h3⟩
    obtain ⟨hn1, hn2, hq1, hq2⟩ := nearest_even_spec m k st hk1 w hw' _ rfl
    generalize hq : (if (decide (2 ^ (k - 1) < m % 2 ^ k)
              || (decide (m % 2 ^ k = 2 ^ (k - 1)) && (st || decide (m / 2 ^ k % 2 = 1))))
              = true
            then m / 2 ^ k + 1 else m / 2 ^ k) = q at hr hn1 hn2 hq1 hq2
    have hEk : (2 : ℝ) ^ max (e + ((L : Int) - 24)) (-149) = 2 ^ k * 2 ^ e := by
      rw [← two_zpow_natCast, ← two_zpow_add]
      congr 1
      omega
    have hdiff : (q : ℝ) * 2 ^ max (e + ((L : Int) - 24)) (-149) - w * 2 ^ e
        = ((q : ℝ) * 2 ^ k - w) * 2 ^ e := by
      rw [hEk]
      ring
    have habs : |(q : ℝ) * 2 ^ max (e + ((L : Int) - 24)) (-149) - w * 2 ^ e|
        = |(q : ℝ) * 2 ^ k - w| * 2 ^ e := by
      rw [hdiff, abs_mul, abs_of_pos he]
    have hhalf : (2 : ℝ) ^ max (e + ((L : Int) - 24)) (-149) / 2 = 2 ^ k / 2 * 2 ^ e := by
      rw [hEk]
      ring
    refine ⟨q, max (e + ((L : Int) - 24)) (-149), hr, hE149, ?_, ?_, ?_, ?_, hbin1, hbin2⟩
    · have h1 : m / 2 ^ k < 2 ^ 24 := by
        apply Nat.div_lt_of_lt_mul
        calc m < 2 ^ L := hL2
          _ ≤ 2 ^ (k + 24) := Nat.pow_le_pow_right (by norm_num) (by omega)
          _ = 2 ^ k * 2 ^ 24 := pow_add 2 k 24
      omega
    · intro h
      have hk' : (k : Int) = (L : Int) - 24 := by have := hEnorm h; omega
      have h1 : 2 ^ 23 ≤ m / 2 ^ k := by
        rw [Nat.le_div_iff_mul_le (by positivity)]
        calc 2 ^ 23 * 2 ^ k = 2 ^ (L - 1) := by
              rw [← pow_add]
              congr 1
              omega
          _ ≤ m := hL1
      omega
    · rw [habs, hhalf]
      exact mul_le_mul_of_nonneg_right hn1 (le_of_lt he)
    · intro h
      rw [habs, hhalf] at h
      exact hn2 (mul_right_cancel₀ (ne_of_gt he) h)

/-! ## Binary32 layer: comparisons and the values they compare -/

theorem scaled_mul_zpow (s : Bool) (m : Nat) (e1 e : Int) (h : e ≤ e1) :
    ((scaled s m e1 e : Int) : ℝ) * 2 ^ e = toReal (float.fin s m e1) := by
  obtain ⟨k, hk⟩ : ∃ k : Nat, (k : Int) = e1 - e := ⟨(e1 - e).toNat, Int.toNat_of_nonneg (by omega)⟩
  have hkt : (e1 - e).toNat = k := by omega
  have he1 : (2 : ℝ) ^ e1 = 2 ^ k * 2 ^ e := by
    rw [← two_zpow_natCast, ← two_zpow_add]
    congr 1
    omega
  unfold scaled
  rw [toReal_fin, hkt, he1]
  cases s <;> simp <;> ring

theorem lt_fin_iff (s1 : Bool) (m1 : Nat) (e1 : Int) (s2 : Bool) (m2 : Nat) (e2 : Int) :
    lt (float.fin s1 m1 e1) (float.fin s2 m2 e2) = true
      ↔ toReal (float.fin s1 m1 e1) < toReal (float.fin s2 m2 e2) := by
  unfold lt
  rw [decide_eq_true_eq, ← scaled_mul_zpow s1 m1 e1 (min e1 e2) (min_le_left _ _),
    ← scaled_mul_zpow s2 m2 e2 (min e1 e2) (min_le_right _ _),
    mul_lt_mul_right (two_zpow_pos _)]
  exact Int.cast_lt.symm

theorem le_fin_iff (s1 : Bool) (m1 : Nat) (e1 : Int) (s2 : Bool) (m2 : Nat) (e2 : Int) :
    le (float.fin s1 m1 e1) (float.fin s2 m2 e2) = true
      ↔ toReal (float.fin s1 m1 e1) ≤ toReal (float.fin s2 m2 e2) := by
  unfold le
  rw [Bool.not_eq_true', ← not_lt, ← lt_fin_iff]
  simp

/-- `pack` on the output of `round`: an infinity from `2^128` on, else a float of the same
value. -/
theorem pack_cases (s : Bool) (q : Nat) (E : Int) (hE : -149 ≤ E) (hq : q ≤ 2 ^ 24)
    (hn : -149 < E → 2 ^ 23 ≤ q) :
    (pack s q E = float.inf s ∧ (2 : ℝ) ^ (128 : Int) ≤ (q : ℝ) * 2 ^ E) ∨
    (∃ (m : Nat) (e : Int), pack s q E = float.fin s m e ∧ (m : ℝ) * 2 ^ e = (q : ℝ) * 2 ^ E ∧
      (q : ℝ) * 2 ^ E < 2 ^ (128 : Int)) := by
  unfold pack
  by_cases h1 : 16777216 ≤ q
  · have hq' : q = 2 ^ 24 := le_antisymm hq (by norm_num at h1 ⊢; exact h1)
    have hqR : (q : ℝ) = 2 ^ (24 : Int) := by rw [hq']; norm_num
    rw [if_pos h1]
    by_cases h2 : 104 < E + 1
    · left
      rw [if_pos h2]
      refine ⟨rfl, ?_⟩
      rw [hqR, ← two_zpow_add]
      exact two_zpow_le _ _ (by omega)
    · right
      rw [if_neg h2]
      refine ⟨8388608, E + 1, rfl, ?_, ?_⟩
      · rw [hqR, two_zpow_add E 1]
        norm_num
        ring
      · rw [hqR, ← two_zpow_add]
        exact zpow_lt_zpow_right₀ (by norm_num) (by omega)
  · rw [if_neg h1]
    have hq' : q < 2 ^ 24 := by norm_num at h1 ⊢; exact h1
    have hqR : (q : ℝ) < 2 ^ (24 : Int) := by
      rw [show (24 : Int) = ((24 : Nat) : Int) by rfl, two_zpow_natCast]
      exact_mod_cast hq'
    by_cases h2 : 104 < E
    · left
      rw [if_pos h2]
      refine ⟨rfl, ?_⟩
      have h23' : (2 : ℝ) ^ (23 : Int) ≤ q := by
        rw [show (23 : Int) = ((23 : Nat) : Int) by rfl, two_zpow_natCast]
        exact_mod_cast hn (by omega)
      calc (2 : ℝ) ^ (128 : Int) ≤ 2 ^ (23 + E) := two_zpow_le _ _ (by omega)
        _ = 2 ^ (23 : Int) * 2 ^ E := two_zpow_add _ _
        _ ≤ (q : ℝ) * 2 ^ E := mul_le_mul_of_nonneg_right h23' (le_of_lt (two_zpow_pos _))
    · right
      rw [if_neg h2]
      refine ⟨q, E, rfl, rfl, ?_⟩
      calc (q : ℝ) * 2 ^ E < 2 ^ (24 : Int) * 2 ^ E :=
            mul_lt_mul_of_pos_right hqR (two_zpow_pos _)
        _ = 2 ^ (24 + E) := (two_zpow_add _ _).symm
        _ ≤ 2 ^ (128 : Int) := two_zpow_le _ _ (by omega)

theorem le_pack (q1 q2 : Nat) (E1 E2 : Int) (hE1 : -149 ≤ E1) (hq1 : q1 ≤ 2 ^ 24)
    (hn1 : -149 < E1 → 2 ^ 23 ≤ q1) (hE2 : -149 ≤ E2) (hq2 : q2 ≤ 2 ^ 24)
    (hn2 : -149 < E2 → 2 ^ 23 ≤ q2) (h : (q1 : ℝ) * 2 ^ E1 ≤ (q2 : ℝ) * 2 ^ E2) :
    le (pack false q1 E1) (pack false q2 E2) = true := by
  rcases pack_cases false q1 E1 hE1 hq1 hn1 with ⟨hp1, hv1⟩ | ⟨m1, e1, hp1, hv1, hb1⟩ <;>
  rcases pack_cases false q2 E2 hE2 hq2 hn2 with ⟨hp2, hv2⟩ | ⟨m2, e2, hp2, hv2, hb2⟩
  · rw [hp1, hp2]
    rfl
  · exfalso
    linarith
  · rw [hp1, hp2]
    rfl
  · rw [hp1, hp2, le_fin_iff, toReal_fin, toReal_fin]
    simp only [Bool.false_eq_true, if_false, one_mul]
    rw [hv1, hv2]
    exact h

/-! ## Binary32 layer: rounding is monotone -/

/-- `round` is monotone in the number it rounds. -/
theorem round_mono (m1 m2 : Nat) (e1 e2 : Int) (st1 st2 : Bool) (w1 w2 : ℝ)
    (hm1 : 0 < m1) (hm2 : 0 < m2)
    (hw1 : (st1 = false ∧ w1 = m1) ∨ (st1 = true ∧ (m1 : ℝ) < w1 ∧ w1 < m1 + 1 ∧ 2 ^ 25 ≤ m1))
    (hw2 : (st2 = false ∧ w2 = m2) ∨ (st2 = true ∧ (m2 : ℝ) < w2 ∧ w2 < m2 + 1 ∧ 2 ^ 25 ≤ m2))
    (h : w1 * 2 ^ e1 ≤ w2 * 2 ^ e2) :
    le (round false m1 e1 st1) (round false m2 e2 st2) = true := by
  obtain ⟨q1, E1, hr1, hE1, hq1, hn1, hd1, ht1, hb1, hc1⟩ :=
    round_spec false m1 e1 st1 w1 hm1 hw1
  obtain ⟨q2, E2, hr2, hE2, hq2, hn2, hd2, ht2, hb2, hc2⟩ :=
    round_spec false m2 e2 st2 w2 hm2 hw2
  rw [hr1, hr2]
  apply le_pack q1 q2 E1 E2 hE1 hq1 hn1 hE2 hq2 hn2
  rcases lt_trichotomy E1 E2 with hlt | heq | hgt
  · have h1 : (q1 : ℝ) ≤ 2 ^ (24 : Int) := by
      rw [show (24 : Int) = ((24 : Nat) : Int) by rfl, two_zpow_natCast]
      exact_mod_cast hq1
    have h2 : (2 : ℝ) ^ (23 : Int) ≤ q2 := by
      rw [show (23 : Int) = ((23 : Nat) : Int) by rfl, two_zpow_natCast]
      exact_mod_cast hn2 (by omega)
    calc (q1 : ℝ) * 2 ^ E1 ≤ 2 ^ (24 : Int) * 2 ^ E1 :=
          mul_le_mul_of_nonneg_right h1 (le_of_lt (two_zpow_pos _))
      _ = 2 ^ (24 + E1) := (two_zpow_add _ _).symm
      _ ≤ 2 ^ (23 + E2) := two_zpow_le _ _ (by omega)
      _ = 2 ^ (23 : Int) * 2 ^ E2 := two_zpow_add _ _
      _ ≤ (q2 : ℝ) * 2 ^ E2 := mul_le_mul_of_nonneg_right h2 (le_of_lt (two_zpow_pos _))
  · subst heq
    have hE := two_zpow_pos E1
    have hle : q1 ≤ q2 := by
      by_contra hcon
      have hq : q2 + 1 ≤ q1 := by omega
      have hqR : (q2 : ℝ) + 1 ≤ q1 := by exact_mod_cast hq
      have ha := abs_le.1 hd1
      have hb := abs_le.1 hd2
      have hmul : ((q2 : ℝ) + 1) * 2 ^ E1 ≤ (q1 : ℝ) * 2 ^ E1 :=
        mul_le_mul_of_nonneg_right hqR (le_of_lt hE)
      have e1' : (q1 : ℝ) * 2 ^ E1 - w1 * 2 ^ e1 = 2 ^ E1 / 2 := by linarith [ha.2, hb.1]
      have e2' : (q2 : ℝ) * 2 ^ E1 - w2 * 2 ^ e2 = -(2 ^ E1 / 2) := by linarith [ha.2, hb.1]
      have hq1e : (q1 : ℝ) * 2 ^ E1 = ((q2 : ℝ) + 1) * 2 ^ E1 := by linarith [ha.2, hb.1]
      have hqq : (q1 : ℝ) = (q2 : ℝ) + 1 := mul_right_cancel₀ (ne_of_gt hE) hq1e
      have hqqN : q1 = q2 + 1 := by exact_mod_cast hqq
      have hev1 : Even q1 := ht1 (by rw [e1', abs_of_pos (half_pos hE)])
      have hev2 : Even q2 := ht2 (by rw [e2', abs_neg, abs_of_pos (half_pos hE)])
      rw [hqqN, Nat.even_add_one] at hev1
      exact hev1 hev2
    exact mul_le_mul_of_nonneg_right (by exact_mod_cast hle) (le_of_lt hE)
  · exfalso
    have h1 := hc1 (by omega)
    have h2 : (2 : ℝ) ^ (E2 + 24) ≤ 2 ^ (E1 + 23) := two_zpow_le _ _ (by omega)
    linarith

theorem pack_true (q : Nat) (E : Int) : pack true q E = neg (pack false q E) := by
  unfold pack
  split <;> split <;> rfl

theorem round_true (m : Nat) (e : Int) (st : Bool) :
    round true m e st = neg (round false m e st) := by
  unfold round
  dsimp only
  split
  · exact pack_true _ _
  · exact pack_true _ _

theorem toReal_neg (a : float) : toReal (neg a) = -toReal a := by
  cases a with
  | nan => simp [neg, toReal]
  | inf s => simp [neg, toReal]
  | fin s m e =>
    simp only [neg, toReal_fin]
    cases s <;> simp

theorem le_neg_neg (a b : float) (h : le a b = true) : le (neg b) (neg a) = true := by
  cases a with
  | nan => simp [le] at h
  | inf s1 =>
    cases b with
    | nan => simp [le] at h
    | inf s2 =>
      cases s1 <;> cases s2 <;> simp_all [le, lt, neg]
    | fin s2 m2 e2 =>
      cases s1 <;> simp_all [le, lt, neg]
  | fin s1 m1 e1 =>
    cases b with
    | nan => simp [le] at h
    | inf s2 =>
      cases s2 <;> simp_all [le, lt, neg]
    | fin s2 m2 e2 =>
      rw [le_fin_iff] at h
      have h1 := toReal_neg (float.fin s1 m1 e1)
      have h2 := toReal_neg (float.fin s2 m2 e2)
      simp only [neg] at h1 h2 ⊢
      rw [le_fin_iff, h1, h2]
      linarith

/-- The shape of a result of `round false`: plus infinity or a float of sign `false`. -/
theorem round_false_shape (m : Nat) (e : Int) (st : Bool) :
    round false m e st = float.inf false ∨ ∃ (q : Nat) (E : Int), round false m e st
      = float.fin false q E := by
  have hp : ∀ (q : Nat) (E : Int), pack false q E = float.inf false ∨
      ∃ (q' : Nat) (E' : Int), pack false q E = float.fin false q' E' := by
    intro q E
    unfold pack
    split
    · split
      · exact Or.inl rfl
      · exact Or.inr ⟨_, _, rfl⟩
    · split
      · exact Or.inl rfl
      · exact Or.inr ⟨_, _, rfl⟩
  unfold round
  dsimp only
  split
  · exact hp _ _
  · exact hp _ _

theorem toReal_fin_false_nonneg (m : Nat) (e : Int) : 0 ≤ toReal (float.fin false m e) := by
  rw [toReal_fin]
  simp only [Bool.false_eq_true, if_false, one_mul]
  exact mul_nonneg (Nat.cast_nonneg m) (le_of_lt (two_zpow_pos e))

theorem toReal_zero (s : Bool) (e : Int) : toReal (float.fin s 0 e) = 0 := by
  rw [toReal_fin]
  simp

/-- A zero is below every result of `round false`. -/
theorem le_zero_round_false (s : Bool) (e0 : Int) (m : Nat) (e : Int) (st : Bool) :
    le (float.fin s 0 e0) (round false m e st) = true := by
  rcases round_false_shape m e st with h | ⟨q, E, h⟩
  · rw [h]
    rfl
  · rw [h, le_fin_iff, toReal_zero]
    exact toReal_fin_false_nonneg q E

theorem le_round_true_zero (s : Bool) (e0 : Int) (m : Nat) (e : Int) (st : Bool) :
    le (round true m e st) (float.fin s 0 e0) = true := by
  rw [round_true]
  have h := le_neg_neg _ _ (le_zero_round_false (!s) e0 m e st)
  simpa [neg] using h

theorem le_round_true_round_false (m1 : Nat) (e1 : Int) (st1 : Bool) (m2 : Nat) (e2 : Int)
    (st2 : Bool) : le (round true m1 e1 st1) (round false m2 e2 st2) = true := by
  rw [round_true]
  rcases round_false_shape m1 e1 st1 with h1 | ⟨q1, E1, h1⟩ <;>
  rcases round_false_shape m2 e2 st2 with h2 | ⟨q2, E2, h2⟩
  · rw [h1, h2]; rfl
  · rw [h1, h2]; rfl
  · rw [h1, h2]; rfl
  · rw [h1, h2]
    have hn := toReal_neg (float.fin false q1 E1)
    simp only [neg] at hn ⊢
    rw [le_fin_iff, hn]
    have := toReal_fin_false_nonneg q1 E1
    have := toReal_fin_false_nonneg q2 E2
    simp only [Bool.not_false] at *
    linarith

theorem le_zero_zero (s1 : Bool) (e1 : Int) (s2 : Bool) (e2 : Int) :
    le (float.fin s1 0 e1) (float.fin s2 0 e2) = true := by
  rw [le_fin_iff, toReal_zero, toReal_zero]

/-- Rounding is monotone: the roundings of two real numbers are in the order of the numbers. -/
theorem Rounds_mono (v1 v2 : ℝ) (r1 r2 : float) (h1 : Rounds v1 r1) (h2 : Rounds v2 r2)
    (h : v1 ≤ v2) : le r1 r2 = true := by
  have hpos : ∀ (m : Nat) (st : Bool) (w : ℝ), 0 < m →
      ((st = false ∧ w = m) ∨ (st = true ∧ (m : ℝ) < w ∧ w < m + 1 ∧ 2 ^ 25 ≤ m)) →
      ∀ e : Int, 0 < w * 2 ^ e := by
    intro m st w hm hw e
    have hmR : (0 : ℝ) < m := by exact_mod_cast hm
    have hw0 : 0 < w := by
      rcases hw with ⟨-, hw⟩ | ⟨-, hw, -⟩
      · rw [hw]; exact hmR
      · linarith
    exact mul_pos hw0 (two_zpow_pos e)
  rcases h1 with ⟨hv1, s1, e1, rfl⟩ | ⟨s1, m1, e1, st1, w1, hm1, hw1, hv1, rfl⟩ <;>
  rcases h2 with ⟨hv2, s2, e2, rfl⟩ | ⟨s2, m2, e2, st2, w2, hm2, hw2, hv2, rfl⟩
  · exact le_zero_zero _ _ _ _
  · have hp2 := hpos m2 st2 w2 hm2 hw2 e2
    cases s2 with
    | false => exact le_zero_round_false _ _ _ _ _
    | true =>
      exfalso
      simp only [if_true] at hv2
      linarith
  · have hp1 := hpos m1 st1 w1 hm1 hw1 e1
    cases s1 with
    | true => exact le_round_true_zero _ _ _ _ _
    | false =>
      exfalso
      simp only [Bool.false_eq_true, if_false] at hv1
      linarith
  · have hp1 := hpos m1 st1 w1 hm1 hw1 e1
    have hp2 := hpos m2 st2 w2 hm2 hw2 e2
    cases s1 <;> cases s2 <;> simp only [Bool.false_eq_true, if_false, if_true] at hv1 hv2
    · exact round_mono m1 m2 e1 e2 st1 st2 w1 w2 hm1 hm2 hw1 hw2 (by linarith)
    · exfalso
      linarith
    · exact le_round_true_round_false _ _ _ _ _ _
    · rw [round_true, round_true]
      exact le_neg_neg _ _
        (round_mono m2 m1 e2 e1 st2 st1 w2 w1 hm2 hm1 hw2 hw1 (by linarith))

/-! ## Binary32 layer: the operations round the exact result -/

theorem mul_fin (s1 : Bool) (m1 : Nat) (e1 : Int) (s2 : Bool) (m2 : Nat) (e2 : Int) :
    float.fin s1 m1 e1 * float.fin s2 m2 e2
      = if m1 * m2 = 0 then zero (s1 != s2) else round (s1 != s2) (m1 * m2) (e1 + e2) false :=
  rfl

theorem add_fin (s1 : Bool) (m1 : Nat) (e1 : Int) (s2 : Bool) (m2 : Nat) (e2 : Int) :
    float.fin s1 m1 e1 + float.fin s2 m2 e2
      = if scaled s1 m1 e1 (min e1 e2) + scaled s2 m2 e2 (min e1 e2) = 0 then zero (s1 && s2)
        else round (decide (scaled s1 m1 e1 (min e1 e2) + scaled s2 m2 e2 (min e1 e2) < 0))
          (scaled s1 m1 e1 (min e1 e2) + scaled s2 m2 e2 (min e1 e2)).natAbs (min e1 e2) false :=
  rfl

theorem sub_def (a b : float) : a - b = a + neg b := rfl

theorem neg_def (a : float) : -a = neg a := rfl

theorem div_fin (s1 : Bool) (m1 : Nat) (e1 : Int) (s2 : Bool) (m2 : Nat) (e2 : Int) :
    float.fin s1 m1 e1 / float.fin s2 m2 e2
      = if m2 = 0 then (if m1 = 0 then float.nan else float.inf (s1 != s2))
        else if m1 = 0 then zero (s1 != s2)
        else round (s1 != s2) (m1 * 2 ^ (bitLength m2 + 26) / m2)
          (e1 - e2 - ((bitLength m2 + 26 : Nat) : Int))
          (decide (m1 * 2 ^ (bitLength m2 + 26) % m2 ≠ 0)) :=
  rfl

/-- The product of two finite floats is a rounding of the product of their values. -/
theorem mul_rounds (s1 : Bool) (m1 : Nat) (e1 : Int) (s2 : Bool) (m2 : Nat) (e2 : Int) :
    Rounds (toReal (float.fin s1 m1 e1) * toReal (float.fin s2 m2 e2))
      (float.fin s1 m1 e1 * float.fin s2 m2 e2) := by
  rw [mul_fin]
  by_cases h : m1 * m2 = 0
  · rw [if_pos h]
    left
    refine ⟨?_, _, _, rfl⟩
    rcases Nat.mul_eq_zero.1 h with h | h <;> simp [toReal_fin, h]
  · rw [if_neg h]
    right
    refine ⟨s1 != s2, m1 * m2, e1 + e2, false, ((m1 * m2 : Nat) : ℝ), Nat.pos_of_ne_zero h,
      Or.inl ⟨rfl, rfl⟩, ?_, rfl⟩
    rw [toReal_fin, toReal_fin, two_zpow_add]
    push_cast
    cases s1 <;> cases s2 <;> simp <;> ring

/-- The sum of two finite floats is a rounding of the sum of their values. -/
theorem add_rounds (s1 : Bool) (m1 : Nat) (e1 : Int) (s2 : Bool) (m2 : Nat) (e2 : Int) :
    Rounds (toReal (float.fin s1 m1 e1) + toReal (float.fin s2 m2 e2))
      (float.fin s1 m1 e1 + float.fin s2 m2 e2) := by
  rw [add_fin]
  have hv : toReal (float.fin s1 m1 e1) + toReal (float.fin s2 m2 e2)
      = ((scaled s1 m1 e1 (min e1 e2) + scaled s2 m2 e2 (min e1 e2) : Int) : ℝ)
        * 2 ^ (min e1 e2) := by
    rw [← scaled_mul_zpow s1 m1 e1 (min e1 e2) (min_le_left _ _),
      ← scaled_mul_zpow s2 m2 e2 (min e1 e2) (min_le_right _ _)]
    push_cast
    ring
  generalize scaled s1 m1 e1 (min e1 e2) + scaled s2 m2 e2 (min e1 e2) = c at hv
  rw [hv]
  by_cases h : c = 0
  · rw [if_pos h]
    left
    refine ⟨by rw [h]; simp, _, _, rfl⟩
  · rw [if_neg h]
    right
    refine ⟨decide (c < 0), c.natAbs, min e1 e2, false, (c.natAbs : ℝ),
      Int.natAbs_pos.2 h, Or.inl ⟨rfl, rfl⟩, ?_, rfl⟩
    by_cases hc : c < 0
    · have e : (c.natAbs : Int) = -c := Int.ofNat_natAbs_of_nonpos (le_of_lt hc)
      have eR : (c.natAbs : ℝ) = -(c : ℝ) := by
        rw [← Int.cast_neg, ← e]
        exact (Int.cast_natCast _).symm
      simp only [hc, decide_True, if_true]
      rw [eR]
      ring
    · have e : (c.natAbs : Int) = c := Int.natAbs_of_nonneg (not_lt.1 hc)
      have eR : (c.natAbs : ℝ) = (c : ℝ) := by
        conv_rhs => rw [← e]
        exact (Int.cast_natCast _).symm
      simp only [hc, decide_False, Bool.false_eq_true, if_false]
      rw [eR]
      ring

/-- The difference of two finite floats is a rounding of the difference of their values. -/
theorem sub_rounds (s1 : Bool) (m1 : Nat) (e1 : Int) (s2 : Bool) (m2 : Nat) (e2 : Int) :
    Rounds (toReal (float.fin s1 m1 e1) - toReal (float.fin s2 m2 e2))
      (float.fin s1 m1 e1 - float.fin s2 m2 e2) := by
  have h := add_rounds s1 m1 e1 (!s2) m2 e2
  have hn := toReal_neg (float.fin s2 m2 e2)
  simp only [neg] at hn
  rw [hn, ← sub_eq_add_neg] at h
  rw [sub_def]
  exact h

/-- The quotient of a finite float by a finite float other than zero is a rounding of the
quotient of their values. -/
theorem div_rounds (s1 : Bool) (m1 : Nat) (e1 : Int) (s2 : Bool) (m2 : Nat) (e2 : Int)
    (hm2 : 0 < m2) :
    Rounds (toReal (float.fin s1 m1 e1) / toReal (float.fin s2 m2 e2))
      (float.fin s1 m1 e1 / float.fin s2 m2 e2) := by
  rw [div_fin, if_neg (by omega)]
  by_cases h1 : m1 = 0
  · rw [if_pos h1]
    left
    refine ⟨by simp [toReal_fin, h1], _, _, rfl⟩
  · rw [if_neg h1]
    have hm1 : 0 < m1 := Nat.pos_of_ne_zero h1
    have hm2R : (0 : ℝ) < m2 := by exact_mod_cast hm2
    generalize hk : bitLength m2 + 26 = k
    have hL := lt_two_pow_bitLength m2
    have hdm : m1 * 2 ^ k / m2 * m2 + m1 * 2 ^ k % m2 = m1 * 2 ^ k :=
      Nat.div_add_mod' _ _
    have hrem : m1 * 2 ^ k % m2 < m2 := Nat.mod_lt _ hm2
    have hq26 : 2 ^ 26 ≤ m1 * 2 ^ k / m2 := by
      rw [Nat.le_div_iff_mul_le hm2]
      calc 2 ^ 26 * m2 ≤ 2 ^ 26 * 2 ^ bitLength m2 :=
            Nat.mul_le_mul_left _ (le_of_lt hL)
        _ = 2 ^ k := by rw [← pow_add, ← hk, add_comm]
        _ ≤ m1 * 2 ^ k := Nat.le_mul_of_pos_left _ hm1
    have hdmR : ((m1 * 2 ^ k / m2 : Nat) : ℝ) * m2 + ((m1 * 2 ^ k % m2 : Nat) : ℝ)
        = (m1 : ℝ) * 2 ^ k := by exact_mod_cast hdm
    have hremR : ((m1 * 2 ^ k % m2 : Nat) : ℝ) < m2 := by exact_mod_cast hrem
    have hremN : (0 : ℝ) ≤ ((m1 * 2 ^ k % m2 : Nat) : ℝ) := Nat.cast_nonneg _
    right
    refine ⟨s1 != s2, m1 * 2 ^ k / m2, e1 - e2 - (k : Int),
      decide (m1 * 2 ^ k % m2 ≠ 0), (m1 : ℝ) * 2 ^ k / m2,
      lt_of_lt_of_le (by positivity) hq26, ?_, ?_, rfl⟩
    · by_cases hr : m1 * 2 ^ k % m2 = 0
      · left
        refine ⟨by simp [hr], ?_⟩
        rw [div_eq_iff (ne_of_gt hm2R), ← hdmR, hr]
        simp
      · right
        have hrpos : (0 : ℝ) < ((m1 * 2 ^ k % m2 : Nat) : ℝ) := by
          exact_mod_cast Nat.pos_of_ne_zero hr
        refine ⟨by simp [hr], ?_, ?_, le_trans (by norm_num) hq26⟩
        · rw [lt_div_iff₀ hm2R]
          linarith
        · rw [div_lt_iff₀ hm2R]
          linarith
    · rw [toReal_fin, toReal_fin]
      have he : (2 : ℝ) ^ e1 = 2 ^ (e1 - e2 - (k : Int)) * 2 ^ k * 2 ^ e2 := by
        rw [← two_zpow_natCast, ← two_zpow_add, ← two_zpow_add]
        congr 1
        omega
      have h2 := two_zpow_pos e2
      rw [he]
      cases s1 <;> cases s2 <;> simp <;> field_simp <;> ring

/-! ## Binary32 layer: order lemmas for the claims -/

theorem exists_fin_of_le_of_le (a : float) (s1 : Bool) (m1 : Nat) (e1 : Int) (s2 : Bool)
    (m2 : Nat) (e2 : Int) (h1 : le (float.fin s1 m1 e1) a = true)
    (h2 : le a (float.fin s2 m2 e2) = true) : ∃ (s : Bool) (m : Nat) (e : Int),
      a = float.fin s m e := by
  cases a with
  | nan => simp [le] at h1
  | inf s => cases s <;> simp [le, lt] at h1 h2
  | fin s m e => exact ⟨s, m, e, rfl⟩

theorem exists_fin_of_isFinite (a : float) (h : a.isFinite = true) :
    ∃ (s : Bool) (m : Nat) (e : Int), a = float.fin s m e := by
  cases a with
  | nan => simp [float.isFinite] at h
  | inf s => simp [float.isFinite] at h
  | fin s m e => exact ⟨s, m, e, rfl⟩

theorem Rounds_zero (s : Bool) (e : Int) : Rounds 0 (float.fin s 0 e) :=
  Or.inl ⟨rfl, s, e, rfl⟩

theorem Rounds_of_round_eq (s : Bool) (m : Nat) (e : Int) (hm : 0 < m)
    (h : round s m e false = float.fin s m e) :
    Rounds (toReal (float.fin s m e)) (float.fin s m e) := by
  right
  refine ⟨s, m, e, false, (m : ℝ), hm, Or.inl ⟨rfl, rfl⟩, ?_, h.symm⟩
  rw [toReal_fin]
  ring

theorem ne_nan_of_Rounds (v : ℝ) (r : float) (h : Rounds v r) : le r r = true :=
  Rounds_mono v v r r h h (le_refl v)

theorem one_eq : (1 : float) = float.fin false 8388608 (-23) := by decide

theorem zero_eq : (0 : float) = float.fin false 0 (-149) := by decide

theorem toReal_one : toReal (float.fin false 8388608 (-23)) = 1 := by
  rw [toReal_fin]
  norm_num

theorem Rounds_one : Rounds 1 (float.fin false 8388608 (-23)) := by
  have h := Rounds_of_round_eq false 8388608 (-23) (by norm_num) (by decide!)
  rw [toReal_one] at h
  exact h

/-- Multiplication by a positive finite constant is monotone on the floats other than NaN. -/
theorem mul_le_mul_left_of_pos (mc : Nat) (ec : Int) (hmc : 0 < mc) (u v : float)
    (h : le u v = true) :
    le (float.fin false mc ec * u) (float.fin false mc ec * v) = true := by
  have hc : 0 < toReal (float.fin false mc ec) := by
    rw [toReal_fin]
    simp only [Bool.false_eq_true, if_false, one_mul]
    exact mul_pos (by exact_mod_cast hmc) (two_zpow_pos ec)
  have hinf : ∀ s : Bool, float.fin false mc ec * float.inf s = float.inf s := by
    intro s
    show mul (float.fin false mc ec) (float.inf s) = float.inf s
    simp only [mul, if_neg (ne_of_gt hmc)]
    cases s <;> rfl
  cases u with
  | nan => simp [le] at h
  | inf s1 =>
    cases v with
    | nan => cases s1 <;> simp [le] at h
    | inf s2 =>
      rw [hinf, hinf]
      exact h
    | fin s2 m2 e2 =>
      rw [hinf]
      have hs : s1 = true := by cases s1 <;> simp_all [le, lt]
      subst hs
      have hn := ne_nan_of_Rounds _ _ (mul_rounds false mc ec s2 m2 e2)
      generalize float.fin false mc ec * float.fin s2 m2 e2 = r at hn
      cases r with
      | nan => simp [le] at hn
      | inf s => cases s <;> rfl
      | fin s m e => rfl
  | fin s1 m1 e1 =>
    cases v with
    | nan => simp [le] at h
    | inf s2 =>
      rw [hinf]
      have hs : s2 = false := by cases s2 <;> simp_all [le, lt]
      subst hs
      have hn := ne_nan_of_Rounds _ _ (mul_rounds false mc ec s1 m1 e1)
      generalize float.fin false mc ec * float.fin s1 m1 e1 = r at hn
      cases r with
      | nan => simp [le] at hn
      | inf s => cases s <;> rfl
      | fin s m e => rfl
    | fin s2 m2 e2 =>
      rw [le_fin_iff] at h
      exact Rounds_mono _ _ _ _ (mul_rounds false mc ec s1 m1 e1)
        (mul_rounds false mc ec s2 m2 e2) (mul_le_mul_of_nonneg_left h (le_of_lt hc))

/-! ## Claims on the tone map -/

theorem neg_two_hundredths_eq : -(ofDecimal 2 2) = float.fin true 10737418 (-29) := by decide!

theorem toReal_neg_two_hundredths_neg : toReal (float.fin true 10737418 (-29)) < 0 := by
  rw [toReal_fin]
  norm_num

/-- On finite `x ≥ 0` the argument `-0.02f * x` of the tone map is antitone, and it is at most
zero. -/
theorem toneMap_argument_antitone (x y : float) (h0 : le 0 x = true) (hxy : le x y = true)
    (hy : y.isFinite = true) :
    le (-(ofDecimal 2 2) * y) (-(ofDecimal 2 2) * x) = true ∧
    le (-(ofDecimal 2 2) * x) 0 = true := by
  obtain ⟨sy, my, ey, rfl⟩ := exists_fin_of_isFinite y hy
  rw [zero_eq] at h0 ⊢
  obtain ⟨sx, mx, ex, rfl⟩ := exists_fin_of_le_of_le x _ _ _ _ _ _ h0 hxy
  rw [le_fin_iff, toReal_zero] at h0
  rw [le_fin_iff] at hxy
  rw [neg_two_hundredths_eq]
  have hc := toReal_neg_two_hundredths_neg
  constructor
  · exact Rounds_mono _ _ _ _ (mul_rounds _ _ _ sy my ey) (mul_rounds _ _ _ sx mx ex)
      (mul_le_mul_of_nonpos_left hxy (le_of_lt hc))
  · exact Rounds_mono _ _ _ _ (mul_rounds _ _ _ sx mx ex) (Rounds_zero false (-149))
      (mul_nonpos_of_nonpos_of_nonneg (le_of_lt hc) h0)

/-- On `[0, 1]` the map `u ↦ 1.f - u` is antitone and takes its values in `[0, 1]`. -/
theorem one_sub_antitone (u v : float) (h0 : le 0 v = true) (hvu : le v u = true)
    (h1 : le u 1 = true) :
    le (1 - u) (1 - v) = true ∧ le 0 (1 - u) = true ∧ le (1 - u) 1 = true := by
  rw [zero_eq] at h0 ⊢
  rw [one_eq] at h1 ⊢
  obtain ⟨su, mu, eu, rfl⟩ : ∃ (s : Bool) (m : Nat) (e : Int), u = float.fin s m e := by
    cases u with
    | nan => simp [le] at h1
    | inf s =>
      cases v with
      | nan => simp [le] at h0
      | inf s2 => cases s <;> cases s2 <;> simp [le, lt] at h0 hvu h1
      | fin s2 m2 e2 => cases s <;> simp [le, lt] at hvu h1
    | fin s m e => exact ⟨s, m, e, rfl⟩
  obtain ⟨sv, mv, ev, rfl⟩ := exists_fin_of_le_of_le v _ _ _ _ _ _ h0 hvu
  rw [le_fin_iff, toReal_zero] at h0
  rw [le_fin_iff] at hvu
  rw [le_fin_iff, toReal_one] at h1
  have hu := sub_rounds false 8388608 (-23) su mu eu
  have hv := sub_rounds false 8388608 (-23) sv mv ev
  rw [toReal_one] at hu hv
  refine ⟨Rounds_mono _ _ _ _ hu hv (by linarith),
    Rounds_mono _ _ _ _ (Rounds_zero false (-149)) hu (by linarith),
    Rounds_mono _ _ _ _ hu Rounds_one (by linarith)⟩

/-- C11, amended. For every `exp` that is non-decreasing and has its values in `[0, 1]` at the
arguments up to zero: the tone map `x -> 1.f - exp(-0.02f * x)` is non-decreasing on the finite
`x >= 0` (`0 <= x <= y` gives `toneMap x <= toneMap y`), and its value at such an `x` lies in
the closed interval `[0, 1]`. -/
theorem toneMap_monotone_bounded (gl : Builtins)
    (hmono : ∀ a b : float, le a b = true → le (gl.exp a) (gl.exp b) = true)
    (hunit : ∀ a : float, le a 0 = true → le 0 (gl.exp a) = true ∧ le (gl.exp a) 1 = true)
    (x y : float) (h0 : le 0 x = true) (hxy : le x y = true) (hy : y.isFinite = true) :
    le (toneMap gl x) (toneMap gl y) = true ∧
    le 0 (toneMap gl x) = true ∧ le (toneMap gl x) 1 = true := by
  obtain ⟨harg, hx0⟩ := toneMap_argument_antitone x y h0 hxy hy
  have h3 := (hunit _ hx0).2
  have h4 := hmono _ _ harg
  have hy0 : le (-(ofDecimal 2 2) * y) 0 = true := by
    have hxx : le x x = true := by
      cases x with
      | nan => simp [le] at hxy
      | inf s => cases s <;> rfl
      | fin s m e => rw [le_fin_iff]
    have hyy : le 0 y = true := by
      obtain ⟨sy, my, ey, rfl⟩ := exists_fin_of_isFinite y hy
      rw [zero_eq] at h0 ⊢
      obtain ⟨sx, mx, ex, rfl⟩ := exists_fin_of_le_of_le x _ _ _ _ _ _ h0 hxy
      rw [le_fin_iff] at h0 hxy ⊢
      linarith
    have hyy' : le y y = true := by
      obtain ⟨sy, my, ey, rfl⟩ := exists_fin_of_isFinite y hy
      rw [le_fin_iff]
    exact (toneMap_argument_antitone y y hyy hyy' hy).2
  have h5 := (hunit _ hy0).1
  unfold toneMap
  exact one_sub_antitone _ _ h5 h4 h3

/-- Counterexample to C11 as stated. `1000` and `1000.00006f` are finite, not negative and
different, and the tone map `1.f - exp(-0.02f * x)` has the same value at both for every `exp`:
the two products `-0.02f * x` round to the same `-20`. And for every `exp` with `0 <= exp(-20)
<= 2^-25` (`e^-20` is `2.06e-9`) the tone map of `1000` is not below `1`. -/
theorem toneMap_not_strictly_increasing :
    (le 0 (1000 : float) = true ∧ lt (1000 : float) (ofDecimal 100000006 5) = true ∧
      (ofDecimal 100000006 5).isFinite = true ∧
      ∀ gl : Builtins, toneMap gl 1000 = toneMap gl (ofDecimal 100000006 5)) ∧
    (-(ofDecimal 2 2) * (1000 : float) = -20 ∧
      ∀ gl : Builtins, le 0 (gl.exp (-20)) = true →
        le (gl.exp (-20)) (float.fin false 8388608 (-48)) = true →
        le 1 (toneMap gl 1000) = true) := by
  have harg : -(ofDecimal 2 2) * (1000 : float) = -20 := by decide!
  refine ⟨⟨by decide!, by decide!, by decide!, fun gl => ?_⟩, harg, fun gl h0 h1 => ?_⟩
  · unfold toneMap
    rw [show -(ofDecimal 2 2) * ofDecimal 100000006 5 = -(ofDecimal 2 2) * (1000 : float) by
      decide!]
  · unfold toneMap
    rw [harg]
    have h := (one_sub_antitone (float.fin false 8388608 (-48)) (gl.exp (-20)) h0 h1
      (by decide!)).1
    rw [show (1 : float) - float.fin false 8388608 (-48) = 1 by decide!] at h
    exact h

theorem lt_zero_of_le_of_lt_zero (a b : float) (h : le a b = true) (hb : lt b 0 = true) :
    lt a 0 = true := by
  rw [zero_eq] at hb ⊢
  cases a with
  | nan => simp [le] at h
  | inf s1 =>
    cases b with
    | nan => cases s1 <;> simp [le] at h
    | inf s2 => cases s1 <;> cases s2 <;> simp_all [le, lt]
    | fin s2 m2 e2 => cases s1 <;> simp_all [le, lt]
  | fin s1 m1 e1 =>
    cases b with
    | nan => simp [le] at h
    | inf s2 => cases s2 <;> simp_all [le, lt]
    | fin s2 m2 e2 =>
      rw [le_fin_iff] at h
      rw [lt_fin_iff] at hb ⊢
      linarith

/-- Witness of C11: an `exp` that is `0` below zero and `1` from zero on, at `x = 1`, `y = 2`. -/
theorem toneMap_monotone_bounded_witness :
    ((∀ a b : float, le a b = true →
        le (if lt a 0 = true then (0 : float) else 1) (if lt b 0 = true then (0 : float) else 1)
          = true) ∧
     (∀ a : float, le a 0 = true →
        le 0 (if lt a 0 = true then (0 : float) else 1) = true ∧
        le (if lt a 0 = true then (0 : float) else 1) 1 = true)) ∧
    le (toneMap ⟨fun a => if lt a 0 = true then 0 else 1, fun _ => 1, fun _ => 0⟩ 1)
      (toneMap ⟨fun a => if lt a 0 = true then 0 else 1, fun _ => 1, fun _ => 0⟩ 2) = true := by
  have hmono : ∀ a b : float, le a b = true →
      le (if lt a 0 = true then (0 : float) else 1) (if lt b 0 = true then (0 : float) else 1)
        = true := by
    intro a b h
    by_cases ha : lt a 0 = true
    · rw [if_pos ha]
      by_cases hb : lt b 0 = true
      · rw [if_pos hb]; decide
      · rw [if_neg hb]; decide
    · rw [if_neg ha]
      by_cases hb : lt b 0 = true
      · exact absurd (lt_zero_of_le_of_lt_zero a b h hb) ha
      · rw [if_neg hb]; decide
  have hunit : ∀ a : float, le a 0 = true →
      le 0 (if lt a 0 = true then (0 : float) else 1) = true ∧
      le (if lt a 0 = true then (0 : float) else 1) 1 = true := by
    intro a _
    by_cases ha : lt a 0 = true
    · rw [if_pos ha]; exact ⟨by decide, by decide⟩
    · rw [if_neg ha]; exact ⟨by decide, by decide⟩
  exact ⟨⟨hmono, hunit⟩,
    (toneMap_monotone_bounded ⟨fun a => if lt a 0 = true then 0 else 1, fun _ => 1, fun _ => 0⟩
      hmono hunit 1 2 (by decide) (by decide) rfl).1⟩

/-! ## Claims on the densities -/

/-- Division by a negative finite constant is antitone on the finite floats. -/
theorem div_neg_const_antitone (mc : Nat) (ec : Int) (hmc : 0 < mc) (h1 h2 : float)
    (hf1 : h1.isFinite = true) (hf2 : h2.isFinite = true) (h : le h1 h2 = true) :
    le (h2 / float.fin true mc ec) (h1 / float.fin true mc ec) = true := by
  obtain ⟨s1, m1, e1, rfl⟩ := exists_fin_of_isFinite h1 hf1
  obtain ⟨s2, m2, e2, rfl⟩ := exists_fin_of_isFinite h2 hf2
  rw [le_fin_iff] at h
  have hc : toReal (float.fin true mc ec) < 0 := by
    rw [toReal_fin]
    simp only [if_true, neg_mul, one_mul, neg_neg_iff_pos]
    exact mul_pos (by exact_mod_cast hmc) (two_zpow_pos ec)
  exact Rounds_mono _ _ _ _ (div_rounds s2 m2 e2 true mc ec hmc)
    (div_rounds s1 m1 e1 true mc ec hmc) (div_le_div_of_nonpos_of_le (le_of_lt hc) h)

theorem le_self_div_const (mc : Nat) (ec : Int) (hmc : 0 < mc) (h : float)
    (hf : h.isFinite = true) :
    le (h / float.fin true mc ec) (h / float.fin true mc ec) = true := by
  obtain ⟨s, m, e, rfl⟩ := exists_fin_of_isFinite h hf
  exact ne_nan_of_Rounds _ _ (div_rounds s m e true mc ec hmc)

theorem const_mul_zero (mc : Nat) (ec : Int) : float.fin false mc ec * 0 = 0 := by
  rw [zero_eq, mul_fin, if_pos (Nat.mul_zero mc)]
  rfl

/-- At the height plus infinity the argument of `exp` is minus infinity in the three densities,
and each density is zero when `exp` is zero there. -/
theorem density_at_infinity (gl : Builtins) (h0 : gl.exp (float.inf true) = 0) :
    densityRayleigh gl (float.inf false) = 0 ∧ densityMie gl (float.inf false) = 0 ∧
    densityOzone gl (float.inf false) = 0 := by
  have e1 : float.inf false / (-8 : float) = float.inf true := by decide!
  have e2 : float.inf false / -(ofDecimal 12 1) = float.inf true := by decide!
  have hR : densityRayleigh gl (float.inf false) = 0 := by
    unfold densityRayleigh
    rw [e1, h0]
    decide!
  refine ⟨hR, ?_, ?_⟩
  · unfold densityMie
    rw [e2, h0]
    decide!
  · unfold densityOzone
    rw [hR]
    decide!

/-- C12, amended. For every `exp` that is non-decreasing and is not below zero at any number:
`densityRayleigh`, `densityMie` and `densityOzone` are non-increasing in the finite height (`h1
<= h2` gives `density(h2) <= density(h1)`) and are not below zero; and at the height plus
infinity each of them is zero, when `exp` is zero at minus infinity. -/
theorem density_antitone_nonneg (gl : Builtins)
    (hmono : ∀ a b : float, le a b = true → le (gl.exp a) (gl.exp b) = true)
    (hnn : ∀ a : float, le a a = true → le 0 (gl.exp a) = true)
    (h1 h2 : float) (hf1 : h1.isFinite = true) (hf2 : h2.isFinite = true)
    (h : le h1 h2 = true) :
    (le (densityRayleigh gl h2) (densityRayleigh gl h1) = true ∧
      le 0 (densityRayleigh gl h2) = true) ∧
    (le (densityMie gl h2) (densityMie gl h1) = true ∧ le 0 (densityMie gl h2) = true) ∧
    (le (densityOzone gl h2) (densityOzone gl h1) = true ∧
      le 0 (densityOzone gl h2) = true) ∧
    (gl.exp (float.inf true) = 0 →
      densityRayleigh gl (float.inf false) = 0 ∧ densityMie gl (float.inf false) = 0 ∧
      densityOzone gl (float.inf false) = 0) := by
  have hs : ATMOSPHERE_DENSITY_SCALING = float.fin false 10066330 (-23) := by decide!
  have h8 : (-8 : float) = float.fin true 8388608 (-20) := by decide!
  have h12 : -(ofDecimal 12 1) = float.fin true 10066330 (-23) := by decide!
  have h6 : ofDecimal 6 7 = float.fin false 10555312 (-44) := by decide!
  have hR : le (densityRayleigh gl h2) (densityRayleigh gl h1) = true ∧
      le 0 (densityRayleigh gl h2) = true := by
    unfold densityRayleigh
    rw [hs, h8]
    constructor
    · exact mul_le_mul_left_of_pos _ _ (by norm_num) _ _
        (hmono _ _ (div_neg_const_antitone _ _ (by norm_num) h1 h2 hf1 hf2 h))
    · have := mul_le_mul_left_of_pos 10066330 (-23) (by norm_num) _ _
        (hnn _ (le_self_div_const 8388608 (-20) (by norm_num) h2 hf2))
      rw [const_mul_zero] at this
      exact this
  have hM : le (densityMie gl h2) (densityMie gl h1) = true ∧
      le 0 (densityMie gl h2) = true := by
    unfold densityMie
    rw [hs, h12]
    constructor
    · exact mul_le_mul_left_of_pos _ _ (by norm_num) _ _
        (hmono _ _ (div_neg_const_antitone _ _ (by norm_num) h1 h2 hf1 hf2 h))
    · have := mul_le_mul_left_of_pos 10066330 (-23) (by norm_num) _ _
        (hnn _ (le_self_div_const 10066330 (-23) (by norm_num) h2 hf2))
      rw [const_mul_zero] at this
      exact this
  refine ⟨hR, hM, ?_, density_at_infinity gl⟩
  unfold densityOzone
  rw [h6]
  constructor
  · exact mul_le_mul_left_of_pos _ _ (by norm_num) _ _ hR.1
  · have := mul_le_mul_left_of_pos 10555312 (-44) (by norm_num) _ _ hR.2
    rw [const_mul_zero] at this
    exact this

/-- Counterexample to C12 as stated. The heights `2^-149 < 2^-148` are positive, and
`densityRayleigh` and `densityOzone` have the same value at both for every `exp`: the two
quotients `height / -8.f` round to the same float. So has `densityMie` at `100.00003f <
100.00004f`. And `densityMie(125)` is exactly zero, not strictly positive, for every `exp` that
underflows to zero at `125 / -1.2f = -104.17`. -/
theorem density_not_strictly_decreasing :
    (lt 0 (float.fin false 1 (-149)) = true ∧
      lt (float.fin false 1 (-149)) (float.fin false 2 (-149)) = true ∧
      (∀ gl : Builtins, densityRayleigh gl (float.fin false 1 (-149))
        = densityRayleigh gl (float.fin false 2 (-149))) ∧
      (∀ gl : Builtins, densityOzone gl (float.fin false 1 (-149))
        = densityOzone gl (float.fin false 2 (-149)))) ∧
    (lt (ofDecimal 10000003 5) (ofDecimal 10000004 5) = true ∧
      ∀ gl : Builtins, densityMie gl (ofDecimal 10000003 5)
        = densityMie gl (ofDecimal 10000004 5)) ∧
    (∀ gl : Builtins, gl.exp ((125 : float) / -(ofDecimal 12 1)) = 0 →
      densityMie gl 125 = 0) := by
  have hR : ∀ gl : Builtins, densityRayleigh gl (float.fin false 1 (-149))
      = densityRayleigh gl (float.fin false 2 (-149)) := by
    intro gl
    unfold densityRayleigh
    rw [show float.fin false 1 (-149) / (-8 : float) = float.fin false 2 (-149) / (-8 : float)
      by decide!]
  refine ⟨⟨by decide!, by decide!, hR, fun gl => ?_⟩, ⟨by decide!, fun gl => ?_⟩,
    fun gl h => ?_⟩
  · unfold densityOzone
    rw [hR gl]
  · unfold densityMie
    rw [show ofDecimal 10000003 5 / -(ofDecimal 12 1) = ofDecimal 10000004 5 / -(ofDecimal 12 1)
      by decide!]
  · unfold densityMie
    rw [h]
    decide!

/-- Witness of C12: an `exp` that is `0` below zero and `1` from zero on, at the heights `0` and
`8`. -/
theorem density_antitone_nonneg_witness :
    ((∀ a b : float, le a b = true →
        le (if lt a 0 = true then (0 : float) else 1) (if lt b 0 = true then (0 : float) else 1)
          = true) ∧
     (∀ a : float, le a a = true → le 0 (if lt a 0 = true then (0 : float) else 1) = true)) ∧
    le (densityRayleigh ⟨fun a => if lt a 0 = true then 0 else 1, fun _ => 1, fun _ => 0⟩ 8)
      (densityRayleigh ⟨fun a => if lt a 0 = true then 0 else 1, fun _ => 1, fun _ => 0⟩ 0)
      = true := by
  have hmono : ∀ a b : float, le a b = true →
      le (if lt a 0 = true then (0 : float) else 1) (if lt b 0 = true then (0 : float) else 1)
        = true := by
    intro a b h
    by_cases ha : lt a 0 = true
    · rw [if_pos ha]
      by_cases hb : lt b 0 = true
      · rw [if_pos hb]; decide
      · rw [if_neg hb]; decide
    · rw [if_neg ha]
      by_cases hb : lt b 0 = true
      · exact absurd (lt_zero_of_le_of_lt_zero a b h hb) ha
      · rw [if_neg hb]; decide
  have hnn : ∀ a : float, le a a = true →
      le 0 (if lt a 0 = true then (0 : float) else 1) = true := by
    intro a _
    by_cases ha : lt a 0 = true
    · rw [if_pos ha]; decide
    · rw [if_neg ha]; decide
  exact ⟨⟨hmono, hnn⟩,
    (density_antitone_nonneg ⟨fun a => if lt a 0 = true then 0 else 1, fun _ => 1, fun _ => 0⟩
      hmono hnn 0 8 rfl rfl (by decide)).1.1⟩

/-! ## Binary32 layer: NaN and signs -/

theorem mul_nan (a : float) : a * float.nan = float.nan := by
  cases a <;> rfl

theorem nan_mul (a : float) : float.nan * a = float.nan := by
  cases a <;> rfl

theorem add_nan (a : float) : a + float.nan = float.nan := by
  cases a <;> rfl

theorem nan_add (a : float) : float.nan + a = float.nan := by
  cases a <;> rfl

theorem sub_nan (a : float) : a - float.nan = float.nan := by
  cases a <;> rfl

theorem nan_sub (a : float) : float.nan - a = float.nan := by
  cases a <;> rfl

theorem nan_div (a : float) : float.nan / a = float.nan := by
  cases a <;> rfl

theorem div_nan (a : float) : a / float.nan = float.nan := by
  cases a <;> rfl

theorem lt_nan (a : float) : lt a float.nan = false := by
  cases a <;> rfl

theorem nan_lt (a : float) : lt float.nan a = false := by
  cases a <;> rfl

theorem signClear_fin (s : Bool) (m : Nat) (e : Int)
    (h : (float.fin s m e).signClear = true) : s = false := by
  cases s
  · rfl
  · exact absurd h (by simp [float.signClear])

theorem signClear_inf (s : Bool) (h : (float.inf s).signClear = true) : s = false := by
  cases s
  · rfl
  · exact absurd h (by simp [float.signClear])

theorem signClear_round_false (m : Nat) (e : Int) (st : Bool) :
    (round false m e st).signClear = true := by
  rcases round_false_shape m e st with h | ⟨q, E, h⟩ <;> rw [h] <;> rfl

theorem signClear_mul (a b : float) (ha : a.signClear = true) (hb : b.signClear = true) :
    (a * b).signClear = true := by
  cases a with
  | nan => rw [nan_mul]; rfl
  | inf s1 =>
    have h1 := signClear_inf s1 ha
    subst h1
    cases b with
    | nan => rfl
    | inf s2 =>
      have h2 := signClear_inf s2 hb
      subst h2
      rfl
    | fin s2 m2 e2 =>
      have h2 := signClear_fin s2 m2 e2 hb
      subst h2
      show (if m2 = 0 then float.nan else float.inf (false != false)).signClear = true
      by_cases h : m2 = 0
      · rw [if_pos h]; rfl
      · rw [if_neg h]; rfl
  | fin s1 m1 e1 =>
    have h1 := signClear_fin s1 m1 e1 ha
    subst h1
    cases b with
    | nan => rfl
    | inf s2 =>
      have h2 := signClear_inf s2 hb
      subst h2
      show (if m1 = 0 then float.nan else float.inf (false != false)).signClear = true
      by_cases h : m1 = 0
      · rw [if_pos h]; rfl
      · rw [if_neg h]; rfl
    | fin s2 m2 e2 =>
      have h2 := signClear_fin s2 m2 e2 hb
      subst h2
      rw [mul_fin]
      by_cases h : m1 * m2 = 0
      · rw [if_pos h]; rfl
      · rw [if_neg h]
        exact signClear_round_false _ _ _

theorem signClear_mul_self (a : float) : (a * a).signClear = true := by
  cases a with
  | nan => rfl
  | inf s => cases s <;> rfl
  | fin s m e =>
    rw [mul_fin]
    have hs : (s != s) = false := by cases s <;> rfl
    rw [hs]
    by_cases h : m * m = 0
    · rw [if_pos h]; rfl
    · rw [if_neg h]
      exact signClear_round_false _ _ _

theorem signClear_add (a b : float) (ha : a.signClear = true) (hb : b.signClear = true) :
    (a + b).signClear = true := by
  cases a with
  | nan => rw [nan_add]; rfl
  | inf s1 =>
    have h1 := signClear_inf s1 ha
    subst h1
    cases b with
    | nan => rfl
    | inf s2 =>
      have h2 := signClear_inf s2 hb
      subst h2
      rfl
    | fin s2 m2 e2 => rfl
  | fin s1 m1 e1 =>
    have h1 := signClear_fin s1 m1 e1 ha
    subst h1
    cases b with
    | nan => rfl
    | inf s2 =>
      have h2 := signClear_inf s2 hb
      subst h2
      rfl
    | fin s2 m2 e2 =>
      have h2 := signClear_fin s2 m2 e2 hb
      subst h2
      rw [add_fin]
      by_cases h : scaled false m1 e1 (min e1 e2) + scaled false m2 e2 (min e1 e2) = 0
      · rw [if_pos h]; rfl
      · rw [if_neg h]
        have hn : ¬ (scaled false m1 e1 (min e1 e2) + scaled false m2 e2 (min e1 e2) < 0) := by
          unfold scaled
          simp only [Bool.false_eq_true, if_false, one_mul, not_lt]
          positivity
        rw [decide_eq_false hn]
        exact signClear_round_false _ _ _

theorem signClear_div (a b : float) (ha : a.signClear = true) (hb : b.signClear = true) :
    (a / b).signClear = true := by
  cases a with
  | nan => rw [nan_div]; rfl
  | inf s1 =>
    have h1 := signClear_inf s1 ha
    subst h1
    cases b with
    | nan => rfl
    | inf s2 => rfl
    | fin s2 m2 e2 =>
      have h2 := signClear_fin s2 m2 e2 hb
      subst h2
      rfl
  | fin s1 m1 e1 =>
    have h1 := signClear_fin s1 m1 e1 ha
    subst h1
    cases b with
    | nan => rfl
    | inf s2 =>
      have h2 := signClear_inf s2 hb
      subst h2
      rfl
    | fin s2 m2 e2 =>
      have h2 := signClear_fin s2 m2 e2 hb
      subst h2
      rw [div_fin]
      by_cases hm2 : m2 = 0
      · rw [if_pos hm2]
        by_cases hm1 : m1 = 0
        · rw [if_pos hm1]; rfl
        · rw [if_neg hm1]; rfl
      · rw [if_neg hm2]
        by_cases hm1 : m1 = 0
        · rw [if_pos hm1]; rfl
        · rw [if_neg hm1]
          exact signClear_round_false _ _ _

theorem signClear_sqrt (a : float) (ha : a.signClear = true) : (sqrt a).signClear = true := by
  cases a with
  | nan => rfl
  | inf s => cases s <;> rfl
  | fin s m e =>
    have h1 := signClear_fin s m e ha
    subst h1
    unfold sqrt
    dsimp only
    by_cases h : m = 0
    · rw [if_pos h]; rfl
    · rw [if_neg h]
      simp only [Bool.false_eq_true, if_false]
      exact signClear_round_false _ _ _

/-- A float whose sign bit is clear does not compare below zero. -/
theorem not_lt_zero_of_signClear (a : float) (ha : a.signClear = true) : lt a 0 = false := by
  rw [zero_eq]
  cases a with
  | nan => rfl
  | inf s =>
    have h1 := signClear_inf s ha
    subst h1
    rfl
  | fin s m e =>
    have h1 := signClear_fin s m e ha
    subst h1
    rw [← Bool.not_eq_true, lt_fin_iff, toReal_zero, not_lt]
    exact toReal_fin_false_nonneg m e

theorem toReal_nonneg_of_not_lt_zero (s : Bool) (m : Nat) (e : Int)
    (h : lt (float.fin s m e) 0 = false) : 0 ≤ toReal (float.fin s m e) := by
  rw [zero_eq, ← Bool.not_eq_true, lt_fin_iff, toReal_zero, not_lt] at h
  exact h

theorem inf_not_lt_zero (s : Bool) (h : lt (float.inf s) 0 = false) : s = false := by
  cases s
  · rfl
  · exact absurd h (by simp [zero_eq, lt])

theorem sign_of_not_lt_zero (s : Bool) (m : Nat) (e : Int)
    (h : lt (float.fin s m e) 0 = false) (hm : m ≠ 0) : s = false := by
  have h0 := toReal_nonneg_of_not_lt_zero s m e h
  cases s
  · rfl
  · exfalso
    rw [toReal_fin] at h0
    simp only [if_true, neg_mul, one_mul, Left.nonneg_neg_iff] at h0
    have : (0 : ℝ) < m * 2 ^ e :=
      mul_pos (by exact_mod_cast Nat.pos_of_ne_zero hm) (two_zpow_pos e)
    linarith

theorem not_lt_zero_of_Rounds (v : ℝ) (r : float) (h : Rounds v r) (hv : 0 ≤ v) :
    lt r 0 = false := by
  have h1 := Rounds_mono 0 v _ r (Rounds_zero false (-149)) h hv
  rw [zero_eq]
  cases r with
  | nan => rfl
  | inf s => simpa [le] using h1
  | fin s m e => simpa [le] using h1

/-- The product of two floats that do not compare below zero does not compare below zero. -/
theorem not_lt_zero_mul (a b : float) (ha : lt a 0 = false) (hb : lt b 0 = false) :
    lt (a * b) 0 = false := by
  cases a with
  | nan => rw [nan_mul]; rfl
  | inf s1 =>
    have h1 := inf_not_lt_zero s1 ha
    subst h1
    cases b with
    | nan => rfl
    | inf s2 =>
      have h2 := inf_not_lt_zero s2 hb
      subst h2
      rfl
    | fin s2 m2 e2 =>
      show lt (if m2 = 0 then float.nan else float.inf (false != s2)) 0 = false
      by_cases h : m2 = 0
      · rw [if_pos h]; rfl
      · rw [if_neg h, sign_of_not_lt_zero s2 m2 e2 hb h]; rfl
  | fin s1 m1 e1 =>
    cases b with
    | nan => rfl
    | inf s2 =>
      have h2 := inf_not_lt_zero s2 hb
      subst h2
      show lt (if m1 = 0 then float.nan else float.inf (s1 != false)) 0 = false
      by_cases h : m1 = 0
      · rw [if_pos h]; rfl
      · rw [if_neg h, sign_of_not_lt_zero s1 m1 e1 ha h]; rfl
    | fin s2 m2 e2 =>
      exact not_lt_zero_of_Rounds _ _ (mul_rounds s1 m1 e1 s2 m2 e2)
        (mul_nonneg (toReal_nonneg_of_not_lt_zero _ _ _ ha)
          (toReal_nonneg_of_not_lt_zero _ _ _ hb))

/-- The sum of two floats that do not compare below zero does not compare below zero. -/
theorem not_lt_zero_add (a b : float) (ha : lt a 0 = false) (hb : lt b 0 = false) :
    lt (a + b) 0 = false := by
  cases a with
  | nan => rw [nan_add]; rfl
  | inf s1 =>
    have h1 := inf_not_lt_zero s1 ha
    subst h1
    cases b with
    | nan => rfl
    | inf s2 =>
      have h2 := inf_not_lt_zero s2 hb
      subst h2
      rfl
    | fin s2 m2 e2 => rfl
  | fin s1 m1 e1 =>
    cases b with
    | nan => rfl
    | inf s2 =>
      have h2 := inf_not_lt_zero s2 hb
      subst h2
      rfl
    | fin s2 m2 e2 =>
      exact not_lt_zero_of_Rounds _ _ (add_rounds s1 m1 e1 s2 m2 e2)
        (add_nonneg (toReal_nonneg_of_not_lt_zero _ _ _ ha)
          (toReal_nonneg_of_not_lt_zero _ _ _ hb))

theorem neverNegative_iff (a : vec3) :
    a.neverNegative = true ↔ lt a.x 0 = false ∧ lt a.y 0 = false ∧ lt a.z 0 = false := by
  unfold vec3.neverNegative
  simp [Bool.and_eq_true, and_assoc]

theorem neverNegative_mul (a b : vec3) (ha : a.neverNegative = true)
    (hb : b.neverNegative = true) : (a * b).neverNegative = true := by
  rw [neverNegative_iff] at ha hb ⊢
  exact ⟨not_lt_zero_mul _ _ ha.1 hb.1, not_lt_zero_mul _ _ ha.2.1 hb.2.1,
    not_lt_zero_mul _ _ ha.2.2 hb.2.2⟩

theorem neverNegative_add (a b : vec3) (ha : a.neverNegative = true)
    (hb : b.neverNegative = true) : (a + b).neverNegative = true := by
  rw [neverNegative_iff] at ha hb ⊢
  exact ⟨not_lt_zero_add _ _ ha.1 hb.1, not_lt_zero_add _ _ ha.2.1 hb.2.1,
    not_lt_zero_add _ _ ha.2.2 hb.2.2⟩

theorem neverNegative_smul (s : float) (a : vec3) (hs : lt s 0 = false)
    (ha : a.neverNegative = true) : (s * a).neverNegative = true := by
  rw [neverNegative_iff] at ha ⊢
  exact ⟨not_lt_zero_mul _ _ hs ha.1, not_lt_zero_mul _ _ hs ha.2.1,
    not_lt_zero_mul _ _ hs ha.2.2⟩

theorem neverNegative_mul_float (a : vec3) (s : float) (ha : a.neverNegative = true)
    (hs : lt s 0 = false) : (a * s).neverNegative = true := by
  rw [neverNegative_iff] at ha ⊢
  exact ⟨not_lt_zero_mul _ _ ha.1 hs, not_lt_zero_mul _ _ ha.2.1 hs,
    not_lt_zero_mul _ _ ha.2.2 hs⟩

theorem neverNegative_vexp (gl : Builtins) (hexp : ∀ a : float, lt (gl.exp a) 0 = false)
    (a : vec3) : (vexp gl a).neverNegative = true := by
  rw [neverNegative_iff]
  exact ⟨hexp _, hexp _, hexp _⟩

/-! ## Binary32 layer: no radiance channel is negative -/

theorem signClear_of_Rounds_pos (v : ℝ) (r : float) (h : Rounds v r) (hv : 0 < v) :
    r.signClear = true := by
  rcases h with ⟨h0, -⟩ | ⟨s, m, e, st, w, hm, hw, hval, rfl⟩
  · exact absurd h0 (ne_of_gt hv)
  · have hw0 : 0 < w * 2 ^ e := by
      have hmR : (0 : ℝ) < m := by exact_mod_cast hm
      have : 0 < w := by
        rcases hw with ⟨-, hw⟩ | ⟨-, hw, -⟩
        · rw [hw]; exact hmR
        · linarith
      exact mul_pos this (two_zpow_pos e)
    cases s
    · exact signClear_round_false _ _ _
    · exfalso
      simp only [if_true] at hval
      linarith

theorem signClear_phaseRayleigh (gl : Builtins) (theta : float) :
    (phaseRayleigh gl theta).signClear = true := by
  unfold phaseRayleigh
  dsimp only
  exact signClear_mul _ _ (by decide!)
    (signClear_add _ _ (by decide) (signClear_mul_self _))

/-- The base `1.f + g * g - 2.f * g * cosTheta` for `g = -0.8f`: its sign bit is clear (or it
is NaN) as soon as `cosTheta` does not compare below `-1`. -/
theorem signClear_base (c : float) (hc : lt c (-1) = false) :
    (1 + -(ofDecimal 8 1) * -(ofDecimal 8 1) - 2 * -(ofDecimal 8 1) * c).signClear = true := by
  have hK : (1 + -(ofDecimal 8 1) * -(ofDecimal 8 1) : float)
      = float.fin false 13757318 (-23) := by decide!
  have hG : (2 * -(ofDecimal 8 1) : float) = float.fin true 13421773 (-23) := by decide!
  rw [hK, hG]
  cases c with
  | nan => decide!
  | inf s =>
    cases s
    · decide!
    · exact absurd hc (by decide!)
  | fin s m e =>
    have hm1 : (-1 : float) = float.fin true 8388608 (-23) := by decide!
    rw [hm1, ← Bool.not_eq_true, lt_fin_iff, not_lt] at hc
    have hm1R : toReal (float.fin true 8388608 (-23)) = -1 := by
      rw [toReal_fin]; norm_num
    rw [hm1R] at hc
    have hGR : toReal (float.fin true 13421773 (-23)) = -(13421773 / 8388608) := by
      rw [toReal_fin]; norm_num
    have hKR : toReal (float.fin false 13757318 (-23)) = 13757318 / 8388608 := by
      rw [toReal_fin]; norm_num
    have ht := mul_rounds true 13421773 (-23) s m e
    have hT0 : Rounds (13421773 / 8388608) (float.fin false 13421773 (-23)) := by
      have := Rounds_of_round_eq false 13421773 (-23) (by norm_num) (by decide!)
      rw [toReal_fin] at this
      convert this using 1
      norm_num
    rw [hGR] at ht
    have hle := Rounds_mono _ _ _ _ ht hT0 (by nlinarith)
    generalize float.fin true 13421773 (-23) * float.fin s m e = t at ht hle
    cases t with
    | nan => simp [le] at hle
    | inf s2 =>
      cases s2
      · simp [le, lt] at hle
      · rfl
    | fin s2 m2 e2 =>
      rw [le_fin_iff] at hle
      have hT0R : toReal (float.fin false 13421773 (-23)) = 13421773 / 8388608 := by
        rw [toReal_fin]; norm_num
      rw [hT0R] at hle
      have hs := sub_rounds false 13757318 (-23) s2 m2 e2
      rw [hKR] at hs
      exact signClear_of_Rounds_pos _ _ hs (by linarith)

theorem signClear_phaseHenyeyGreenstein (gl : Builtins) (theta : float)
    (hc : lt (gl.cos theta) (-1) = false) :
    (phaseHenyeyGreenstein gl theta (-(ofDecimal 8 1))).signClear = true := by
  unfold phaseHenyeyGreenstein phaseHenyeyGreensteinOfCos
  dsimp only
  have hb := signClear_base (gl.cos theta) hc
  refine signClear_div _ _ ?_ ?_
  · exact signClear_mul _ _ (by decide!)
      (signClear_add _ _ (by decide) (signClear_mul_self _))
  · exact signClear_mul _ _ (by decide!)
      (signClear_sqrt _ (signClear_mul _ _ (signClear_mul _ _ hb hb) hb))

theorem not_lt_zero_densityRayleigh (gl : Builtins)
    (hexp : ∀ a : float, lt (gl.exp a) 0 = false) (h : float) :
    lt (densityRayleigh gl h) 0 = false :=
  not_lt_zero_mul _ _ (by decide!) (hexp _)

theorem not_lt_zero_densityMie (gl : Builtins)
    (hexp : ∀ a : float, lt (gl.exp a) 0 = false) (h : float) :
    lt (densityMie gl h) 0 = false :=
  not_lt_zero_mul _ _ (by decide!) (hexp _)

theorem neverNegative_scatteringLoop (gl : Builtins)
    (hexp : ∀ a : float, lt (gl.exp a) 0 = false) (p0 l step : vec3) :
    ∀ (n : Nat) (p tr tm : vec3), tr.neverNegative = true → tm.neverNegative = true →
      (scatteringLoop gl p0 l step n p tr tm).1.neverNegative = true ∧
      (scatteringLoop gl p0 l step n p tr tm).2.neverNegative = true := by
  intro n
  induction n with
  | zero => intro p tr tm h1 h2; exact ⟨h1, h2⟩
  | succ n ih =>
    intro p tr tm h1 h2
    unfold scatteringLoop
    dsimp only
    exact ih _ _ _
      (neverNegative_add _ _ h1
        (neverNegative_smul _ _ (not_lt_zero_densityRayleigh gl hexp _)
          (neverNegative_vexp gl hexp _)))
      (neverNegative_add _ _ h2
        (neverNegative_smul _ _ (not_lt_zero_densityMie gl hexp _)
          (neverNegative_vexp gl hexp _)))

theorem signClear_length (a : vec3) : (length a).signClear = true := by
  unfold length dot
  exact signClear_sqrt _ (signClear_add _ _
    (signClear_add _ _ (signClear_mul_self _) (signClear_mul_self _)) (signClear_mul_self _))

theorem neverNegative_rayleighMieSum (gl : Builtins)
    (hexp : ∀ a : float, lt (gl.exp a) 0 = false)
    (hcos : ∀ t : float, lt (gl.cos t) (-1) = false) (p0 v l : vec3) :
    (rayleighMieSum gl p0 v l).neverNegative = true := by
  unfold rayleighMieSum
  dsimp only
  have hS : SUN_STRENGTH.neverNegative = true := by decide!
  have hds : lt (length (atmosphereExit p0 v - p0) / ofNat INTEGRATION_STEPS * 1000) 0
      = false :=
    not_lt_zero_of_signClear _ (signClear_mul _ _
      (signClear_div _ _ (signClear_length _) (by decide!)) (by decide!))
  obtain ⟨h1, h2⟩ := neverNegative_scatteringLoop gl hexp p0 l
    ((atmosphereExit p0 v - p0) * ((1 : float) / ofNat INTEGRATION_STEPS)) INTEGRATION_STEPS
    (p0 + (atmosphereExit p0 v - p0) * ((1 : float) / ofNat INTEGRATION_STEPS)
      * ofDecimal 5 1) ⟨0, 0, 0⟩ ⟨0, 0, 0⟩ (by decide) (by decide)
  refine neverNegative_mul _ _ hS (neverNegative_add _ _ ?_ ?_)
  · exact neverNegative_mul _ _
      (neverNegative_mul_float _ _
        (neverNegative_mul _ _ h1 (neverNegative_smul _ _ hds hS))
        (not_lt_zero_of_signClear _ (signClear_phaseRayleigh gl _)))
      (by decide!)
  · exact neverNegative_mul _ _
      (neverNegative_mul_float _ _
        (neverNegative_mul _ _ h2 (neverNegative_smul _ _ hds hS))
        (not_lt_zero_of_signClear _ (signClear_phaseHenyeyGreenstein gl _ (hcos _))))
      (by decide!)

theorem neverNegative_directSunTerm (gl : Builtins)
    (hexp : ∀ a : float, lt (gl.exp a) 0 = false) (p0 v : vec3) :
    (directSunTerm gl p0 v).neverNegative = true := by
  unfold directSunTerm
  dsimp only
  exact neverNegative_mul _ _ (by decide!) (neverNegative_vexp gl hexp _)

/-- For every `exp` that is never below zero and every `cos` that is never below `-1`, no
channel of the result of `intensitySingleScattering` compares below zero. -/
theorem neverNegative_intensitySingleScattering (gl : Builtins)
    (hexp : ∀ a : float, lt (gl.exp a) 0 = false)
    (hcos : ∀ t : float, lt (gl.cos t) (-1) = false) (p0 v l il : vec3) :
    (intensitySingleScattering gl p0 v l il).neverNegative = true := by
  by_cases hg : lt (-(ofDecimal 5 1)) (forwardRaySphere p0 (-v) EARTH_RADIUS) = true
  · rw [intensitySingleScattering_of_ground gl p0 v l il hg]
    decide!
  · rw [intensitySingleScattering_of_not_ground gl p0 v l il (by simpa using hg)]
    split
    · exact neverNegative_add _ _ (neverNegative_rayleighMieSum gl hexp hcos p0 v l)
        (neverNegative_directSunTerm gl hexp p0 v)
    · exact neverNegative_rayleighMieSum gl hexp hcos p0 v l

/-! ## Binary32 layer: NaN view vectors and the range of the tone map -/

theorem neg_nan : -float.nan = float.nan := rfl

theorem sqrt_nan : sqrt float.nan = float.nan := rfl

theorem nan_smul_vec3 (a : vec3) :
    float.nan * a = (⟨float.nan, float.nan, float.nan⟩ : vec3) := by
  show (⟨float.nan * a.x, float.nan * a.y, float.nan * a.z⟩ : vec3) = _
  simp only [nan_mul]

theorem vec3_mul_nan (a : vec3) :
    a * (⟨float.nan, float.nan, float.nan⟩ : vec3) = ⟨float.nan, float.nan, float.nan⟩ := by
  show (⟨a.x * float.nan, a.y * float.nan, a.z * float.nan⟩ : vec3) = _
  simp only [mul_nan]

theorem nan_vec3_mul (a : vec3) :
    (⟨float.nan, float.nan, float.nan⟩ : vec3) * a = ⟨float.nan, float.nan, float.nan⟩ := by
  show (⟨float.nan * a.x, float.nan * a.y, float.nan * a.z⟩ : vec3) = _
  simp only [nan_mul]

theorem nan_vec3_mul_float (s : float) :
    (⟨float.nan, float.nan, float.nan⟩ : vec3) * s = ⟨float.nan, float.nan, float.nan⟩ := by
  show (⟨float.nan * s, float.nan * s, float.nan * s⟩ : vec3) = _
  simp only [nan_mul]

theorem nan_vec3_add (a : vec3) :
    (⟨float.nan, float.nan, float.nan⟩ : vec3) + a = ⟨float.nan, float.nan, float.nan⟩ := by
  show (⟨float.nan + a.x, float.nan + a.y, float.nan + a.z⟩ : vec3) = _
  simp only [nan_add]

theorem forwardRaySphere_nan_direction (p0 : vec3) (r : float) :
    forwardRaySphere p0 ⟨float.nan, float.nan, float.nan⟩ r = -1 := by
  unfold forwardRaySphere solveQuadratic dot
  simp only [mul_nan, nan_mul, add_nan, nan_add, sub_nan, nan_sub, lt_nan, nan_lt, neg_nan,
    sqrt_nan, nan_div, Bool.false_eq_true, if_false, false_and]

/-- With a view vector of NaN the radiance is NaN in every channel. -/
theorem intensitySingleScattering_nan_view (gl : Builtins) (p0 l il : vec3) :
    intensitySingleScattering gl p0 ⟨float.nan, float.nan, float.nan⟩ l il
      = ⟨float.nan, float.nan, float.nan⟩ := by
  have hneg : -(⟨float.nan, float.nan, float.nan⟩ : vec3)
      = ⟨float.nan, float.nan, float.nan⟩ := rfl
  have hg : lt (-(ofDecimal 5 1)) (-1 : float) = false := by decide!
  rw [intensitySingleScattering_of_not_ground gl p0 _ l il
    (by rw [hneg, forwardRaySphere_nan_direction]; exact hg)]
  have hdot : dot ⟨float.nan, float.nan, float.nan⟩ l = float.nan := by
    unfold dot
    simp only [nan_mul, nan_add]
  rw [if_neg (by rw [hdot, lt_nan]; exact Bool.false_ne_true)]
  unfold rayleighMieSum atmosphereExit
  dsimp only
  rw [hneg, forwardRaySphere_nan_direction]
  generalize hT : scatteringLoop gl p0 l _ INTEGRATION_STEPS _ ⟨0, 0, 0⟩ ⟨0, 0, 0⟩ = T
  have hpb : p0 + (-1 : float) * (⟨float.nan, float.nan, float.nan⟩ : vec3)
      = ⟨float.nan, float.nan, float.nan⟩ := by
    show (⟨p0.x + (-1 : float) * float.nan, p0.y + (-1 : float) * float.nan,
      p0.z + (-1 : float) * float.nan⟩ : vec3) = _
    simp only [mul_nan, add_nan]
  rw [hpb]
  have hL : length ((⟨float.nan, float.nan, float.nan⟩ : vec3) - p0) = float.nan := by
    unfold length dot
    show sqrt ((float.nan - p0.x) * (float.nan - p0.x) + (float.nan - p0.y) * (float.nan - p0.y)
      + (float.nan - p0.z) * (float.nan - p0.z)) = _
    simp only [nan_sub, nan_mul, nan_add, sqrt_nan]
  rw [hL]
  simp only [nan_div, nan_mul, nan_smul_vec3, vec3_mul_nan, nan_vec3_mul_float, nan_vec3_mul,
    nan_vec3_add]

theorem le_self_of_le_left (a b : float) (h : le a b = true) : le b b = true := by
  cases b with
  | nan => cases a <;> simp [le] at h
  | inf s => cases s <;> rfl
  | fin s m e => rw [le_fin_iff]

/-- For an `exp` with values in `[0, 1]` at the arguments up to zero, the tone map sends every
value from zero up, plus infinity included, into `[0, 1]`. -/
theorem toneMap_range (gl : Builtins)
    (hunit : ∀ a : float, le a 0 = true → le 0 (gl.exp a) = true ∧ le (gl.exp a) 1 = true)
    (c : float) (h : le 0 c = true) :
    le 0 (toneMap gl c) = true ∧ le (toneMap gl c) 1 = true := by
  have harg : le (-(ofDecimal 2 2) * c) 0 = true := by
    cases c with
    | nan => exact absurd h (by decide)
    | inf s =>
      cases s
      · decide!
      · exact absurd h (by decide)
    | fin s m e =>
      exact (toneMap_argument_antitone (float.fin s m e) (float.fin s m e) h
        (by rw [le_fin_iff]) rfl).2
  obtain ⟨h0, h1⟩ := hunit _ harg
  unfold toneMap
  exact (one_sub_antitone _ _ h0 (le_self_of_le_left _ _ h0) h1).2

/-! ## Binary32 layer: the square root -/

theorem isqrtAux_spec (n : Nat) : ∀ (b acc : Nat), acc * acc ≤ n →
    n < (acc + 2 ^ b) * (acc + 2 ^ b) →
    isqrtAux n b acc * isqrtAux n b acc ≤ n ∧
      n < (isqrtAux n b acc + 1) * (isqrtAux n b acc + 1) := by
  intro b
  induction b with
  | zero =>
    intro acc h1 h2
    simpa [isqrtAux] using ⟨h1, h2⟩
  | succ b ih =>
    intro acc h1 h2
    unfold isqrtAux
    by_cases h : (acc + 2 ^ b) * (acc + 2 ^ b) ≤ n
    · rw [if_pos h]
      apply ih _ h
      have e : acc + 2 ^ b + 2 ^ b = acc + 2 ^ (b + 1) := by rw [pow_succ]; omega
      rw [e]
      exact h2
    · rw [if_neg h]
      exact ih _ h1 (not_le.1 h)

theorem isqrt_spec (n : Nat) : isqrt n * isqrt n ≤ n ∧ n < (isqrt n + 1) * (isqrt n + 1) := by
  unfold isqrt
  apply isqrtAux_spec n _ 0 (by simp)
  have h1 := lt_two_pow_bitLength n
  have h2 : 2 ^ bitLength n ≤ 2 ^ (bitLength n / 2 + 1) * 2 ^ (bitLength n / 2 + 1) := by
    rw [← pow_add]
    exact Nat.pow_le_pow_right (by norm_num) (by omega)
  simp only [zero_add]
  omega

theorem sqrt_fin (m : Nat) (e : Int) (hm : m ≠ 0) :
    sqrt (float.fin false m e)
      = round false (isqrt ((if e % 2 = 0 then m else 2 * m) * 2 ^ 52))
          (((if e % 2 = 0 then e else e - 1) - 52) / 2)
          (decide (isqrt ((if e % 2 = 0 then m else 2 * m) * 2 ^ 52)
              * isqrt ((if e % 2 = 0 then m else 2 * m) * 2 ^ 52)
            ≠ (if e % 2 = 0 then m else 2 * m) * 2 ^ 52)) := by
  unfold sqrt
  dsimp only
  rw [if_neg hm]
  simp only [Bool.false_eq_true, if_false]

/-- The square root of a positive finite float is a rounding of the square root of its
value. -/
theorem sqrt_rounds (m : Nat) (e : Int) (hm : 0 < m) :
    Rounds (Real.sqrt (toReal (float.fin false m e))) (sqrt (float.fin false m e)) := by
  rw [sqrt_fin m e (by omega)]
  generalize hm2 : (if e % 2 = 0 then m else 2 * m) = m2
  generalize he2 : (if e % 2 = 0 then e else e - 1) = e2
  have hm2pos : 0 < m2 := by
    rw [← hm2]
    split <;> omega
  have hval : toReal (float.fin false m e) = (m2 : ℝ) * 2 ^ e2 := by
    rw [toReal_fin, ← hm2, ← he2]
    simp only [Bool.false_eq_true, if_false, one_mul]
    by_cases h : e % 2 = 0
    · rw [if_pos h, if_pos h]
    · rw [if_neg h, if_neg h]
      have : (2 : ℝ) ^ e = 2 * 2 ^ (e - 1) := by
        rw [show e = 1 + (e - 1) by omega, two_zpow_add]
        norm_num
      rw [this]
      push_cast
      ring
  have heven : e2 % 2 = 0 := by
    rw [← he2]
    split <;> omega
  obtain ⟨k, hk⟩ : ∃ k : Int, e2 - 52 = 2 * k := ⟨(e2 - 52) / 2, by omega⟩
  have hk' : (e2 - 52) / 2 = k := by omega
  rw [hk']
  obtain ⟨hr1, hr2⟩ := isqrt_spec (m2 * 2 ^ 52)
  generalize isqrt (m2 * 2 ^ 52) = r at hr1 hr2
  have hN : (2 : Nat) ^ 52 ≤ m2 * 2 ^ 52 := Nat.le_mul_of_pos_left _ hm2pos
  have hr26 : 2 ^ 26 ≤ r := by
    by_contra hcon
    have hlt : r + 1 ≤ 2 ^ 26 := by omega
    have : (r + 1) * (r + 1) ≤ 2 ^ 26 * 2 ^ 26 := Nat.mul_le_mul hlt hlt
    norm_num at this hN
    omega
  have hNR : ((m2 * 2 ^ 52 : Nat) : ℝ) = (m2 : ℝ) * 2 ^ (52 : Nat) := by push_cast; ring
  have hsq : Real.sqrt (toReal (float.fin false m e))
      = Real.sqrt ((m2 * 2 ^ 52 : Nat) : ℝ) * 2 ^ k := by
    rw [hval, hNR]
    have e2eq : (2 : ℝ) ^ e2 = 2 ^ (52 : Nat) * (2 ^ k * 2 ^ k) := by
      rw [← two_zpow_add, ← two_zpow_natCast, ← two_zpow_add]
      congr 1
      push_cast
      omega
    rw [e2eq, ← mul_assoc, Real.sqrt_mul (by positivity),
      Real.sqrt_mul_self (le_of_lt (two_zpow_pos k))]
  have hw1 : (r : ℝ) ≤ Real.sqrt ((m2 * 2 ^ 52 : Nat) : ℝ) := by
    apply Real.le_sqrt_of_sq_le
    rw [sq]
    exact_mod_cast hr1
  have hw2 : Real.sqrt ((m2 * 2 ^ 52 : Nat) : ℝ) < r + 1 := by
    rw [Real.sqrt_lt' (by positivity), sq]
    exact_mod_cast hr2
  right
  refine ⟨false, r, k, decide (r * r ≠ m2 * 2 ^ 52), Real.sqrt ((m2 * 2 ^ 52 : Nat) : ℝ),
    lt_of_lt_of_le (by positivity) hr26, ?_, ?_, rfl⟩
  · by_cases hrr : r * r = m2 * 2 ^ 52
    · left
      refine ⟨decide_eq_false (not_not.2 hrr), ?_⟩
      rw [← hrr]
      push_cast
      exact Real.sqrt_mul_self (Nat.cast_nonneg r)
    · right
      refine ⟨decide_eq_true hrr, ?_, hw2, le_trans (by norm_num) hr26⟩
      apply lt_of_le_of_ne hw1
      intro heq
      apply hrr
      have h2 : (r : ℝ) * r = ((m2 * 2 ^ 52 : Nat) : ℝ) := by
        rw [heq]
        exact Real.mul_self_sqrt (Nat.cast_nonneg _)
      exact_mod_cast h2
  · rw [hsq]
    simp

/-! ## Binary32 layer: the operations are monotone -/

theorem isFinite_of_le_of_le (lo a hi : float) (hlo : lo.isFinite = true)
    (hhi : hi.isFinite = true) (h1 : le lo a = true) (h2 : le a hi = true) :
    a.isFinite = true := by
  obtain ⟨s1, m1, e1, rfl⟩ := exists_fin_of_isFinite lo hlo
  obtain ⟨s2, m2, e2, rfl⟩ := exists_fin_of_isFinite hi hhi
  obtain ⟨s, m, e, rfl⟩ := exists_fin_of_le_of_le a s1 m1 e1 s2 m2 e2 h1 h2
  rfl

theorem le_iff_toReal (a b : float) (ha : a.isFinite = true) (hb : b.isFinite = true) :
    le a b = true ↔ toReal a ≤ toReal b := by
  obtain ⟨s1, m1, e1, rfl⟩ := exists_fin_of_isFinite a ha
  obtain ⟨s2, m2, e2, rfl⟩ := exists_fin_of_isFinite b hb
  exact le_fin_iff _ _ _ _ _ _

theorem lt_iff_toReal (a b : float) (ha : a.isFinite = true) (hb : b.isFinite = true) :
    lt a b = true ↔ toReal a < toReal b := by
  obtain ⟨s1, m1, e1, rfl⟩ := exists_fin_of_isFinite a ha
  obtain ⟨s2, m2, e2, rfl⟩ := exists_fin_of_isFinite b hb
  exact lt_fin_iff _ _ _ _ _ _

theorem isFinite_zero : (0 : float).isFinite = true := by decide

theorem isFinite_one : (1 : float).isFinite = true := by decide

theorem toReal_zero_float : toReal (0 : float) = 0 := by
  rw [zero_eq, toReal_zero]

theorem mul_rounds_of_isFinite (a b : float) (ha : a.isFinite = true)
    (hb : b.isFinite = true) : Rounds (toReal a * toReal b) (a * b) := by
  obtain ⟨s1, m1, e1, rfl⟩ := exists_fin_of_isFinite a ha
  obtain ⟨s2, m2, e2, rfl⟩ := exists_fin_of_isFinite b hb
  exact mul_rounds _ _ _ _ _ _

theorem add_rounds_of_isFinite (a b : float) (ha : a.isFinite = true)
    (hb : b.isFinite = true) : Rounds (toReal a + toReal b) (a + b) := by
  obtain ⟨s1, m1, e1, rfl⟩ := exists_fin_of_isFinite a ha
  obtain ⟨s2, m2, e2, rfl⟩ := exists_fin_of_isFinite b hb
  exact add_rounds _ _ _ _ _ _

theorem sub_rounds_of_isFinite (a b : float) (ha : a.isFinite = true)
    (hb : b.isFinite = true) : Rounds (toReal a - toReal b) (a - b) := by
  obtain ⟨s1, m1, e1, rfl⟩ := exists_fin_of_isFinite a ha
  obtain ⟨s2, m2, e2, rfl⟩ := exists_fin_of_isFinite b hb
  exact sub_rounds _ _ _ _ _ _

theorem div_rounds_of_isFinite (a b : float) (ha : a.isFinite = true)
    (hb : b.isFinite = true) (hb0 : toReal b ≠ 0) : Rounds (toReal a / toReal b) (a / b) := by
  obtain ⟨s1, m1, e1, rfl⟩ := exists_fin_of_isFinite a ha
  obtain ⟨s2, m2, e2, rfl⟩ := exists_fin_of_isFinite b hb
  apply div_rounds
  rcases Nat.eq_zero_or_pos m2 with h | h
  · subst h
    exact absurd (toReal_zero s2 e2) hb0
  · exact h

theorem sqrt_rounds_of_nonneg (a : float) (ha : a.isFinite = true) (h0 : le 0 a = true) :
    Rounds (Real.sqrt (toReal a)) (sqrt a) := by
  rw [le_iff_toReal 0 a isFinite_zero ha, toReal_zero_float] at h0
  obtain ⟨s, m, e, rfl⟩ := exists_fin_of_isFinite a ha
  rcases Nat.eq_zero_or_pos m with h | h
  · subst h
    rw [toReal_zero, Real.sqrt_zero]
    have : sqrt (float.fin s 0 e) = zero s := by simp [sqrt]
    rw [this]
    exact Rounds_zero _ _
  · have hs : s = false := by
      cases s
      · rfl
      · exfalso
        rw [toReal_fin] at h0
        have hmR : (0 : ℝ) < m := by exact_mod_cast h
        have := mul_pos hmR (two_zpow_pos e)
        simp only [if_true] at h0
        linarith
    subst hs
    exact sqrt_rounds m e h

/-- Products of non-negative floats are monotone in both factors. -/
theorem mul_mono (a b c d : float) (ha0 : le 0 a = true) (hac : le a c = true)
    (hb0 : le 0 b = true) (hbd : le b d = true) (hc : c.isFinite = true)
    (hd : d.isFinite = true) : le (a * b) (c * d) = true := by
  have ha := isFinite_of_le_of_le 0 a c isFinite_zero hc ha0 hac
  have hb := isFinite_of_le_of_le 0 b d isFinite_zero hd hb0 hbd
  rw [le_iff_toReal _ _ isFinite_zero ha, toReal_zero_float] at ha0
  rw [le_iff_toReal _ _ isFinite_zero hb, toReal_zero_float] at hb0
  rw [le_iff_toReal _ _ ha hc] at hac
  rw [le_iff_toReal _ _ hb hd] at hbd
  exact Rounds_mono _ _ _ _ (mul_rounds_of_isFinite a b ha hb)
    (mul_rounds_of_isFinite c d hc hd)
    (mul_le_mul hac hbd hb0 (le_trans ha0 hac))

/-- A product with a non-positive left factor is antitone in the right factor. -/
theorem mul_antitone_of_nonpos (k u v : float) (hk : le k 0 = true) (hkf : k.isFinite = true)
    (hu : u.isFinite = true) (hv : v.isFinite = true) (h : le u v = true) :
    le (k * v) (k * u) = true := by
  rw [le_iff_toReal _ _ hkf isFinite_zero, toReal_zero_float] at hk
  rw [le_iff_toReal _ _ hu hv] at h
  exact Rounds_mono _ _ _ _ (mul_rounds_of_isFinite k v hkf hv)
    (mul_rounds_of_isFinite k u hkf hu) (mul_le_mul_of_nonpos_left h hk)

theorem add_mono_right (k u v : float) (hkf : k.isFinite = true)
    (hu : u.isFinite = true) (hv : v.isFinite = true) (h : le u v = true) :
    le (k + u) (k + v) = true := by
  rw [le_iff_toReal _ _ hu hv] at h
  exact Rounds_mono _ _ _ _ (add_rounds_of_isFinite k u hkf hu)
    (add_rounds_of_isFinite k v hkf hv) (by linarith)

theorem sub_antitone_right (k u v : float) (hkf : k.isFinite = true)
    (hu : u.isFinite = true) (hv : v.isFinite = true) (h : le u v = true) :
    le (k - v) (k - u) = true := by
  rw [le_iff_toReal _ _ hu hv] at h
  exact Rounds_mono _ _ _ _ (sub_rounds_of_isFinite k v hkf hv)
    (sub_rounds_of_isFinite k u hkf hu) (by linarith)

theorem sqrt_mono (x y : float) (h0 : le 0 x = true) (hxy : le x y = true)
    (hy : y.isFinite = true) : le (sqrt x) (sqrt y) = true := by
  have hx := isFinite_of_le_of_le 0 x y isFinite_zero hy h0 hxy
  have h0y : le 0 y = true := by
    rw [le_iff_toReal _ _ isFinite_zero hy]
    rw [le_iff_toReal _ _ isFinite_zero hx] at h0
    rw [le_iff_toReal _ _ hx hy] at hxy
    exact le_trans h0 hxy
  rw [le_iff_toReal _ _ hx hy] at hxy
  exact Rounds_mono _ _ _ _ (sqrt_rounds_of_nonneg x hx h0) (sqrt_rounds_of_nonneg y hy h0y)
    (Real.sqrt_le_sqrt hxy)

/-- A quotient is at least the quotient of a lower bound of the numerator by an upper bound
of the positive denominator. -/
theorem div_lower (nlo n d dhi : float) (h0 : le 0 nlo = true) (hn : le nlo n = true)
    (hnf : n.isFinite = true) (hd0 : lt 0 d = true) (hd : le d dhi = true)
    (hdhi : dhi.isFinite = true) : le (nlo / dhi) (n / d) = true := by
  have hnlo := isFinite_of_le_of_le 0 nlo n isFinite_zero hnf h0 hn
  have hdf : d.isFinite = true := by
    cases d with
    | nan => simp [le] at hd
    | inf s =>
      obtain ⟨s2, m2, e2, rfl⟩ := exists_fin_of_isFinite dhi hdhi
      cases s
      · simp [le, lt] at hd
      · rw [zero_eq] at hd0
        simp [lt] at hd0
    | fin s m e => rfl
  rw [le_iff_toReal _ _ isFinite_zero hnlo, toReal_zero_float] at h0
  rw [le_iff_toReal _ _ hnlo hnf] at hn
  rw [lt_iff_toReal _ _ isFinite_zero hdf, toReal_zero_float] at hd0
  rw [le_iff_toReal _ _ hdf hdhi] at hd
  exact Rounds_mono _ _ _ _
    (div_rounds_of_isFinite nlo dhi hnlo hdhi (ne_of_gt (lt_of_lt_of_le hd0 hd)))
    (div_rounds_of_isFinite n d hnf hdf (ne_of_gt hd0))
    (div_le_div₀ (le_trans h0 hn) hn hd0 hd)

theorem zero_lt_of_lt_of_le (b c : float) (hb : lt 0 b = true) (hbc : le b c = true) :
    lt 0 c = true := by
  rw [zero_eq] at hb ⊢
  cases b with
  | nan => simp [lt] at hb
  | inf s2 =>
    cases s2
    · cases c with
      | nan => simp [le] at hbc
      | inf s => cases s <;> simp [le, lt] at hbc ⊢
      | fin s m e => simp [le, lt] at hbc
    · simp [lt] at hb
  | fin s2 m2 e2 =>
    cases c with
    | nan => simp [le] at hbc
    | inf s => cases s <;> simp [le, lt] at hbc ⊢
    | fin s m e =>
      rw [lt_fin_iff] at hb ⊢
      rw [le_fin_iff] at hbc
      exact lt_of_lt_of_le hb hbc

theorem le_of_lt_zero (b : float) (hb : lt 0 b = true) : le 0 b = true := by
  rw [zero_eq] at hb ⊢
  cases b with
  | nan => simp [lt] at hb
  | inf s =>
    cases s
    · rfl
    · simp [lt] at hb
  | fin s m e =>
    rw [lt_fin_iff] at hb
    rw [le_fin_iff]
    exact le_of_lt hb

/-- The square of a float between `-1` and `1` lies between `0` and `1`. -/
theorem mul_self_bounds (c : float) (h1 : le (-1) c = true) (h2 : le c 1 = true) :
    le 0 (c * c) = true ∧ le (c * c) 1 = true := by
  have hm1 : (-1 : float).isFinite = true := by decide
  have hc := isFinite_of_le_of_le (-1) c 1 hm1 isFinite_one h1 h2
  rw [le_iff_toReal _ _ hm1 hc] at h1
  rw [le_iff_toReal _ _ hc isFinite_one, one_eq, toReal_one] at h2
  have hneg : toReal (-1 : float) = -1 := by
    have : (-1 : float) = float.fin true 8388608 (-23) := by decide
    rw [this, toReal_fin]
    norm_num
  rw [hneg] at h1
  have hr := mul_rounds_of_isFinite c c hc hc
  constructor
  · rw [zero_eq]
    exact Rounds_mono _ _ _ _ (Rounds_zero false (-149)) hr (mul_self_nonneg _)
  · exact Rounds_mono _ _ _ _ hr Rounds_one (by nlinarith)

/-! ## Binary32 layer: bounds of `phaseHenyeyGreenstein` -/

theorem le_trans_float (a b c : float) (hab : le a b = true) (hbc : le b c = true) :
    le a c = true := by
  cases a with
  | nan => simp [le] at hab
  | inf s1 =>
    cases b with
    | nan => cases s1 <;> simp [le] at hab
    | inf s2 =>
      cases c with
      | nan => cases s2 <;> simp [le] at hbc
      | inf s3 => cases s1 <;> cases s2 <;> cases s3 <;> simp_all [le, lt]
      | fin s3 m3 e3 => cases s1 <;> cases s2 <;> simp_all [le, lt]
    | fin s2 m2 e2 =>
      cases c with
      | nan => simp [le] at hbc
      | inf s3 => cases s1 <;> cases s3 <;> simp_all [le, lt]
      | fin s3 m3 e3 => cases s1 <;> simp_all [le, lt]
  | fin s1 m1 e1 =>
    cases b with
    | nan => simp [le] at hab
    | inf s2 =>
      cases c with
      | nan => cases s2 <;> simp [le] at hbc
      | inf s3 => cases s2 <;> cases s3 <;> simp_all [le, lt]
      | fin s3 m3 e3 => cases s2 <;> simp_all [le, lt]
    | fin s2 m2 e2 =>
      cases c with
      | nan => simp [le] at hbc
      | inf s3 =>
        cases s3
        · rfl
        · simp [le, lt] at hbc
      | fin s3 m3 e3 =>
        rw [le_fin_iff] at hab hbc ⊢
        exact le_trans hab hbc

theorem isFinite_of_lt_of_le (a hi : float) (h0 : lt 0 a = true) (h : le a hi = true)
    (hhi : hi.isFinite = true) : a.isFinite = true :=
  isFinite_of_le_of_le 0 a hi isFinite_zero hhi (le_of_lt_zero a h0) h

theorem one_add_zero : (1 : float) + 0 = 1 := by decide!

/-- The chain of bounds behind the positivity of `phaseHenyeyGreenstein` for a non-positive
`g`: the closed hypotheses are the values the formula takes at the ends `cosTheta = -1` and
`cosTheta = 1`. -/
theorem phaseHenyeyGreensteinOfCos_bounds (g c : float)
    (h1 : le (-1) c = true) (h2 : le c 1 = true)
    (hG0 : le (2 * g) 0 = true) (hGf : (2 * g).isFinite = true)
    (hKf : (1 + g * g).isFinite = true)
    (hGlo : (2 * g * 1).isFinite = true) (hGhi : (2 * g * (-1)).isFinite = true)
    (hbmin : lt 0 (1 + g * g - 2 * g * (-1)) = true)
    (hbmax : (1 + g * g - 2 * g * 1).isFinite = true)
    (hbb : ((1 + g * g - 2 * g * 1) * (1 + g * g - 2 * g * 1)).isFinite = true)
    (hbbb : ((1 + g * g - 2 * g * 1) * (1 + g * g - 2 * g * 1)
      * (1 + g * g - 2 * g * 1)).isFinite = true)
    (hclo : lt 0 ((1 + g * g - 2 * g * (-1)) * (1 + g * g - 2 * g * (-1))
      * (1 + g * g - 2 * g * (-1))) = true)
    (hslo : lt 0 (sqrt ((1 + g * g - 2 * g * (-1)) * (1 + g * g - 2 * g * (-1))
      * (1 + g * g - 2 * g * (-1)))) = true)
    (hshi : (sqrt ((1 + g * g - 2 * g * 1) * (1 + g * g - 2 * g * 1)
      * (1 + g * g - 2 * g * 1))).isFinite = true)
    (hB0 : lt 0 (2 * (2 + g * g)) = true) (hBf : (2 * (2 + g * g)).isFinite = true)
    (hdlo : lt 0 (2 * (2 + g * g) * sqrt ((1 + g * g - 2 * g * (-1))
      * (1 + g * g - 2 * g * (-1)) * (1 + g * g - 2 * g * (-1)))) = true)
    (hdhi : (2 * (2 + g * g) * sqrt ((1 + g * g - 2 * g * 1) * (1 + g * g - 2 * g * 1)
      * (1 + g * g - 2 * g * 1))).isFinite = true)
    (hA0 : lt 0 (3 / (8 * PI) * 3 * (1 - g * g)) = true)
    (hAf : (3 / (8 * PI) * 3 * (1 - g * g)).isFinite = true)
    (hNhi : (3 / (8 * PI) * 3 * (1 - g * g) * (1 + 1)).isFinite = true)
    (hq : lt 0 (3 / (8 * PI) * 3 * (1 - g * g) * 1
      / (2 * (2 + g * g) * sqrt ((1 + g * g - 2 * g * 1) * (1 + g * g - 2 * g * 1)
        * (1 + g * g - 2 * g * 1)))) = true) :
    le (1 + g * g - 2 * g * (-1)) (1 + g * g - 2 * g * c) = true ∧
    le (1 + g * g - 2 * g * c) (1 + g * g - 2 * g * 1) = true ∧
    lt 0 (1 + g * g - 2 * g * c) = true ∧
    lt 0 ((1 + g * g - 2 * g * c) * (1 + g * g - 2 * g * c) * (1 + g * g - 2 * g * c)) = true ∧
    lt 0 (sqrt ((1 + g * g - 2 * g * c) * (1 + g * g - 2 * g * c)
      * (1 + g * g - 2 * g * c))) = true ∧
    lt 0 (2 * (2 + g * g) * sqrt ((1 + g * g - 2 * g * c) * (1 + g * g - 2 * g * c)
      * (1 + g * g - 2 * g * c))) = true ∧
    lt 0 (phaseHenyeyGreensteinOfCos c g) = true := by
  have hdef : phaseHenyeyGreensteinOfCos c g = 3 / (8 * PI) * 3 * (1 - g * g) * (1 + c * c)
      / (2 * (2 + g * g) * sqrt ((1 + g * g - 2 * g * c) * (1 + g * g - 2 * g * c)
        * (1 + g * g - 2 * g * c))) := rfl
  rw [hdef]
  have hm1 : (-1 : float).isFinite = true := by decide
  have hc := isFinite_of_le_of_le (-1) c 1 hm1 isFinite_one h1 h2
  -- the product `2 g cosTheta`
  have ht1 : le (2 * g * 1) (2 * g * c) = true :=
    mul_antitone_of_nonpos (2 * g) c 1 hG0 hGf hc isFinite_one h2
  have ht2 : le (2 * g * c) (2 * g * (-1)) = true :=
    mul_antitone_of_nonpos (2 * g) (-1) c hG0 hGf hm1 hc h1
  have htf := isFinite_of_le_of_le _ _ _ hGlo hGhi ht1 ht2
  -- the base
  have hb1 : le (1 + g * g - 2 * g * (-1)) (1 + g * g - 2 * g * c) = true :=
    sub_antitone_right _ _ _ hKf htf hGhi ht2
  have hb2 : le (1 + g * g - 2 * g * c) (1 + g * g - 2 * g * 1) = true :=
    sub_antitone_right _ _ _ hKf hGlo htf ht1
  have hb0 := zero_lt_of_lt_of_le _ _ hbmin hb1
  have hbf := isFinite_of_lt_of_le _ _ hb0 hb2 hbmax
  have hbminf := isFinite_of_lt_of_le _ _ hbmin hb1 hbf
  have hbmin0 := le_of_lt_zero _ hbmin
  have hb00 := le_of_lt_zero _ hb0
  generalize 1 + g * g - 2 * g * c = b at *
  generalize 1 + g * g - 2 * g * (-1) = bmin at *
  generalize 1 + g * g - 2 * g * 1 = bmax at *
  -- the cube
  have hsq1 : le (bmin * bmin) (b * b) = true := mul_mono _ _ _ _ hbmin0 hb1 hbmin0 hb1 hbf hbf
  have hsq2 : le (b * b) (bmax * bmax) = true := mul_mono _ _ _ _ hb00 hb2 hb00 hb2 hbmax hbmax
  have hsq0 : le 0 (bmin * bmin) = true := by
    have := mul_mono 0 0 bmin bmin (by decide) hbmin0 (by decide) hbmin0 hbminf hbminf
    rwa [show (0 : float) * 0 = 0 by decide] at this
  have hsqb0 := le_trans_float _ _ _ hsq0 hsq1
  have hsqf := isFinite_of_le_of_le _ _ _ isFinite_zero hbb hsqb0 hsq2
  have hc1 : le (bmin * bmin * bmin) (b * b * b) = true :=
    mul_mono _ _ _ _ hsq0 hsq1 hbmin0 hb1 hsqf hbf
  have hc2 : le (b * b * b) (bmax * bmax * bmax) = true :=
    mul_mono _ _ _ _ hsqb0 hsq2 hb00 hb2 hbb hbmax
  have hc0 := zero_lt_of_lt_of_le _ _ hclo hc1
  have hcf := isFinite_of_lt_of_le _ _ hc0 hc2 hbbb
  generalize b * b * b = cube at *
  generalize bmin * bmin * bmin = clo at *
  generalize bmax * bmax * bmax = chi at *
  -- the square root
  have hs1 : le (sqrt clo) (sqrt cube) = true := sqrt_mono _ _ (le_of_lt_zero _ hclo) hc1 hcf
  have hs2 : le (sqrt cube) (sqrt chi) = true := sqrt_mono _ _ (le_of_lt_zero _ hc0) hc2 hbbb
  have hs0 := zero_lt_of_lt_of_le _ _ hslo hs1
  have hsf := isFinite_of_lt_of_le _ _ hs0 hs2 hshi
  generalize sqrt cube = s at *
  generalize sqrt clo = slo at *
  generalize sqrt chi = shi at *
  -- the denominator
  have hB00 := le_of_lt_zero _ hB0
  have hBB := le_self_of_le_left _ _ hB00
  have hd1 : le (2 * (2 + g * g) * slo) (2 * (2 + g * g) * s) = true :=
    mul_mono _ _ _ _ hB00 hBB (le_of_lt_zero _ hslo) hs1 hBf hsf
  have hd2 : le (2 * (2 + g * g) * s) (2 * (2 + g * g) * shi) = true :=
    mul_mono _ _ _ _ hB00 hBB (le_of_lt_zero _ hs0) hs2 hBf hshi
  have hd0 := zero_lt_of_lt_of_le _ _ hdlo hd1
  -- the numerator
  obtain ⟨hcc0, hcc1⟩ := mul_self_bounds c h1 h2
  have hccf := isFinite_of_le_of_le _ _ _ isFinite_zero isFinite_one hcc0 hcc1
  have hn1 : le ((1 : float) + 0) (1 + c * c) = true :=
    add_mono_right 1 0 (c * c) isFinite_one isFinite_zero hccf hcc0
  have hn2 : le (1 + c * c) ((1 : float) + 1) = true :=
    add_mono_right 1 (c * c) 1 isFinite_one hccf isFinite_one hcc1
  rw [one_add_zero] at hn1
  have hnf := isFinite_of_le_of_le _ _ _ isFinite_one (by decide) hn1 hn2
  have hA00 := le_of_lt_zero _ hA0
  have hAA := le_self_of_le_left _ _ hA00
  have h01 : le (0 : float) 1 = true := by decide
  have hN1 : le (3 / (8 * PI) * 3 * (1 - g * g) * 1)
      (3 / (8 * PI) * 3 * (1 - g * g) * (1 + c * c)) = true :=
    mul_mono _ _ _ _ hA00 hAA h01 hn1 hAf hnf
  have hN2 : le (3 / (8 * PI) * 3 * (1 - g * g) * (1 + c * c))
      (3 / (8 * PI) * 3 * (1 - g * g) * (1 + 1)) = true :=
    mul_mono _ _ _ _ hA00 hAA (le_trans_float _ _ _ h01 hn1) hn2 hAf (by decide)
  have hN0 : le 0 (3 / (8 * PI) * 3 * (1 - g * g) * 1) = true := by
    have := mul_mono 0 0 _ 1 (by decide) hA00 (by decide) h01 hAf isFinite_one
    rwa [show (0 : float) * 0 = 0 by decide] at this
  have hNf := isFinite_of_le_of_le _ _ _ isFinite_zero hNhi (le_trans_float _ _ _ hN0 hN1) hN2
  have hfinal := div_lower _ _ _ _ hN0 hN1 hNf hd0 hd2 hdhi
  refine ⟨hb1, hb2, hb0, hc0, hs0, hd0, ?_⟩
  exact zero_lt_of_lt_of_le _ _ hq hfinal

/-- The bounds of `phaseHenyeyGreensteinOfCos_bounds` at `g = -0.8f`. -/
theorem phaseHenyeyGreensteinOfCos_bounds_as_used (c : float) (h1 : le (-1) c = true)
    (h2 : le c 1 = true) :
    le (1 + -(ofDecimal 8 1) * -(ofDecimal 8 1) - 2 * -(ofDecimal 8 1) * (-1))
      (1 + -(ofDecimal 8 1) * -(ofDecimal 8 1) - 2 * -(ofDecimal 8 1) * c) = true ∧
    le (1 + -(ofDecimal 8 1) * -(ofDecimal 8 1) - 2 * -(ofDecimal 8 1) * c)
      (1 + -(ofDecimal 8 1) * -(ofDecimal 8 1) - 2 * -(ofDecimal 8 1) * 1) = true ∧
    lt 0 (1 + -(ofDecimal 8 1) * -(ofDecimal 8 1) - 2 * -(ofDecimal 8 1) * c) = true ∧
    lt 0 ((1 + -(ofDecimal 8 1) * -(ofDecimal 8 1) - 2 * -(ofDecimal 8 1) * c)
      * (1 + -(ofDecimal 8 1) * -(ofDecimal 8 1) - 2 * -(ofDecimal 8 1) * c)
      * (1 + -(ofDecimal 8 1) * -(ofDecimal 8 1) - 2 * -(ofDecimal 8 1) * c)) = true ∧
    lt 0 (sqrt ((1 + -(ofDecimal 8 1) * -(ofDecimal 8 1) - 2 * -(ofDecimal 8 1) * c)
      * (1 + -(ofDecimal 8 1) * -(ofDecimal 8 1) - 2 * -(ofDecimal 8 1) * c)
      * (1 + -(ofDecimal 8 1) * -(ofDecimal 8 1) - 2 * -(ofDecimal 8 1) * c))) = true ∧
    lt 0 (2 * (2 + -(ofDecimal 8 1) * -(ofDecimal 8 1))
      * sqrt ((1 + -(ofDecimal 8 1) * -(ofDecimal 8 1) - 2 * -(ofDecimal 8 1) * c)
        * (1 + -(ofDecimal 8 1) * -(ofDecimal 8 1) - 2 * -(ofDecimal 8 1) * c)
        * (1 + -(ofDecimal 8 1) * -(ofDecimal 8 1) - 2 * -(ofDecimal 8 1) * c))) = true ∧
    lt 0 (phaseHenyeyGreensteinOfCos c (-(ofDecimal 8 1))) = true :=
  phaseHenyeyGreensteinOfCos_bounds (-(ofDecimal 8 1)) c h1 h2 (by decide!) (by decide!)
    (by decide!) (by decide!) (by decide!) (by decide!) (by decide!) (by decide!) (by decide!)
    (by decide!) (by decide!) (by decide!) (by decide!) (by decide!) (by decide!) (by decide!)
    (by decide!) (by decide!) (by decide!) (by decide!)

theorem secondDenom_min_as_used :
    (1 : float) + -(ofDecimal 8 1) * -(ofDecimal 8 1) - 2 * -(ofDecimal 8 1) * (-1)
      = float.fin false 10737440 (-28) := by decide!

theorem secondDenom_max_as_used :
    ((1 : float) + -(ofDecimal 8 1) * -(ofDecimal 8 1) - 2 * -(ofDecimal 8 1) * 1).isFinite
      = true := by decide!

/-! ## Binary32 layer: sign and size of the direct-sun term -/

theorem not_lt_zero_densityOzone (gl : Builtins)
    (hexp : ∀ a : float, lt (gl.exp a) 0 = false) (h : float) :
    lt (densityOzone gl h) 0 = false :=
  not_lt_zero_mul _ _ (by decide!) (not_lt_zero_densityRayleigh gl hexp h)

theorem not_lt_zero_transmittanceLoop (gl : Builtins)
    (hexp : ∀ a : float, lt (gl.exp a) 0 = false) (step : vec3) :
    ∀ (n : Nat) (p : vec3) (a b c x y z : float), lt a 0 = false → lt b 0 = false →
      lt c 0 = false → transmittanceLoop gl step n p a b c = some (x, y, z) →
      lt x 0 = false ∧ lt y 0 = false ∧ lt z 0 = false := by
  intro n
  induction n with
  | zero =>
    intro p a b c x y z ha hb hc h
    simp only [transmittanceLoop, Option.some.injEq, Prod.mk.injEq] at h
    obtain ⟨rfl, rfl, rfl⟩ := h
    exact ⟨ha, hb, hc⟩
  | succ n ih =>
    intro p a b c x y z ha hb hc h
    unfold transmittanceLoop at h
    dsimp only at h
    by_cases hh : lt (height p) 0 = true
    · rw [if_pos hh] at h
      exact absurd h (by simp)
    · rw [if_neg hh] at h
      exact ih _ _ _ _ _ _ _ (not_lt_zero_add _ _ ha (not_lt_zero_densityRayleigh gl hexp _))
        (not_lt_zero_add _ _ hb (not_lt_zero_densityMie gl hexp _))
        (not_lt_zero_add _ _ hc (not_lt_zero_densityOzone gl hexp _)) h

/-- For every `exp` that is never below zero, no channel of `transmittanceBetween` compares
below zero. -/
theorem neverNegative_transmittanceBetween (gl : Builtins)
    (hexp : ∀ a : float, lt (gl.exp a) 0 = false) (pa pb : vec3) :
    (transmittanceBetween gl pa pb).neverNegative = true := by
  unfold transmittanceBetween
  dsimp only
  split
  · decide
  · have hds : lt (distance pa pb / ofNat INTEGRATION_STEPS * 1000) 0 = false :=
      not_lt_zero_of_signClear _
        (signClear_mul _ _ (signClear_div _ _ (signClear_length _) (by decide)) (by decide))
    split
    · decide!
    · rename_i x y z heq
      obtain ⟨hx, hy, hz⟩ := not_lt_zero_transmittanceLoop gl hexp _ _ _ 0 0 0 x y z
        (by decide) (by decide) (by decide) heq
      exact neverNegative_add _ _
        (neverNegative_add _ _
          (neverNegative_smul _ _ (not_lt_zero_mul _ _ hx hds) (by decide!))
          (neverNegative_smul _ _ (not_lt_zero_mul _ _ hy hds) (by decide!)))
        (neverNegative_smul _ _ (not_lt_zero_mul _ _ hz hds) (by decide!))

theorem not_zero_lt_neg (a : float) (h : lt a 0 = false) : lt 0 (-a) = false := by
  rw [zero_eq] at h ⊢
  cases a with
  | nan => rfl
  | inf s =>
    cases s
    · rfl
    · simp [lt] at h
  | fin s m e =>
    have hn := toReal_neg (float.fin s m e)
    rw [neg_def]
    simp only [neg] at hn ⊢
    rw [← Bool.not_eq_true, lt_fin_iff, toReal_zero, not_lt] at h ⊢
    rw [hn]
    linarith

theorem not_lt_of_le (a b : float) (h : le a b = true) : lt b a = false := by
  cases a with
  | nan => simp [le] at h
  | inf s =>
    cases b with
    | nan => simp [le] at h
    | inf s2 => simpa [le] using h
    | fin s2 m2 e2 => simpa [le] using h
  | fin s m e =>
    cases b with
    | nan => simp [le] at h
    | inf s2 => simpa [le] using h
    | fin s2 m2 e2 => simpa [le] using h

theorem le_of_not_lt_fin (a : float) (s : Bool) (m : Nat) (e : Int)
    (ha : a.isFinite = true) (h : lt (float.fin s m e) a = false) :
    le a (float.fin s m e) = true := by
  obtain ⟨s1, m1, e1, rfl⟩ := exists_fin_of_isFinite a ha
  simp [le, h]

/-- A non-negative constant times a value that is neither below zero nor above one does not
compare above the constant times one. -/
theorem mul_unit_not_above (k e : float) (hk : le 0 k = true) (hkf : k.isFinite = true)
    (he0 : lt e 0 = false) (he1 : lt 1 e = false) : lt (k * 1) (k * e) = false := by
  cases e with
  | nan => rw [mul_nan, lt_nan]
  | inf s =>
    exfalso
    cases s
    · rw [one_eq] at he1
      simp [lt] at he1
    · rw [zero_eq] at he0
      simp [lt] at he0
  | fin s m ex =>
    apply not_lt_of_le
    have h0 : le 0 (float.fin s m ex) = true := by
      rw [zero_eq] at he0 ⊢
      simp [le, he0]
    have h1 : le (float.fin s m ex) 1 = true := by
      rw [one_eq] at he1 ⊢
      simp [le, he1]
    exact mul_mono _ _ _ _ hk (le_self_of_le_left _ _ hk) h0 h1 hkf isFinite_one

/-- For every `exp` that is never below zero and is never above one at an argument that is
not above zero: no channel of the direct-sun term compares below zero or above the channel of
`SUN_STRENGTH * SUN_STRENGTH * PI`, the binary32 value of `576 * PI`. -/
theorem directSunTerm_range (gl : Builtins)
    (hexp : ∀ a : float, lt (gl.exp a) 0 = false)
    (hone : ∀ a : float, lt 0 a = false → lt 1 (gl.exp a) = false) (p0 v : vec3) :
    (directSunTerm gl p0 v).neverNegative = true ∧
    lt (SUN_STRENGTH * SUN_STRENGTH * PI).x (directSunTerm gl p0 v).x = false ∧
    lt (SUN_STRENGTH * SUN_STRENGTH * PI).y (directSunTerm gl p0 v).y = false ∧
    lt (SUN_STRENGTH * SUN_STRENGTH * PI).z (directSunTerm gl p0 v).z = false := by
  refine ⟨neverNegative_directSunTerm gl hexp p0 v, ?_⟩
  have hT := neverNegative_transmittanceBetween gl hexp (atmosphereExit p0 v) p0
  rw [neverNegative_iff] at hT
  have hk : (SUN_STRENGTH * SUN_STRENGTH * PI : vec3)
      = ⟨float.fin false 14823894 (-13), float.fin false 14823894 (-13),
        float.fin false 14823894 (-13)⟩ := by decide!
  have hk1 : float.fin false 14823894 (-13) * 1 = float.fin false 14823894 (-13) := by decide!
  have key : ∀ t : float, lt t 0 = false →
      lt (float.fin false 14823894 (-13)) (float.fin false 14823894 (-13) * gl.exp (-t))
        = false := by
    intro t ht
    have := mul_unit_not_above (float.fin false 14823894 (-13)) (gl.exp (-t)) (by decide!) rfl
      (hexp _) (hone _ (not_zero_lt_neg t ht))
    rwa [hk1] at this
  unfold directSunTerm
  dsimp only
  rw [hk]
  exact ⟨key _ hT.1, key _ hT.2.1, key _ hT.2.2⟩

/-! ## Claim on the direct-sun term -/

/-- C17, amended. For every ray that does not take the ground branch, `intensitySingleScattering`
adds the direct-sun term exactly when the computed binary32 `dot(v, l)` compares above the
literal `0.9993f`. Then the result is the Rayleigh-plus-Mie scattering sum plus `SUN_STRENGTH *
SUN_STRENGTH * PI * exp(-transmittanceBetween(pb, p0))`, with `pb` the atmosphere-exit point of
the view ray; otherwise it is the scattering sum alone. For every `exp` that is never below zero
and is never above one at an argument that is not above zero, no channel of the term compares
below zero or above the channel `1809.557373046875` of `SUN_STRENGTH * SUN_STRENGTH * PI`, the
binary32 value of `576 * PI`; the term can be zero. -/
theorem intensitySingleScattering_direct_sun_computed (gl : Builtins) (p0 v l il : vec3)
    (hg : lt (-(ofDecimal 5 1)) (forwardRaySphere p0 (-v) EARTH_RADIUS) = false) :
    (lt (ofDecimal 9993 4) (dot v l) = true →
      intensitySingleScattering gl p0 v l il
        = rayleighMieSum gl p0 v l + directSunTerm gl p0 v) ∧
    (lt (ofDecimal 9993 4) (dot v l) = false →
      intensitySingleScattering gl p0 v l il = rayleighMieSum gl p0 v l) ∧
    directSunTerm gl p0 v
      = SUN_STRENGTH * SUN_STRENGTH * PI
          * vexp gl (-(transmittanceBetween gl (atmosphereExit p0 v) p0)) ∧
    ((∀ a : float, lt (gl.exp a) 0 = false) →
      (∀ a : float, lt 0 a = false → lt 1 (gl.exp a) = false) →
      (directSunTerm gl p0 v).neverNegative = true ∧
      lt (SUN_STRENGTH * SUN_STRENGTH * PI).x (directSunTerm gl p0 v).x = false ∧
      lt (SUN_STRENGTH * SUN_STRENGTH * PI).y (directSunTerm gl p0 v).y = false ∧
      lt (SUN_STRENGTH * SUN_STRENGTH * PI).z (directSunTerm gl p0 v).z = false) := by
  rw [intensitySingleScattering_of_not_ground gl p0 v l il hg]
  refine ⟨fun h => by rw [if_pos h], fun h => ?_, rfl,
    fun hexp hone => directSunTerm_range gl hexp hone p0 v⟩
  rw [if_neg (by rw [h]; exact Bool.false_ne_true)]

/-- Witness of C17: the eye at `CAM_POS`, `v = l = (0, -1, 0)`. The ground branch is not taken,
`dot(v, l) = 1` compares above `0.9993f`, and the term is added; and an `exp` that is `0` below
zero and `1` from zero on meets the two hypotheses on `exp`. -/
theorem intensitySingleScattering_direct_sun_computed_witness :
    lt (-(ofDecimal 5 1)) (forwardRaySphere CAM_POS (-(⟨0, -1, 0⟩ : vec3)) EARTH_RADIUS) = false ∧
    lt (ofDecimal 9993 4) (dot ⟨0, -1, 0⟩ ⟨0, -1, 0⟩) = true ∧
    (∀ (gl : Builtins) (il : vec3),
      intensitySingleScattering gl CAM_POS ⟨0, -1, 0⟩ ⟨0, -1, 0⟩ il
        = rayleighMieSum gl CAM_POS ⟨0, -1, 0⟩ ⟨0, -1, 0⟩
          + directSunTerm gl CAM_POS ⟨0, -1, 0⟩) ∧
    ((∀ a : float, lt (if lt a 0 = true then (0 : float) else 1) 0 = false) ∧
     (∀ a : float, lt 0 a = false → lt 1 (if lt a 0 = true then (0 : float) else 1) = false)) ∧
    (directSunTerm ⟨fun a => if lt a 0 = true then 0 else 1, fun _ => 1, fun _ => 0⟩
      CAM_POS ⟨0, -1, 0⟩).neverNegative = true := by
  have hexp : ∀ a : float, lt (if lt a 0 = true then (0 : float) else 1) 0 = false := by
    intro a
    by_cases ha : lt a 0 = true
    · rw [if_pos ha]; decide
    · rw [if_neg ha]; decide
  have hone : ∀ a : float, lt 0 a = false →
      lt 1 (if lt a 0 = true then (0 : float) else 1) = false := by
    intro a _
    by_cases ha : lt a 0 = true
    · rw [if_pos ha]; decide
    · rw [if_neg ha]; decide
  exact ⟨by decide!, by decide!, fun gl il =>
    (intensitySingleScattering_direct_sun_computed gl CAM_POS ⟨0, -1, 0⟩ ⟨0, -1, 0⟩ il
      (by decide!)).1 (by decide!), ⟨hexp, hone⟩,
    ((intensitySingleScattering_direct_sun_computed
      ⟨fun a => if lt a 0 = true then 0 else 1, fun _ => 1, fun _ => 0⟩
      CAM_POS ⟨0, -1, 0⟩ ⟨0, -1, 0⟩ ⟨0, 0, 0⟩ (by decide!)).2.2.2 hexp hone).1⟩

/-! ## The sun disc seen from the top of the atmosphere -/

theorem le_zero_of_not_lt_zero (e b : float) (h1 : lt e 0 = false) (h2 : le e b = true) :
    le 0 e = true := by
  rw [zero_eq] at h1 ⊢
  cases e with
  | nan => simp [le] at h2
  | inf s => simp [le, h1]
  | fin s m ex => simp [le, h1]

theorem le_of_not_lt (a b : float) (ha : le a a = true) (hb : le b b = true)
    (h : lt b a = false) : le a b = true := by
  cases a with
  | nan => simp [le] at ha
  | inf s =>
    cases b with
    | nan => simp [le] at hb
    | inf s2 => simp [le, h]
    | fin s2 m2 e2 => simp [le, h]
  | fin s m e =>
    cases b with
    | nan => simp [le] at hb
    | inf s2 => simp [le, h]
    | fin s2 m2 e2 => simp [le, h]

/-- The argument `-0.02f * x` of the tone map is at most `-20` from `x = 1000` on. -/
theorem toneMap_argument_le (x : float) (hx : le 1000 x = true) :
    le (-(ofDecimal 2 2) * x) (-20) = true := by
  cases x with
  | nan => exact absurd hx (by decide)
  | inf s =>
    cases s
    · decide!
    · exact absurd hx (by decide)
  | fin s m e =>
    have h := mul_antitone_of_nonpos (-(ofDecimal 2 2)) 1000 (float.fin s m e) (by decide!)
      (by decide!) (by decide) rfl hx
    rw [show -(ofDecimal 2 2) * (1000 : float) = -20 by decide!] at h
    exact h

/-- For an `exp` that is never below zero, is non-decreasing and is at most `2^-25` at `-20`
(`e^-20` is `2.06e-9`, `2^-25` is `2.98e-8`), the tone map of every value from `1000` on, plus
infinity included, is not below `1`. -/
theorem toneMap_saturates_of_le (gl : Builtins)
    (hexp : ∀ a : float, lt (gl.exp a) 0 = false)
    (hmono : ∀ a b : float, le a b = true → le (gl.exp a) (gl.exp b) = true)
    (h20 : le (gl.exp (-20)) (float.fin false 8388608 (-48)) = true)
    (x : float) (hx : le 1000 x = true) :
    le 1 (toneMap gl x) = true ∧ lt (toneMap gl x) 1 = false := by
  have h1 := hmono _ _ (toneMap_argument_le x hx)
  have h2 := le_trans_float _ _ _ h1 h20
  have h0 := le_zero_of_not_lt_zero _ _ (hexp _) h2
  have h := (one_sub_antitone (float.fin false 8388608 (-48))
    (gl.exp (-(ofDecimal 2 2) * x)) h0 h2 (by decide!)).1
  rw [show (1 : float) - float.fin false 8388608 (-48) = 1 by decide!] at h
  exact ⟨h, not_lt_of_le _ _ h⟩

/-- A value that is not below zero, plus a positive constant, is not below the constant. -/
theorem add_const_not_below (s : float) (m : Nat) (e : Int) (hm : 0 < m)
    (hr : round false m e false = float.fin false m e) (hs : lt s 0 = false) :
    lt (s + float.fin false m e) (float.fin false m e) = false := by
  cases s with
  | nan => rfl
  | inf sg =>
    rw [zero_eq] at hs
    cases sg
    · rfl
    · simp [lt] at hs
  | fin sg ms es =>
    apply not_lt_of_le
    have h0 := toReal_nonneg_of_not_lt_zero sg ms es hs
    exact Rounds_mono _ _ _ _ (Rounds_of_round_eq false m e hm hr) (add_rounds sg ms es false m e)
      (by linarith)

theorem atmosphereExit_top :
    atmosphereExit ⟨0, ofDecimal 647099 2, 0⟩ ⟨0, -1, 0⟩
      = ⟨float.fin false 0 (-149), float.fin false 13252608 (-11), float.fin false 0 (-149)⟩ := by
  decide!

theorem directSunTerm_top (gl : Builtins) (h0 : gl.exp (-0) = 1) :
    directSunTerm gl ⟨0, ofDecimal 647099 2, 0⟩ ⟨0, -1, 0⟩
      = ⟨float.fin false 14823894 (-13), float.fin false 14823894 (-13),
        float.fin false 14823894 (-13)⟩ := by
  unfold directSunTerm
  dsimp only
  rw [transmittanceBetween_of_short gl _ _ (by decide!)]
  have hv : vexp gl (-(⟨0, 0, 0⟩ : vec3)) = ⟨1, 1, 1⟩ := by
    show (⟨gl.exp (-0), gl.exp (-0), gl.exp (-0)⟩ : vec3) = ⟨1, 1, 1⟩
    rw [h0]
  rw [hv]
  decide!

/-- The view from `p0 = (0, 6470.99f, 0)` straight up with the sun overhead: the radiance is
the scattering sum plus the direct-sun term `576 * PI = 1809.557373046875`, its red channel does
not compare below that value, and when it is a number the red channel of the pixel is not below
`1`. -/
theorem sun_disc_from_top (gl : Builtins)
    (hexp : ∀ a : float, lt (gl.exp a) 0 = false)
    (hcos : ∀ t : float, lt (gl.cos t) (-1) = false)
    (hmono : ∀ a b : float, le a b = true → le (gl.exp a) (gl.exp b) = true)
    (h0 : gl.exp (-0) = 1)
    (h20 : le (gl.exp (-20)) (float.fin false 8388608 (-48)) = true) (il : vec3) :
    lt (intensitySingleScattering gl ⟨0, ofDecimal 647099 2, 0⟩ ⟨0, -1, 0⟩ ⟨0, -1, 0⟩ il).x
      (float.fin false 14823894 (-13)) = false ∧
    (le 0 (intensitySingleScattering gl ⟨0, ofDecimal 647099 2, 0⟩ ⟨0, -1, 0⟩ ⟨0, -1, 0⟩ il).x
        = true →
      le 1 (toneMapColour gl
        (intensitySingleScattering gl ⟨0, ofDecimal 647099 2, 0⟩ ⟨0, -1, 0⟩ ⟨0, -1, 0⟩ il)).x
        = true ∧
      lt (toneMapColour gl
        (intensitySingleScattering gl ⟨0, ofDecimal 647099 2, 0⟩ ⟨0, -1, 0⟩ ⟨0, -1, 0⟩ il)).x 1
        = false) := by
  have hr : intensitySingleScattering gl ⟨0, ofDecimal 647099 2, 0⟩ ⟨0, -1, 0⟩ ⟨0, -1, 0⟩ il
      = rayleighMieSum gl ⟨0, ofDecimal 647099 2, 0⟩ ⟨0, -1, 0⟩ ⟨0, -1, 0⟩
        + ⟨float.fin false 14823894 (-13), float.fin false 14823894 (-13),
          float.fin false 14823894 (-13)⟩ := by
    rw [intensitySingleScattering_of_not_ground gl _ _ _ il (by decide!), if_pos (by decide!),
      directSunTerm_top gl h0]
  have hs := neverNegative_rayleighMieSum gl hexp hcos ⟨0, ofDecimal 647099 2, 0⟩ ⟨0, -1, 0⟩
    ⟨0, -1, 0⟩
  rw [neverNegative_iff] at hs
  have hx : lt (intensitySingleScattering gl ⟨0, ofDecimal 647099 2, 0⟩ ⟨0, -1, 0⟩
      ⟨0, -1, 0⟩ il).x (float.fin false 14823894 (-13)) = false := by
    rw [hr]
    exact add_const_not_below _ 14823894 (-13) (by norm_num) (by decide!) hs.1
  refine ⟨hx, fun hnn => ?_⟩
  have hle := le_of_not_lt (float.fin false 14823894 (-13)) _ (by decide)
    (le_self_of_le_left _ _ hnn) hx
  exact toneMap_saturates_of_le gl hexp hmono h20 _
    (le_trans_float 1000 _ _ (by decide!) hle)

/-! ## Claim on the range of the pixel colour -/

/-- Counterexample to C10 as stated. For a view vector whose components are NaN every channel of
`intensitySingleScattering` is NaN, and NaN is not `>= 0`. And from `p0 = (0, 6470.99f, 0)`,
looking straight up with the sun overhead (`v = l = (0, -1, 0)`), the ground branch is not taken
and the direct-sun term is added; then for every `exp` that is never below zero, is
non-decreasing, is `1` at `-0` and is at most `2^-25` at `-20` (`e^-20` is `2.06e-9`), and for
every `cos` that is never below `-1`: the red channel of the radiance does not compare below
`1809.557373046875`, and when it is a number the red channel of the pixel `1.f - exp(-0.02f *
radiance)` is not below `1`. -/
theorem radiance_nan_and_pixel_one :
    ((∀ (gl : Builtins) (p0 l il : vec3),
        intensitySingleScattering gl p0 ⟨float.nan, float.nan, float.nan⟩ l il
          = ⟨float.nan, float.nan, float.nan⟩) ∧
      le 0 float.nan = false) ∧
    (lt (-(ofDecimal 5 1))
        (forwardRaySphere ⟨0, ofDecimal 647099 2, 0⟩ (-(⟨0, -1, 0⟩ : vec3)) EARTH_RADIUS) = false ∧
      lt (ofDecimal 9993 4) (dot ⟨0, -1, 0⟩ ⟨0, -1, 0⟩) = true ∧
      ∀ gl : Builtins, (∀ a : float, lt (gl.exp a) 0 = false) →
        (∀ t : float, lt (gl.cos t) (-1) = false) →
        (∀ a b : float, le a b = true → le (gl.exp a) (gl.exp b) = true) →
        gl.exp (-0) = 1 → le (gl.exp (-20)) (float.fin false 8388608 (-48)) = true →
        ∀ il : vec3,
          lt (intensitySingleScattering gl ⟨0, ofDecimal 647099 2, 0⟩ ⟨0, -1, 0⟩ ⟨0, -1, 0⟩ il).x
            (float.fin false 14823894 (-13)) = false ∧
          (le 0 (intensitySingleScattering gl ⟨0, ofDecimal 647099 2, 0⟩ ⟨0, -1, 0⟩
              ⟨0, -1, 0⟩ il).x = true →
            le 1 (toneMapColour gl (intensitySingleScattering gl ⟨0, ofDecimal 647099 2, 0⟩
              ⟨0, -1, 0⟩ ⟨0, -1, 0⟩ il)).x = true ∧
            lt (toneMapColour gl (intensitySingleScattering gl ⟨0, ofDecimal 647099 2, 0⟩
              ⟨0, -1, 0⟩ ⟨0, -1, 0⟩ il)).x 1 = false)) :=
  ⟨⟨fun gl p0 l il => intensitySingleScattering_nan_view gl p0 l il, rfl⟩, by decide!,
    by decide!, fun gl hexp hcos hmono h0 h20 il =>
      sun_disc_from_top gl hexp hcos hmono h0 h20 il⟩

/-- C10, amended. For every `exp` that is never below zero and has its values in `[0, 1]` at the
arguments up to zero, every `cos` that is never below `-1`, and every `p0`, `v`, `l`: no channel
of `intensitySingleScattering(p0, v, l, _)` compares below zero, and each channel that is a
number (not NaN) gives a pixel channel `1.f - exp(-0.02f * radiance)` in the closed interval
`[0, 1]`. -/
theorem pixel_colour_range (gl : Builtins)
    (hexp : ∀ a : float, lt (gl.exp a) 0 = false)
    (hcos : ∀ t : float, lt (gl.cos t) (-1) = false)
    (hunit : ∀ a : float, le a 0 = true → le 0 (gl.exp a) = true ∧ le (gl.exp a) 1 = true)
    (p0 v l il : vec3) :
    (intensitySingleScattering gl p0 v l il).neverNegative = true ∧
    (le 0 (intensitySingleScattering gl p0 v l il).x = true →
      le 0 (toneMapColour gl (intensitySingleScattering gl p0 v l il)).x = true ∧
      le (toneMapColour gl (intensitySingleScattering gl p0 v l il)).x 1 = true) ∧
    (le 0 (intensitySingleScattering gl p0 v l il).y = true →
      le 0 (toneMapColour gl (intensitySingleScattering gl p0 v l il)).y = true ∧
      le (toneMapColour gl (intensitySingleScattering gl p0 v l il)).y 1 = true) ∧
    (le 0 (intensitySingleScattering gl p0 v l il).z = true →
      le 0 (toneMapColour gl (intensitySingleScattering gl p0 v l il)).z = true ∧
      le (toneMapColour gl (intensitySingleScattering gl p0 v l il)).z 1 = true) :=
  ⟨neverNegative_intensitySingleScattering gl hexp hcos p0 v l il,
    fun h => toneMap_range gl hunit _ h, fun h => toneMap_range gl hunit _ h,
    fun h => toneMap_range gl hunit _ h⟩

/-- Witness of C10: an `exp` that is `0` below zero and `1` from zero on, a `cos` that is `1`, the
eye at `CAM_POS` looking straight down. The red channel of the radiance is a number, and the red
channel of the pixel is at most `1`. -/
theorem pixel_colour_range_witness :
    ((∀ a : float, lt (if lt a 0 = true then (0 : float) else 1) 0 = false) ∧
     (∀ _t : float, lt (1 : float) (-1) = false) ∧
     (∀ a : float, le a 0 = true →
        le 0 (if lt a 0 = true then (0 : float) else 1) = true ∧
        le (if lt a 0 = true then (0 : float) else 1) 1 = true)) ∧
    le 0 (intensitySingleScattering
      ⟨fun a => if lt a 0 = true then 0 else 1, fun _ => 1, fun _ => 0⟩
      CAM_POS ⟨0, 1, 0⟩ ⟨0, 1, 0⟩ ⟨0, 0, 0⟩).x = true ∧
    le (toneMapColour ⟨fun a => if lt a 0 = true then 0 else 1, fun _ => 1, fun _ => 0⟩
      (intensitySingleScattering
        ⟨fun a => if lt a 0 = true then 0 else 1, fun _ => 1, fun _ => 0⟩
        CAM_POS ⟨0, 1, 0⟩ ⟨0, 1, 0⟩ ⟨0, 0, 0⟩)).x 1 = true := by
  have hexp : ∀ a : float, lt (if lt a 0 = true then (0 : float) else 1) 0 = false := by
    intro a
    by_cases ha : lt a 0 = true
    · rw [if_pos ha]; decide
    · rw [if_neg ha]; decide
  have hcos : ∀ _t : float, lt (1 : float) (-1) = false := fun _ => by decide
  have hunit : ∀ a : float, le a 0 = true →
      le 0 (if lt a 0 = true then (0 : float) else 1) = true ∧
      le (if lt a 0 = true then (0 : float) else 1) 1 = true := by
    intro a _
    by_cases ha : lt a 0 = true
    · rw [if_pos ha]; exact ⟨by decide, by decide⟩
    · rw [if_neg ha]; exact ⟨by decide, by decide⟩
  have hx : le 0 (intensitySingleScattering
      ⟨fun a => if lt a 0 = true then 0 else 1, fun _ => 1, fun _ => 0⟩
      CAM_POS ⟨0, 1, 0⟩ ⟨0, 1, 0⟩ ⟨0, 0, 0⟩).x = true := by
    rw [intensitySingleScattering_of_ground _ _ _ _ _ (by decide!)]
    decide!
  exact ⟨⟨hexp, hcos, hunit⟩, hx,
    ((pixel_colour_range ⟨fun a => if lt a 0 = true then 0 else 1, fun _ => 1, fun _ => 0⟩
      hexp hcos hunit CAM_POS ⟨0, 1, 0⟩ ⟨0, 1, 0⟩ ⟨0, 0, 0⟩).2.1 hx).2⟩

end Binary32

/-! ## Claim on the Henyey-Greenstein base at the `g` of the shader -/

/-- C20, amended. For `g = -0.8f`, the only `g` the shader passes (the binary32 value
`-0.800000011920928955078125`). Over the reals, for every `theta`: the base `1 + g² - 2 g cos θ`
is at least `(1 - |g|)² > 0`, the denominator is non-zero, `sqrt(base³)` is `base^(3/2)`, and the
phase value is strictly positive. In binary32, for every `theta` at which the `cos` of the
platform returns a value between `-1` and `1`: the computed base `1.f + g * g - 2.f * g * cosTheta`
is at least `(1 - |g|)²` and compares above zero, the square root is taken of a value above zero
and is above zero, the denominator is above zero, and the value `phaseHenyeyGreenstein` returns
compares above zero. -/
theorem phaseHenyeyGreenstein_pos_as_used (theta : ℝ) (gl : Binary32.Builtins)
    (t : Binary32.float) (h1 : Binary32.le (-1) (gl.cos t) = true)
    (h2 : Binary32.le (gl.cos t) 1 = true) :
    Binary32.toReal (-(Binary32.ofDecimal 8 1)) = -0.800000011920928955078125 ∧
    (((1 - |(-0.800000011920928955078125 : ℝ)|) ^ 2
        ≤ 1 + -0.800000011920928955078125 * -0.800000011920928955078125
          - 2 * -0.800000011920928955078125 * Real.cos theta ∧
      0 < (1 - |(-0.800000011920928955078125 : ℝ)|) ^ 2) ∧
     2 * (2 + -0.800000011920928955078125 * -0.800000011920928955078125)
        * Real.sqrt
          ((1 + -0.800000011920928955078125 * -0.800000011920928955078125
              - 2 * -0.800000011920928955078125 * Real.cos theta)
            * (1 + -0.800000011920928955078125 * -0.800000011920928955078125
              - 2 * -0.800000011920928955078125 * Real.cos theta)
            * (1 + -0.800000011920928955078125 * -0.800000011920928955078125
              - 2 * -0.800000011920928955078125 * Real.cos theta)) ≠ 0 ∧
     Real.sqrt
          ((1 + -0.800000011920928955078125 * -0.800000011920928955078125
              - 2 * -0.800000011920928955078125 * Real.cos theta)
            * (1 + -0.800000011920928955078125 * -0.800000011920928955078125
              - 2 * -0.800000011920928955078125 * Real.cos theta)
            * (1 + -0.800000011920928955078125 * -0.800000011920928955078125
              - 2 * -0.800000011920928955078125 * Real.cos theta))
        = (1 + -0.800000011920928955078125 * -0.800000011920928955078125
              - 2 * -0.800000011920928955078125 * Real.cos theta) ^ ((3 : ℝ) / 2) ∧
     0 < phaseHenyeyGreenstein theta (-0.800000011920928955078125)) ∧
    ((1 - |Binary32.toReal (-(Binary32.ofDecimal 8 1))|) ^ 2
        ≤ Binary32.toReal (1 + -(Binary32.ofDecimal 8 1) * -(Binary32.ofDecimal 8 1)
            - 2 * -(Binary32.ofDecimal 8 1) * gl.cos t) ∧
     Binary32.lt 0 (1 + -(Binary32.ofDecimal 8 1) * -(Binary32.ofDecimal 8 1)
        - 2 * -(Binary32.ofDecimal 8 1) * gl.cos t) = true ∧
     Binary32.lt 0
        ((1 + -(Binary32.ofDecimal 8 1) * -(Binary32.ofDecimal 8 1)
            - 2 * -(Binary32.ofDecimal 8 1) * gl.cos t)
          * (1 + -(Binary32.ofDecimal 8 1) * -(Binary32.ofDecimal 8 1)
            - 2 * -(Binary32.ofDecimal 8 1) * gl.cos t)
          * (1 + -(Binary32.ofDecimal 8 1) * -(Binary32.ofDecimal 8 1)
            - 2 * -(Binary32.ofDecimal 8 1) * gl.cos t)) = true ∧
     Binary32.lt 0
        (Binary32.sqrt
          ((1 + -(Binary32.ofDecimal 8 1) * -(Binary32.ofDecimal 8 1)
              - 2 * -(Binary32.ofDecimal 8 1) * gl.cos t)
            * (1 + -(Binary32.ofDecimal 8 1) * -(Binary32.ofDecimal 8 1)
              - 2 * -(Binary32.ofDecimal 8 1) * gl.cos t)
            * (1 + -(Binary32.ofDecimal 8 1) * -(Binary32.ofDecimal 8 1)
              - 2 * -(Binary32.ofDecimal 8 1) * gl.cos t))) = true ∧
     Binary32.lt 0
        (2 * (2 + -(Binary32.ofDecimal 8 1) * -(Binary32.ofDecimal 8 1))
          * Binary32.sqrt
            ((1 + -(Binary32.ofDecimal 8 1) * -(Binary32.ofDecimal 8 1)
                - 2 * -(Binary32.ofDecimal 8 1) * gl.cos t)
              * (1 + -(Binary32.ofDecimal 8 1) * -(Binary32.ofDecimal 8 1)
                - 2 * -(Binary32.ofDecimal 8 1) * gl.cos t)
              * (1 + -(Binary32.ofDecimal 8 1) * -(Binary32.ofDecimal 8 1)
                - 2 * -(Binary32.ofDecimal 8 1) * gl.cos t))) = true ∧
     Binary32.lt 0 (Binary32.phaseHenyeyGreenstein gl t (-(Binary32.ofDecimal 8 1))) = true) := by
  have hg : |(-0.800000011920928955078125 : ℝ)| < 1 := by
    rw [abs_lt]
    constructor <;> norm_num
  have h := phaseHenyeyGreenstein_pos_of_abs_lt_one theta _ hg
  have e : -(Binary32.ofDecimal 8 1) = Binary32.float.fin true 13421773 (-24) := by decide!
  have hgval : Binary32.toReal (-(Binary32.ofDecimal 8 1)) = -0.800000011920928955078125 := by
    rw [e, Binary32.toReal_fin]
    norm_num
  obtain ⟨b1, b2, b3, b4, b5, b6, b7⟩ :=
    Binary32.phaseHenyeyGreensteinOfCos_bounds_as_used (gl.cos t) h1 h2
  refine ⟨hgval, ⟨h.1, h.2.2.1, h.2.2.2.1, h.2.2.2.2⟩, ?_, b3, b4, b5, b6, b7⟩
  have hf := Binary32.isFinite_of_lt_of_le _ _ b3 b2 Binary32.secondDenom_max_as_used
  rw [Binary32.secondDenom_min_as_used] at b1
  rw [Binary32.le_iff_toReal (Binary32.float.fin false 10737440 (-28)) _ rfl hf,
    Binary32.toReal_fin] at b1
  rw [hgval]
  refine le_trans ?_ b1
  rw [abs_of_neg (by norm_num)]
  norm_num

/-- Witness of C20: a platform whose `cos` returns `1`, at `theta = 0`. -/
theorem phaseHenyeyGreenstein_pos_as_used_witness :
    Binary32.le (-1) 1 = true ∧ Binary32.le 1 1 = true ∧
    Binary32.lt 0 (Binary32.phaseHenyeyGreenstein ⟨fun _ => 1, fun _ => 1, fun _ => 0⟩ 0
      (-(Binary32.ofDecimal 8 1))) = true :=
  ⟨by decide, by decide,
    (phaseHenyeyGreenstein_pos_as_used 0 ⟨fun _ => 1, fun _ => 1, fun _ => 0⟩ 0
      (by decide) (by decide)).2.2.2.2.2.2.2⟩

end Atmospheric
